import Mathlib

/-!
# absl::string_view — search engine

A shallow embedding of `source/absl/string_view.h` and `source/absl/string_view.cc`.

* Memory is a map from addresses to bytes; a view is the pair `(ptr_, length_)` and
  borrows from memory without ever writing to it.
* A `char` is modelled by its byte (`unsigned char`) value, which is what `memchr`,
  `memcmp` and `LookupTable::Index` look at.
* `size_type` is the 64-bit unsigned integer type: its values are the naturals below
  `2 ^ 64`, `npos` is the largest of them, and subtraction on it wraps around.
* A `const char*` is an address; the null pointer is address `0`.  Library functions
  that return a possibly null pointer (`memchr`) return an `Option`.
-/

namespace absl

/-! ## Memory, `size_type`, and the C library functions the code calls -/

/-- The byte stored at each address. -/
abbrev Mem := Nat → UInt8

/-- Number of values of `size_type` (`std::string::size_type`, 64 bits). -/
def size_type_card : Nat := 2 ^ 64

/-- The sentinel `npos = size_type(-1)`. -/
def npos : Nat := 2 ^ 64 - 1

/-- Subtraction of two `size_type` values: unsigned, wraps modulo `2 ^ 64`. -/
def size_sub (a b : Nat) : Nat := (a + 2 ^ 64 - b) % 2 ^ 64

/-- The null pointer. -/
def nullptr : Nat := 0

/-- C `memchr(p, c, n)`: address of the first byte equal to `c` among the `n` bytes
starting at `p`; `none` is the null pointer returned when there is none. -/
def memchr (mem : Mem) (p : Nat) (c : UInt8) : Nat → Option Nat
  | 0 => none
  | n + 1 => if mem p = c then some p else memchr mem (p + 1) c n

/-- C `memcmp(p, q, n)`: zero when the two ranges of `n` bytes agree, otherwise the
difference of the first pair of differing bytes, compared as `unsigned char`. -/
def memcmp (mem : Mem) (p q : Nat) : Nat → Int
  | 0 => 0
  | n + 1 =>
    if mem p = mem q then memcmp mem (p + 1) (q + 1) n
    else ((mem p).toNat : Int) - ((mem q).toNat : Int)

/-- C++ `std::find_end(first, last, s_first, s_last)` on byte ranges, for a needle
of `n = s_last - s_first` bytes: the helper tries the candidate starts
`first + k - 1, ..., first` in this order and returns the first that matches,
`last` when none does. -/
def find_end_scan (mem : Mem) (first last s_first n : Nat) : Nat → Nat
  | 0 => last
  | k + 1 =>
    if memcmp mem (first + k) s_first n = 0 then first + k
    else find_end_scan mem first last s_first n k

/-- C++ `std::find_end(first, last, s_first, s_last)`: start of the last occurrence
of `[s_first, s_last)` in `[first, last)`; `last` if there is none or if the needle
is empty. -/
def find_end (mem : Mem) (first last s_first s_last : Nat) : Nat :=
  if s_first = s_last then last
  else if last - first < s_last - s_first then last
  else find_end_scan mem first last s_first (s_last - s_first)
    (last - first - (s_last - s_first) + 1)

/-! ## The view -/

/-- `class string_view`: `const char* ptr_` and `size_type length_`. -/
structure string_view where
  ptr_ : Nat
  length_ : Nat
  deriving DecidableEq

namespace string_view

/-- `string_view()`: the default view, null pointer and length zero. -/
def default : string_view := ⟨nullptr, 0⟩

/-- `empty()`. -/
def empty (v : string_view) : Bool := v.length_ == 0

/-- The assertion `pos < length_` made by `at(pos)`. -/
def at_pre (v : string_view) (pos : Nat) : Bool := decide (pos < v.length_)

/-- `at(pos)`: the byte `*(ptr_ + pos)`, for a `pos` that passes the assertion. -/
def at_ (mem : Mem) (v : string_view) (pos : Nat) : UInt8 := mem (v.ptr_ + pos)

/-- `front()`, that is `at(0)`. -/
def front (mem : Mem) (v : string_view) : UInt8 := v.at_ mem 0

/-- `substr(pos, n)`; the defaults are `pos = 0` and `n = npos`. -/
def substr (v : string_view) (pos n : Nat) : string_view :=
  let pos := if pos > v.length_ then v.length_ else pos
  let n := if n > size_sub v.length_ pos then size_sub v.length_ pos else n
  if n > 0 then ⟨v.ptr_ + pos, n⟩ else default

/-- `compare(s)`. -/
def compare (mem : Mem) (v s : string_view) : Int :=
  let res := memcmp mem v.ptr_ s.ptr_ (min v.length_ s.length_)
  if res ≠ 0 then (if res < 0 then -1 else 1)
  else if v.length_ = s.length_ then 0 else (if v.length_ < s.length_ then -1 else 1)

/-- `operator==(lhs, rhs)`. -/
def eq (mem : Mem) (lhs rhs : string_view) : Bool := decide (lhs.compare mem rhs = 0)

/-- `operator!=(lhs, rhs)`: `!(lhs == rhs)`. -/
def ne (mem : Mem) (lhs rhs : string_view) : Bool := !(lhs.eq mem rhs)

/-- `operator<(lhs, rhs)`: `lhs.compare(rhs) < 0`. -/
def lt (mem : Mem) (lhs rhs : string_view) : Bool := decide (lhs.compare mem rhs < 0)

/-- `operator<=(lhs, rhs)`: `!(rhs < lhs)`. -/
def le (mem : Mem) (lhs rhs : string_view) : Bool := !(rhs.lt mem lhs)

/-- `operator>(lhs, rhs)`: `rhs < lhs`. -/
def gt (mem : Mem) (lhs rhs : string_view) : Bool := rhs.lt mem lhs

/-- `operator>=(lhs, rhs)`: `!(lhs < rhs)`. -/
def ge (mem : Mem) (lhs rhs : string_view) : Bool := !(lhs.lt mem rhs)

/-- `starts_with(string_view s)`:
`length_ >= s.length_ && substr(0, s.length_).compare(s) == 0`. -/
def starts_with (mem : Mem) (v s : string_view) : Bool :=
  decide (v.length_ ≥ s.length_) && decide ((v.substr 0 s.length_).compare mem s = 0)

/-- `ends_with(string_view s)`:
`length_ >= s.length_ && substr(length_ - s.length_, s.length_).compare(s) == 0`. -/
def ends_with (mem : Mem) (v s : string_view) : Bool :=
  decide (v.length_ ≥ s.length_) &&
    decide ((v.substr (size_sub v.length_ s.length_) s.length_).compare mem s = 0)

end string_view

/-! ## Forward and backward substring search -/

/-- The `while` loop of `Match`.  Each round calls `memchr` on `[ph, hend)`, returns
the candidate `m` if `memcmp` confirms it, and otherwise restarts at `m + 1`.  The
first argument bounds the number of rounds; `hend - ph` strictly decreases from one
round to the next, so `hend - ph` rounds are enough (`MatchLoop_fuel`). -/
def MatchLoop (mem : Mem) (pn nlen hend : Nat) : Nat → Nat → Option Nat
  | 0, _ => none
  | fuel + 1, ph =>
    match memchr mem ph (mem pn) (hend - ph) with
    | none => none
    | some m =>
      if memcmp mem m pn nlen = 0 then some m
      else MatchLoop mem pn nlen hend fuel (m + 1)

/-- `Match(ph, hlen, pn, nlen)`; `none` is the null pointer. -/
def Match (mem : Mem) (ph hlen pn nlen : Nat) : Option Nat :=
  if 0 = nlen then some ph
  else if hlen < nlen then none
  else
    let hend := ph + hlen - nlen + 1
    MatchLoop mem pn nlen hend (hend - ph) ph

namespace string_view

/-- `find(string_view s, size_type pos)`.  `Match` is only called on a non-empty view,
whose pointer is not null by the invariant of the data model, so the pointer it returns
is null exactly when it is `none`. -/
def find (mem : Mem) (v s : string_view) (pos : Nat) : Nat :=
  if v.empty || decide (pos ≥ v.length_) then
    if v.empty && pos == 0 && s.empty then 0 else npos
  else
    match Match mem (v.ptr_ + pos) (size_sub v.length_ pos) s.ptr_ s.length_ with
    | some res => res - v.ptr_
    | none => npos

/-- `find(char c, size_type pos)`. -/
def find_char (mem : Mem) (v : string_view) (c : UInt8) (pos : Nat) : Nat :=
  if v.empty || decide (pos ≥ v.length_) then npos
  else
    match memchr mem (v.ptr_ + pos) c (size_sub v.length_ pos) with
    | some res => res - v.ptr_
    | none => npos

/-- `rfind(string_view s, size_type pos)`. -/
def rfind (mem : Mem) (v s : string_view) (pos : Nat) : Nat :=
  if v.length_ < s.length_ then npos
  else if s.empty then min v.length_ pos
  else
    let last := v.ptr_ + min (size_sub v.length_ s.length_) pos + s.length_
    let res := find_end mem v.ptr_ last s.ptr_ (s.ptr_ + s.length_)
    if res ≠ last then res - v.ptr_ else npos

end string_view

/-! ## Character-class search -/

/-- `class LookupTable`: the array `bool table_[256]`, indexed by byte value. -/
structure LookupTable where
  table_ : Nat → Bool

namespace LookupTable

/-- `Index(c)`: `static_cast<unsigned char>(c)`. -/
def Index (c : UInt8) : Nat := c.toNat

/-- The initial table `table_[256] = {}`: every entry false. -/
def zero : LookupTable := ⟨fun _ => false⟩

/-- The constructor `LookupTable(string_view s)`:
`for (char c : s) { table_[Index(c)] = true; }`. -/
def build (mem : Mem) (s : string_view) : LookupTable :=
  (List.range s.length_).foldl
    (fun t i => ⟨Function.update t.table_ (Index (mem (s.ptr_ + i))) true⟩) zero

/-- `operator[](c)`: `table_[Index(c)]`. -/
def get (t : LookupTable) (c : UInt8) : Bool := t.table_ (Index c)

end LookupTable

/-- The forward scan `for (auto i = pos; i < length_; ++i) { if (P i) { return i; } }`,
started at `i`; `none` means that the loop ran to its end.  The first argument bounds
the number of rounds: `length_ - i` decreases by one per round, so `length_ - pos`
rounds are enough.  `++i` cannot wrap, because `i < length_` holds when it runs. -/
def for_up (P : Nat → Bool) (length_ : Nat) : Nat → Nat → Option Nat
  | 0, _ => none
  | fuel + 1, i =>
    if i < length_ then
      if P i then some i else for_up P length_ fuel (i + 1)
    else none

/-- The backward scan `for (auto i = start; i > 0; --i) { if (P i) { return i; } }`,
started at `start`; `none` means that the loop ran down to `i == 0` without
returning (index `0` itself is not examined by the loop). -/
def for_down (P : Nat → Bool) : Nat → Option Nat
  | 0 => none
  | i + 1 => if P (i + 1) then some (i + 1) else for_down P i

namespace string_view

/-- `rfind(char c, size_type pos)`. -/
def rfind_char (mem : Mem) (v : string_view) (c : UInt8) (pos : Nat) : Nat :=
  if v.empty then npos
  else
    match for_down (fun i => mem (v.ptr_ + i) == c) (min pos (size_sub v.length_ 1)) with
    | some i => i
    | none => if mem (v.ptr_ + 0) = c then 0 else npos

/-- `find_first_of(char c, size_type pos)`. -/
def find_first_of_char (mem : Mem) (v : string_view) (c : UInt8) (pos : Nat) : Nat :=
  v.find_char mem c pos

/-- `find_last_of(char c, size_type pos)`. -/
def find_last_of_char (mem : Mem) (v : string_view) (c : UInt8) (pos : Nat) : Nat :=
  v.rfind_char mem c pos

/-- `find_first_of(string_view s, size_type pos)`. -/
def find_first_of (mem : Mem) (v s : string_view) (pos : Nat) : Nat :=
  if v.empty || s.empty then npos
  else if s.length_ = 1 then v.find_first_of_char mem (s.front mem) pos
  else
    let table := LookupTable.build mem s
    match for_up (fun i => table.get (mem (v.ptr_ + i))) v.length_ (v.length_ - pos) pos with
    | some i => i
    | none => npos

/-- `find_last_of(string_view s, size_type pos)`. -/
def find_last_of (mem : Mem) (v s : string_view) (pos : Nat) : Nat :=
  if v.empty || s.empty then npos
  else if s.length_ = 1 then v.find_last_of_char mem (s.front mem) pos
  else
    let table := LookupTable.build mem s
    match for_down (fun i => table.get (mem (v.ptr_ + i))) (min pos (size_sub v.length_ 1)) with
    | some i => i
    | none => if table.get (mem (v.ptr_ + 0)) then 0 else npos

/-- `find_first_not_of(char c, size_type pos)`. -/
def find_first_not_of_char (mem : Mem) (v : string_view) (c : UInt8) (pos : Nat) : Nat :=
  if v.empty then npos
  else
    match for_up (fun i => mem (v.ptr_ + i) != c) v.length_ (v.length_ - pos) pos with
    | some i => i
    | none => npos

/-- `find_first_not_of(string_view s, size_type pos)`. -/
def find_first_not_of (mem : Mem) (v s : string_view) (pos : Nat) : Nat :=
  if v.empty then npos
  else if s.empty then (if pos ≥ v.length_ then npos else pos)
  else if s.length_ = 1 then v.find_first_not_of_char mem (s.front mem) pos
  else
    let table := LookupTable.build mem s
    match for_up (fun i => !table.get (mem (v.ptr_ + i))) v.length_ (v.length_ - pos) pos with
    | some i => i
    | none => npos

/-- `find_last_not_of(char c, size_type pos)`. -/
def find_last_not_of_char (mem : Mem) (v : string_view) (c : UInt8) (pos : Nat) : Nat :=
  if v.empty then npos
  else
    match for_down (fun i => mem (v.ptr_ + i) != c) (min pos (size_sub v.length_ 1)) with
    | some i => i
    | none => if mem (v.ptr_ + 0) ≠ c then 0 else npos

/-- `find_last_not_of(string_view s, size_type pos)`. -/
def find_last_not_of (mem : Mem) (v s : string_view) (pos : Nat) : Nat :=
  if v.empty then npos
  else if s.empty then min pos (size_sub v.length_ 1)
  else if s.length_ = 1 then v.find_last_not_of_char mem (s.front mem) pos
  else
    let table := LookupTable.build mem s
    match for_down (fun i => !table.get (mem (v.ptr_ + i))) (min pos (size_sub v.length_ 1)) with
    | some i => i
    | none => if !table.get (mem (v.ptr_ + 0)) then 0 else npos

end string_view

/-! ## Construction, element access, window narrowing and `copy` -/

/-- C `strlen(s)`, scanning from offset `i`: the offset of the first NUL byte.  The first
argument bounds the number of bytes examined. -/
def strlen_scan (mem : Mem) (s : Nat) : Nat → Nat → Option Nat
  | 0, _ => none
  | fuel + 1, i => if mem (s + i) = 0 then some i else strlen_scan mem s fuel (i + 1)

/-- C `strlen(s)`: the offset of the first NUL byte at or after `s`.  Its result is a
`size_t`, so the terminator is looked for among the first `2 ^ 64` bytes; `none` stands
for a buffer without terminator, on which `strlen` has no defined result. -/
def strlen (mem : Mem) (s : Nat) : Option Nat := strlen_scan mem s (2 ^ 64) 0

/-- C `memcpy(dest, src, n)`: the memory after copying `n` bytes from `src` to `dest`
(the two ranges must not overlap). -/
def memcpy (mem : Mem) (dest src n : Nat) : Mem :=
  fun a => if dest ≤ a ∧ a < dest + n then mem (src + (a - dest)) else mem a

namespace string_view

/-- `string_view(const char* s, size_type n)`: pointer and count stored verbatim. -/
def of_counted (s n : Nat) : string_view := ⟨s, n⟩

/-- `string_view(const char* s)`: `ptr_(s), length_(0)`, then
`if (s != nullptr) length_ = strlen(s)`.  The result is `none` only when `strlen` has
none, that is for a non-null `s` without terminator. -/
def of_cstr (mem : Mem) (s : Nat) : Option string_view :=
  if s ≠ nullptr then (strlen mem s).map (fun n => ⟨s, n⟩) else some ⟨s, 0⟩

/-- `at(pos)` as a whole: `assert(pos < length_)` and then `return *(ptr_ + pos)`;
`none` is the failed assertion. -/
def at_checked (mem : Mem) (v : string_view) (pos : Nat) : Option UInt8 :=
  if v.at_pre pos then some (v.at_ mem pos) else none

/-- `operator[](pos)`: `return at(pos)`. -/
def index (mem : Mem) (v : string_view) (pos : Nat) : Option UInt8 :=
  v.at_checked mem pos

/-- `front()` as a whole: `return at(0)`. -/
def front_checked (mem : Mem) (v : string_view) : Option UInt8 := v.at_checked mem 0

/-- The assertion `length_ > 0` made by `back()`. -/
def back_pre (v : string_view) : Bool := decide (v.length_ > 0)

/-- `back()`: the byte `*(ptr_ + length_ - 1)`, for a view that passes the assertion. -/
def back (mem : Mem) (v : string_view) : UInt8 := mem (v.ptr_ + v.length_ - 1)

/-- `back()` as a whole: `assert(length_ > 0)` and then `return *(ptr_ + length_ - 1)`;
`none` is the failed assertion. -/
def back_checked (mem : Mem) (v : string_view) : Option UInt8 :=
  if v.back_pre then some (v.back mem) else none

/-- `remove_prefix(n)`: the view afterwards. -/
def remove_prefix (v : string_view) (n : Nat) : string_view :=
  let n := if n > v.length_ then v.length_ else n
  ⟨v.ptr_ + n, size_sub v.length_ n⟩

/-- `remove_suffix(n)`: the view afterwards. -/
def remove_suffix (v : string_view) (n : Nat) : string_view :=
  let n := if n > v.length_ then v.length_ else n
  ⟨v.ptr_, size_sub v.length_ n⟩

/-- `swap(other)`: the pair (this view, `other`) afterwards. -/
def swap (v other : string_view) : string_view × string_view :=
  (⟨other.ptr_, other.length_⟩, ⟨v.ptr_, v.length_⟩)

/-- `copy(dest, n, pos)`: the memory afterwards and the returned count. -/
def copy (mem : Mem) (v : string_view) (dest n pos : Nat) : Mem × Nat :=
  let pos := if pos > v.length_ then v.length_ else pos
  let n := if n > size_sub v.length_ pos then size_sub v.length_ pos else n
  (memcpy mem dest (v.ptr_ + pos) n, n)

/-- The bytes `data()[0 .. size())` of a view. -/
def bytes (mem : Mem) (v : string_view) : List UInt8 :=
  (List.range v.length_).map (fun i => mem (v.ptr_ + i))

/-- The invariant of the data model: a null pointer comes with length zero. -/
def null_inv (v : string_view) : Prop := v.ptr_ = nullptr → v.length_ = 0

instance (v : string_view) : Decidable (null_inv v) := by
  unfold null_inv
  exact inferInstance

end string_view

/-! ## Formatted output -/

/-- `std::ios_base::left`, `right`, `internal` and `adjustfield`, with the values of
libstdc++; the code only tests `(flags() & adjustfield) == left`. -/
def ios_left : Nat := 32

def ios_right : Nat := 128

def ios_internal : Nat := 16

def ios_adjustfield : Nat := 176

/-- What `operator<<` uses of a `std::ostream`: whether it is good (the verdict of the
`sentry`), the field width (a signed `std::streamsize`), the fill character, the format
flags, and the bytes written so far. -/
structure ostream where
  good : Bool
  width_ : Int
  fill_ : UInt8
  flags_ : Nat
  out : List UInt8
  deriving DecidableEq

namespace ostream

/-- `os.write(buf, n)` on a good sink: the bytes are appended to the output. -/
def write (os : ostream) (buf : List UInt8) : ostream := { os with out := os.out ++ buf }

/-- `os.width(w)`: sets the field width. -/
def set_width (os : ostream) (w : Int) : ostream := { os with width_ := w }

end ostream

/-- Conversion of a `std::streamsize` to `size_t`: the value modulo `2 ^ 64`. -/
def size_cast (w : Int) : Nat := (w % 2 ^ 64).toNat

/-- The `while (pad)` loop of `WritePad`, with `buf` holding 32 fill characters.  The
first argument bounds the number of rounds; `pad` decreases in every round, so `pad`
rounds are enough. -/
def WritePadLoop (buf : List UInt8) : Nat → ostream → Nat → ostream
  | 0, os, _ => os
  | fuel + 1, os, pad =>
    if pad ≠ 0 then
      let n := min pad 32
      WritePadLoop buf fuel (os.write (buf.take n)) (size_sub pad n)
    else os

/-- `WritePad(os, pad)`. -/
def WritePad (os : ostream) (pad : Nat) : ostream :=
  let buf := List.replicate 32 os.fill_
  WritePadLoop buf pad os pad

/-- `operator<<(std::ostream& os, string_view s)`: the sink afterwards. -/
def operator_shl (mem : Mem) (os : ostream) (s : string_view) : ostream :=
  if os.good then
    let pads : Nat × Nat :=
      if size_cast os.width_ > s.length_ then
        let pad := size_sub (size_cast os.width_) s.length_
        if os.flags_ &&& ios_adjustfield = ios_left then (0, pad) else (pad, 0)
      else (0, 0)
    let os1 := if pads.1 ≠ 0 then WritePad os pads.1 else os
    let os2 := os1.write (s.bytes mem)
    let os3 := if pads.2 ≠ 0 then WritePad os2 pads.2 else os2
    os3.set_width 0
  else os

/-! ## The scan of `Match` with a round counter -/

/-- The `while` loop of `Match` run for at most the given number of rounds, one round
being one evaluation of the loop condition (the `memchr` call).  The result is `none`
when the loop is still running after that many rounds; otherwise it is the pointer the
loop leaves to `Match` (`none` for the null pointer) together with the number of
`memcmp` confirmations performed. -/
def MatchRun (mem : Mem) (pn nlen hend : Nat) : Nat → Nat → Option (Option Nat × Nat)
  | 0, _ => none
  | rounds + 1, ph =>
    match memchr mem ph (mem pn) (hend - ph) with
    | none => some (none, 0)
    | some m =>
      if memcmp mem m pn nlen = 0 then some (some m, 1)
      else (MatchRun mem pn nlen hend rounds (m + 1)).map (fun r => (r.1, r.2 + 1))

/-- `Match(ph, hlen, pn, nlen)` with the loop run for at most the given number of rounds:
`none` when the loop is still running, otherwise the returned pointer and the number of
`memcmp` confirmations. -/
def Match_run (mem : Mem) (ph hlen pn nlen rounds : Nat) : Option (Option Nat × Nat) :=
  if 0 = nlen then some (some ph, 0)
  else if hlen < nlen then some (none, 0)
  else
    let hend := ph + hlen - nlen + 1
    MatchRun mem pn nlen hend rounds ph

/-! ## The operations with every subtraction and every read checked

Each `_chk` function is the function of the same name with two kinds of checks added:
a subtraction is only taken when the minuend is at least the subtrahend, and a read (a
direct `ptr_[i]`, or the range handed to `memchr`, `memcmp`, `find_end` or `memcpy`) is
only done when it lies inside the bytes of the view it goes through.  The result is
`none` as soon as a check fails, and `some` of the ordinary result otherwise. -/

/-- The `n` bytes at `p` lie inside the bytes of the view `w`. -/
def in_view (w : string_view) (p n : Nat) : Bool :=
  decide (w.ptr_ ≤ p ∧ p + n ≤ w.ptr_ + w.length_)

/-- Unsigned subtraction with the wrap reported: `none` when the subtrahend exceeds the
minuend. -/
def size_sub_chk (a b : Nat) : Option Nat := if b ≤ a then some (size_sub a b) else none

/-- Difference of two pointers, `none` when the second lies above the first. -/
def ptr_diff_chk (p q : Nat) : Option Nat := if q ≤ p then some (p - q) else none

/-- The loop of `Match` on haystack `v` and needle `s`, checked: `hend - ph`, the range
read by `memchr`, the read of `pn[0]`, and the two ranges read by `memcmp`. -/
def MatchLoop_chk (mem : Mem) (v s : string_view) (hend : Nat) :
    Nat → Nat → Option (Option Nat)
  | 0, ph => if ph ≤ hend ∧ in_view v ph (hend - ph) = true then some none else none
  | fuel + 1, ph =>
    if ph ≤ hend ∧ in_view v ph (hend - ph) = true ∧ s.at_pre 0 = true then
      match memchr mem ph (mem s.ptr_) (hend - ph) with
      | none => some none
      | some m =>
        if in_view v m s.length_ = true ∧ in_view s s.ptr_ s.length_ = true then
          if memcmp mem m s.ptr_ s.length_ = 0 then some (some m)
          else MatchLoop_chk mem v s hend fuel (m + 1)
        else none
    else none

/-- `Match(ph, hlen, s.ptr_, s.length_)` on haystack `v`, checked: `hlen - nlen + 1`. -/
def Match_chk (mem : Mem) (v s : string_view) (ph hlen : Nat) : Option (Option Nat) :=
  if 0 = s.length_ then some (some ph)
  else if hlen < s.length_ then some none
  else if s.length_ ≤ hlen then
    let hend := ph + hlen - s.length_ + 1
    MatchLoop_chk mem v s hend (hend - ph) ph
  else none

/-- The forward scan with the read of index `i` checked by `inb`. -/
def for_up_chk (inb P : Nat → Bool) (length_ : Nat) : Nat → Nat → Option (Option Nat)
  | 0, _ => some none
  | fuel + 1, i =>
    if i < length_ then
      if inb i then
        if P i then some (some i) else for_up_chk inb P length_ fuel (i + 1)
      else none
    else some none

/-- The backward scan with the read of index `i` checked by `inb`. -/
def for_down_chk (inb P : Nat → Bool) : Nat → Option (Option Nat)
  | 0 => some none
  | i + 1 =>
    if inb (i + 1) then
      if P (i + 1) then some (some (i + 1)) else for_down_chk inb P i
    else none

/-- The constructor of `LookupTable`, checked: every index of `s` it reads. -/
def LookupTable.build_chk (mem : Mem) (s : string_view) : Option LookupTable :=
  if (List.range s.length_).all (fun i => s.at_pre i) then some (LookupTable.build mem s)
  else none

namespace string_view

/-- `find(string_view, pos)`, checked: `length_ - pos` and `res - ptr_`. -/
def find_chk (mem : Mem) (v s : string_view) (pos : Nat) : Option Nat :=
  if v.empty || decide (pos ≥ v.length_) then
    some (if v.empty && pos == 0 && s.empty then 0 else npos)
  else
    (size_sub_chk v.length_ pos).bind fun hlen =>
    (Match_chk mem v s (v.ptr_ + pos) hlen).bind fun r =>
    match r with
    | some res => ptr_diff_chk res v.ptr_
    | none => some npos

/-- `find(char, pos)`, checked: `length_ - pos`, the range read by `memchr`, and
`res - ptr_`. -/
def find_char_chk (mem : Mem) (v : string_view) (c : UInt8) (pos : Nat) : Option Nat :=
  if v.empty || decide (pos ≥ v.length_) then some npos
  else
    (size_sub_chk v.length_ pos).bind fun n =>
    if in_view v (v.ptr_ + pos) n then
      match memchr mem (v.ptr_ + pos) c n with
      | some res => ptr_diff_chk res v.ptr_
      | none => some npos
    else none

/-- `rfind(string_view, pos)`, checked: `length_ - s.length_`, the two ranges read by
`find_end`, and `res - ptr_`. -/
def rfind_chk (mem : Mem) (v s : string_view) (pos : Nat) : Option Nat :=
  if v.length_ < s.length_ then some npos
  else if s.empty then some (min v.length_ pos)
  else
    (size_sub_chk v.length_ s.length_).bind fun d =>
    let last := v.ptr_ + min d pos + s.length_
    if in_view v v.ptr_ (last - v.ptr_) = true ∧
        in_view s s.ptr_ (s.ptr_ + s.length_ - s.ptr_) = true then
      let res := find_end mem v.ptr_ last s.ptr_ (s.ptr_ + s.length_)
      if res ≠ last then ptr_diff_chk res v.ptr_ else some npos
    else none

/-- `rfind(char, pos)`, checked: `length_ - 1` and every `ptr_[i]`. -/
def rfind_char_chk (mem : Mem) (v : string_view) (c : UInt8) (pos : Nat) : Option Nat :=
  if v.empty then some npos
  else
    (size_sub_chk v.length_ 1).bind fun d =>
    (for_down_chk v.at_pre (fun i => mem (v.ptr_ + i) == c) (min pos d)).bind fun r =>
    match r with
    | some i => some i
    | none => if v.at_pre 0 then some (if mem (v.ptr_ + 0) = c then 0 else npos) else none

/-- `find_first_of(string_view, pos)`, checked. -/
def find_first_of_chk (mem : Mem) (v s : string_view) (pos : Nat) : Option Nat :=
  if v.empty || s.empty then some npos
  else if s.length_ = 1 then
    if s.at_pre 0 then v.find_char_chk mem (s.front mem) pos else none
  else
    (LookupTable.build_chk mem s).bind fun table =>
    (for_up_chk v.at_pre (fun i => table.get (mem (v.ptr_ + i))) v.length_
      (v.length_ - pos) pos).bind fun r =>
    match r with
    | some i => some i
    | none => some npos

/-- `find_last_of(string_view, pos)`, checked. -/
def find_last_of_chk (mem : Mem) (v s : string_view) (pos : Nat) : Option Nat :=
  if v.empty || s.empty then some npos
  else if s.length_ = 1 then
    if s.at_pre 0 then v.rfind_char_chk mem (s.front mem) pos else none
  else
    (LookupTable.build_chk mem s).bind fun table =>
    (size_sub_chk v.length_ 1).bind fun d =>
    (for_down_chk v.at_pre (fun i => table.get (mem (v.ptr_ + i))) (min pos d)).bind fun r =>
    match r with
    | some i => some i
    | none =>
      if v.at_pre 0 then some (if table.get (mem (v.ptr_ + 0)) then 0 else npos) else none

/-- `find_first_not_of(char, pos)`, checked. -/
def find_first_not_of_char_chk (mem : Mem) (v : string_view) (c : UInt8) (pos : Nat) :
    Option Nat :=
  if v.empty then some npos
  else
    (for_up_chk v.at_pre (fun i => mem (v.ptr_ + i) != c) v.length_
      (v.length_ - pos) pos).bind fun r =>
    match r with
    | some i => some i
    | none => some npos

/-- `find_first_not_of(string_view, pos)`, checked. -/
def find_first_not_of_chk (mem : Mem) (v s : string_view) (pos : Nat) : Option Nat :=
  if v.empty then some npos
  else if s.empty then some (if pos ≥ v.length_ then npos else pos)
  else if s.length_ = 1 then
    if s.at_pre 0 then v.find_first_not_of_char_chk mem (s.front mem) pos else none
  else
    (LookupTable.build_chk mem s).bind fun table =>
    (for_up_chk v.at_pre (fun i => !table.get (mem (v.ptr_ + i))) v.length_
      (v.length_ - pos) pos).bind fun r =>
    match r with
    | some i => some i
    | none => some npos

/-- `find_last_not_of(char, pos)`, checked. -/
def find_last_not_of_char_chk (mem : Mem) (v : string_view) (c : UInt8) (pos : Nat) :
    Option Nat :=
  if v.empty then some npos
  else
    (size_sub_chk v.length_ 1).bind fun d =>
    (for_down_chk v.at_pre (fun i => mem (v.ptr_ + i) != c) (min pos d)).bind fun r =>
    match r with
    | some i => some i
    | none => if v.at_pre 0 then some (if mem (v.ptr_ + 0) ≠ c then 0 else npos) else none

/-- `find_last_not_of(string_view, pos)`, checked. -/
def find_last_not_of_chk (mem : Mem) (v s : string_view) (pos : Nat) : Option Nat :=
  if v.empty then some npos
  else if s.empty then (size_sub_chk v.length_ 1).bind fun d => some (min pos d)
  else if s.length_ = 1 then
    if s.at_pre 0 then v.find_last_not_of_char_chk mem (s.front mem) pos else none
  else
    (LookupTable.build_chk mem s).bind fun table =>
    (size_sub_chk v.length_ 1).bind fun d =>
    (for_down_chk v.at_pre (fun i => !table.get (mem (v.ptr_ + i))) (min pos d)).bind fun r =>
    match r with
    | some i => some i
    | none =>
      if v.at_pre 0 then some (if !table.get (mem (v.ptr_ + 0)) then 0 else npos) else none

/-- `substr(pos, n)`, checked: `length_ - pos`. -/
def substr_chk (v : string_view) (pos n : Nat) : Option string_view :=
  let pos := if pos > v.length_ then v.length_ else pos
  (size_sub_chk v.length_ pos).bind fun d =>
  let n := if n > d then d else n
  some (if n > 0 then ⟨v.ptr_ + pos, n⟩ else default)

/-- `copy(dest, n, pos)`, checked: `length_ - pos` and the range read by `memcpy`. -/
def copy_chk (mem : Mem) (v : string_view) (dest n pos : Nat) : Option (Mem × Nat) :=
  let pos := if pos > v.length_ then v.length_ else pos
  (size_sub_chk v.length_ pos).bind fun d =>
  let n := if n > d then d else n
  if in_view v (v.ptr_ + pos) n then some (memcpy mem dest (v.ptr_ + pos) n, n) else none

end string_view

/-! ## Specification vocabulary -/

/-- The needle `s` occurs in `v` at index `i`: it fits, and the bytes agree. -/
def occurs_at (mem : Mem) (v s : string_view) (i : Nat) : Prop :=
  i + s.length_ ≤ v.length_ ∧ ∀ k, k < s.length_ → mem (v.ptr_ + i + k) = mem (s.ptr_ + k)

/-- The byte `b` occurs in the pattern `p`. -/
def in_pattern (mem : Mem) (p : string_view) (b : UInt8) : Prop :=
  ∃ k, k < p.length_ ∧ mem (p.ptr_ + k) = b

instance (mem : Mem) (v s : string_view) (i : Nat) : Decidable (occurs_at mem v s i) := by
  unfold occurs_at
  exact inferInstance

instance (mem : Mem) (p : string_view) (b : UInt8) : Decidable (in_pattern mem p b) := by
  unfold in_pattern
  exact inferInstance

/-- The views `v` and `w` have the same length and the same bytes (whatever their
pointers are). -/
def same_bytes (mem : Mem) (v w : string_view) : Prop :=
  v.length_ = w.length_ ∧ ∀ k, k < v.length_ → mem (v.ptr_ + k) = mem (w.ptr_ + k)

instance (mem : Mem) (v w : string_view) : Decidable (same_bytes mem v w) := by
  unfold same_bytes
  exact inferInstance

/-! ## Concrete memories used in the examples -/

/-- A memory holding the given bytes from address `0` on, and zero elsewhere. -/
def mem_of (bytes : List UInt8) : Mem := fun a => bytes.getD a 0

/-- Sixteen-byte slots: slot 0 is unused (so that no view sits at the null pointer),
the haystack is in slot 1 and the needle in slot 2. -/
def mem2 (hay needle : String) : Mem :=
  mem_of (List.replicate 16 0 ++ (hay.toList.map Char.toUInt8 ++
    List.replicate (16 - hay.length) 0) ++ needle.toList.map Char.toUInt8)

end absl

/-! ## Lemmas: `size_type` arithmetic and the library functions -/

namespace absl

theorem size_sub_eq {a b : Nat} (hb : b ≤ a) (ha : a ≤ npos) : size_sub a b = a - b := by
  unfold size_sub
  unfold npos at ha
  omega

theorem memcmp_eq_zero_iff (mem : Mem) (n p q : Nat) :
    memcmp mem p q n = 0 ↔ ∀ k, k < n → mem (p + k) = mem (q + k) := by
  induction n generalizing p q with
  | zero => simp [memcmp]
  | succ n ih =>
    unfold memcmp
    split
    · rename_i h
      rw [ih]
      constructor
      · intro H k hk
        cases k with
        | zero => simpa using h
        | succ k =>
          have h1 := H k (by omega)
          have e1 : p + (k + 1) = p + 1 + k := by omega
          have e2 : q + (k + 1) = q + 1 + k := by omega
          rw [e1, e2]; exact h1
      · intro H k hk
        have h1 := H (k + 1) (by omega)
        have e1 : p + (k + 1) = p + 1 + k := by omega
        have e2 : q + (k + 1) = q + 1 + k := by omega
        rw [e1, e2] at h1; exact h1
    · rename_i h
      constructor
      · intro H
        exfalso
        apply h
        apply UInt8.ext
        omega
      · intro H
        exact absurd (H 0 (by omega)) h

theorem memchr_some (mem : Mem) (c : UInt8) (n p m : Nat) (h : memchr mem p c n = some m) :
    p ≤ m ∧ m < p + n ∧ mem m = c ∧ ∀ j, p ≤ j → j < m → mem j ≠ c := by
  induction n generalizing p with
  | zero => simp [memchr] at h
  | succ n ih =>
    unfold memchr at h
    split at h
    · rename_i hc
      injection h with h
      subst h
      exact ⟨Nat.le_refl _, by omega, hc, fun j h1 h2 => by omega⟩
    · rename_i hc
      obtain ⟨h1, h2, h3, h4⟩ := ih (p + 1) h
      refine ⟨by omega, by omega, h3, ?_⟩
      intro j hj1 hj2
      by_cases e : j = p
      · subst e; exact hc
      · exact h4 j (by omega) hj2

theorem memchr_none (mem : Mem) (c : UInt8) (n p : Nat) (h : memchr mem p c n = none) :
    ∀ j, p ≤ j → j < p + n → mem j ≠ c := by
  induction n generalizing p with
  | zero => intro j h1 h2; omega
  | succ n ih =>
    unfold memchr at h
    split at h
    · cases h
    · rename_i hc
      intro j hj1 hj2
      by_cases e : j = p
      · subst e; exact hc
      · exact ih (p + 1) h j (by omega) (by omega)

/-- Outcome of the `find_end` scan over `k` candidate starts. -/
theorem find_end_scan_spec (mem : Mem) (first last s_first n k : Nat) (hk : first + k ≤ last) :
    (find_end_scan mem first last s_first n k = last ∧
      ∀ j, j < k → memcmp mem (first + j) s_first n ≠ 0) ∨
    (∃ r, find_end_scan mem first last s_first n k = first + r ∧ r < k ∧
      memcmp mem (first + r) s_first n = 0 ∧
      ∀ j, r < j → j < k → memcmp mem (first + j) s_first n ≠ 0) := by
  induction k with
  | zero => left; exact ⟨rfl, fun j hj => by omega⟩
  | succ k ih =>
    unfold find_end_scan
    split
    · rename_i h
      right
      exact ⟨k, rfl, by omega, h, fun j h1 h2 => by omega⟩
    · rename_i h
      rcases ih (by omega) with ⟨h1, h2⟩ | ⟨r, h1, h2, h3, h4⟩
      · left
        refine ⟨h1, fun j hj => ?_⟩
        by_cases e : j = k
        · subst e; exact h
        · exact h2 j (by omega)
      · right
        refine ⟨r, h1, by omega, h3, fun j hj1 hj2 => ?_⟩
        by_cases e : j = k
        · subst e; exact h
        · exact h4 j hj1 (by omega)

end absl

/-! ## Lemmas: the loops -/

namespace absl

/-- A confirmed candidate starts with the needle's first byte. -/
theorem memcmp_first_byte (mem : Mem) (j pn nlen : Nat) (hn : 0 < nlen)
    (h : memcmp mem j pn nlen = 0) : mem j = mem pn := by
  have h0 := (memcmp_eq_zero_iff mem nlen j pn).1 h 0 hn
  simpa using h0

/-- What the `while` loop of `Match` returns, given at least `hend - ph` rounds. -/
theorem MatchLoop_spec (mem : Mem) (pn nlen hend : Nat) (hn : 0 < nlen) (fuel ph : Nat)
    (hf : hend - ph ≤ fuel) :
    (∀ m, MatchLoop mem pn nlen hend fuel ph = some m →
      ph ≤ m ∧ m < hend ∧ memcmp mem m pn nlen = 0 ∧
      ∀ j, ph ≤ j → j < m → memcmp mem j pn nlen ≠ 0) ∧
    (MatchLoop mem pn nlen hend fuel ph = none →
      ∀ j, ph ≤ j → j < hend → memcmp mem j pn nlen ≠ 0) := by
  induction fuel generalizing ph with
  | zero =>
    refine ⟨fun m h => by simp [MatchLoop] at h, fun _ j h1 h2 => by omega⟩
  | succ fuel ih =>
    unfold MatchLoop
    cases hm : memchr mem ph (mem pn) (hend - ph) with
    | none =>
      have hnone := memchr_none mem (mem pn) (hend - ph) ph hm
      refine ⟨fun m h => by simp at h, fun _ j h1 h2 hj => ?_⟩
      exact hnone j h1 (by omega) (memcmp_first_byte mem j pn nlen hn hj)
    | some m =>
      obtain ⟨h1, h2, h3, h4⟩ := memchr_some mem (mem pn) (hend - ph) ph m hm
      have skipped : ∀ j, ph ≤ j → j < m → memcmp mem j pn nlen ≠ 0 :=
        fun j hj1 hj2 hj => h4 j hj1 hj2 (memcmp_first_byte mem j pn nlen hn hj)
      by_cases hc : memcmp mem m pn nlen = 0
      · simp only [hc, if_true]
        refine ⟨fun r hr => ?_, fun h => by simp at h⟩
        injection hr with hr
        subst hr
        exact ⟨h1, by omega, hc, skipped⟩
      · simp only [hc, if_false]
        obtain ⟨ih1, ih2⟩ := ih (m + 1) (by omega)
        refine ⟨fun r hr => ?_, fun h j hj1 hj2 => ?_⟩
        · obtain ⟨a1, a2, a3, a4⟩ := ih1 r hr
          refine ⟨by omega, a2, a3, fun j hj1 hj2 => ?_⟩
          by_cases e : j < m
          · exact skipped j hj1 e
          · by_cases e2 : j = m
            · subst e2; exact hc
            · exact a4 j (by omega) hj2
        · by_cases e : j < m
          · exact skipped j hj1 e
          · by_cases e2 : j = m
            · subst e2; exact hc
            · exact ih2 h j (by omega) hj2

/-- The round bound of `MatchLoop` is never the reason it stops: any bound of at least
`hend - ph` rounds gives the same result. -/
theorem MatchLoop_fuel (mem : Mem) (pn nlen hend : Nat) (f1 f2 ph : Nat)
    (h1 : hend - ph ≤ f1) (h2 : f1 ≤ f2) :
    MatchLoop mem pn nlen hend f2 ph = MatchLoop mem pn nlen hend f1 ph := by
  induction f1 generalizing f2 ph with
  | zero =>
    cases f2 with
    | zero => rfl
    | succ f2 =>
      have e : hend - ph = 0 := by omega
      simp [MatchLoop, e, memchr]
  | succ f1 ih =>
    cases f2 with
    | zero => omega
    | succ f2 =>
      unfold MatchLoop
      cases hm : memchr mem ph (mem pn) (hend - ph) with
      | none => rfl
      | some m =>
        obtain ⟨a1, a2, _, _⟩ := memchr_some mem (mem pn) (hend - ph) ph m hm
        by_cases hc : memcmp mem m pn nlen = 0
        · simp [hc]
        · simp only [hc, if_false]
          exact ih f2 (m + 1) (by omega) (by omega)

/-- What the forward scan returns, given at least `length_ - i` rounds. -/
theorem for_up_spec (P : Nat → Bool) (L fuel i : Nat) (hf : L - i ≤ fuel) :
    (∀ r, for_up P L fuel i = some r →
      i ≤ r ∧ r < L ∧ P r = true ∧ ∀ j, i ≤ j → j < r → P j = false) ∧
    (for_up P L fuel i = none → ∀ j, i ≤ j → j < L → P j = false) := by
  induction fuel generalizing i with
  | zero =>
    exact ⟨fun r h => by simp [for_up] at h, fun _ j h1 h2 => by omega⟩
  | succ fuel ih =>
    unfold for_up
    by_cases hi : i < L
    · simp only [hi, if_true]
      by_cases hp : P i = true
      · simp only [hp, if_true]
        refine ⟨fun r hr => ?_, fun h => by simp at h⟩
        injection hr with hr
        subst hr
        exact ⟨Nat.le_refl _, hi, hp, fun j h1 h2 => by omega⟩
      · simp only [hp]
        obtain ⟨ih1, ih2⟩ := ih (i + 1) (by omega)
        have hp2 : P i = false := by simpa using hp
        refine ⟨fun r hr => ?_, fun h j hj1 hj2 => ?_⟩
        · obtain ⟨a1, a2, a3, a4⟩ := ih1 r hr
          refine ⟨by omega, a2, a3, fun j hj1 hj2 => ?_⟩
          by_cases e : j = i
          · subst e; exact hp2
          · exact a4 j (by omega) hj2
        · by_cases e : j = i
          · subst e; exact hp2
          · exact ih2 h j (by omega) hj2
    · simp only [hi, if_false]
      exact ⟨fun r h => by simp at h, fun _ j h1 h2 => by omega⟩

/-- What the backward scan returns. -/
theorem for_down_spec (P : Nat → Bool) (n : Nat) :
    (∀ r, for_down P n = some r →
      0 < r ∧ r ≤ n ∧ P r = true ∧ ∀ j, r < j → j ≤ n → P j = false) ∧
    (for_down P n = none → ∀ j, 0 < j → j ≤ n → P j = false) := by
  induction n with
  | zero =>
    exact ⟨fun r h => by simp [for_down] at h, fun _ j h1 h2 => by omega⟩
  | succ n ih =>
    unfold for_down
    by_cases hp : P (n + 1) = true
    · simp only [hp, if_true]
      refine ⟨fun r hr => ?_, fun h => by simp at h⟩
      injection hr with hr
      subst hr
      exact ⟨by omega, Nat.le_refl _, hp, fun j h1 h2 => by omega⟩
    · simp only [hp]
      have hp2 : P (n + 1) = false := by simpa using hp
      obtain ⟨ih1, ih2⟩ := ih
      refine ⟨fun r hr => ?_, fun h j hj1 hj2 => ?_⟩
      · obtain ⟨a1, a2, a3, a4⟩ := ih1 r hr
        refine ⟨a1, by omega, a3, fun j hj1 hj2 => ?_⟩
        by_cases e : j = n + 1
        · subst e; exact hp2
        · exact a4 j hj1 (by omega)
      · by_cases e : j = n + 1
        · subst e; exact hp2
        · exact ih2 h j hj1 (by omega)

theorem LookupTable.Index_inj {a b : UInt8} : LookupTable.Index a = LookupTable.Index b ↔ a = b :=
  ⟨fun h => UInt8.ext h, fun h => by rw [h]⟩

/-- The table built from `s` answers membership in `s`. -/
theorem LookupTable.build_get (mem : Mem) (s : string_view) (c : UInt8) :
    (LookupTable.build mem s).get c = true ↔ in_pattern mem s c := by
  unfold LookupTable.build LookupTable.get in_pattern
  generalize s.length_ = n
  induction n with
  | zero => simp [LookupTable.zero]
  | succ n ih =>
    rw [List.range_succ, List.foldl_append]
    simp only [List.foldl_cons, List.foldl_nil, Function.update_apply]
    by_cases e : mem (s.ptr_ + n) = c
    · subst e
      simp only [if_true, true_iff]
      exact ⟨n, by omega, rfl⟩
    · have e2 : ¬ LookupTable.Index c = LookupTable.Index (mem (s.ptr_ + n)) :=
        fun h => e (LookupTable.Index_inj.1 h).symm
      simp only [e2, if_false]
      rw [ih]
      constructor
      · rintro ⟨k, hk, h⟩
        exact ⟨k, by omega, h⟩
      · rintro ⟨k, hk, h⟩
        by_cases ek : k = n
        · subst ek; exact absurd h e
        · exact ⟨k, by omega, h⟩

end absl

/-! ## Lemmas: `find`, `rfind`, `substr` and `operator==` -/

namespace absl

theorem occurs_at_iff_memcmp (mem : Mem) (v s : string_view) (i : Nat) :
    occurs_at mem v s i ↔
      i + s.length_ ≤ v.length_ ∧ memcmp mem (v.ptr_ + i) s.ptr_ s.length_ = 0 := by
  unfold occurs_at
  rw [memcmp_eq_zero_iff]

/-- Result of `find` when the start position is at or past the end. -/
theorem find_of_le (mem : Mem) (v s : string_view) (pos : Nat) (h : v.length_ ≤ pos) :
    v.find mem s pos = if v.length_ = 0 ∧ s.length_ = 0 ∧ pos = 0 then 0 else npos := by
  unfold string_view.find string_view.empty
  have h1 : (v.length_ == 0 || decide (pos ≥ v.length_)) = true := by simp [h]
  rw [if_pos h1]
  by_cases c : v.length_ = 0 ∧ s.length_ = 0 ∧ pos = 0
  · obtain ⟨c1, c2, c3⟩ := c
    simp [c1, c2, c3]
  · rw [if_neg c]
    have h2 : ¬ ((v.length_ == 0 && pos == 0 && s.length_ == 0) = true) := by
      simp only [Bool.and_eq_true, beq_iff_eq]
      tauto
    rw [if_neg h2]

/-- Result of `find` when the start position is inside the view: the least occurrence
at or after `pos`, or `npos` when there is none. -/
theorem find_spec (mem : Mem) (v s : string_view) (pos : Nat) (hL : v.length_ ≤ npos)
    (hpos : pos < v.length_) :
    (v.find mem s pos < v.length_ ∧ pos ≤ v.find mem s pos ∧
      occurs_at mem v s (v.find mem s pos) ∧
      ∀ j, pos ≤ j → occurs_at mem v s j → v.find mem s pos ≤ j) ∨
    (v.find mem s pos = npos ∧ ∀ j, pos ≤ j → ¬ occurs_at mem v s j) := by
  unfold string_view.find string_view.empty
  have h1 : ¬ ((v.length_ == 0 || decide (pos ≥ v.length_)) = true) := by
    simp only [Bool.or_eq_true, beq_iff_eq, decide_eq_true_eq]
    omega
  rw [if_neg h1, size_sub_eq (Nat.le_of_lt hpos) hL]
  unfold Match
  by_cases hn : 0 = s.length_
  · rw [if_pos hn]
    left
    simp only [Nat.add_sub_cancel_left]
    refine ⟨hpos, Nat.le_refl _, ⟨by omega, fun k hk => by omega⟩, fun j hj _ => hj⟩
  · rw [if_neg hn]
    by_cases hlt : v.length_ - pos < s.length_
    · rw [if_pos hlt]
      right
      refine ⟨rfl, fun j hj hocc => ?_⟩
      have := hocc.1
      omega
    · rw [if_neg hlt]
      simp only []
      have hnpos : 0 < s.length_ := by omega
      have hend : v.ptr_ + pos + (v.length_ - pos) - s.length_ + 1 =
          v.ptr_ + (v.length_ - s.length_ + 1) := by omega
      rw [hend]
      obtain ⟨l1, l2⟩ := MatchLoop_spec mem s.ptr_ s.length_
        (v.ptr_ + (v.length_ - s.length_ + 1)) hnpos
        (v.ptr_ + (v.length_ - s.length_ + 1) - (v.ptr_ + pos)) (v.ptr_ + pos) (Nat.le_refl _)
      cases hm : MatchLoop mem s.ptr_ s.length_ (v.ptr_ + (v.length_ - s.length_ + 1))
          (v.ptr_ + (v.length_ - s.length_ + 1) - (v.ptr_ + pos)) (v.ptr_ + pos) with
      | none =>
        right
        refine ⟨rfl, fun j hj hocc => ?_⟩
        have hocc2 := (occurs_at_iff_memcmp mem v s j).1 hocc
        exact l2 hm (v.ptr_ + j) (by omega) (by omega) hocc2.2
      | some m =>
        left
        obtain ⟨a1, a2, a3, a4⟩ := l1 m hm
        simp only []
        have em : v.ptr_ + (m - v.ptr_) = m := by omega
        refine ⟨by omega, by omega, ?_, fun j hj hocc => ?_⟩
        · rw [occurs_at_iff_memcmp, em]
          exact ⟨by omega, a3⟩
        · have hocc2 := (occurs_at_iff_memcmp mem v s j).1 hocc
          by_contra hlt2
          exact a4 (v.ptr_ + j) (by omega) (by omega) hocc2.2

/-- Whatever index `find` reports is an occurrence of the needle. -/
theorem find_occurs (mem : Mem) (v s : string_view) (pos : Nat) (hL : v.length_ ≤ npos)
    (h : v.find mem s pos ≠ npos) : occurs_at mem v s (v.find mem s pos) := by
  by_cases hpos : pos < v.length_
  · rcases find_spec mem v s pos hL hpos with ⟨_, _, h3, _⟩ | ⟨h1, _⟩
    · exact h3
    · exact absurd h1 h
  · have hb := find_of_le mem v s pos (by omega)
    by_cases c : v.length_ = 0 ∧ s.length_ = 0 ∧ pos = 0
    · rw [if_pos c] at hb
      rw [hb]
      exact ⟨by omega, fun k hk => by omega⟩
    · rw [if_neg c] at hb
      exact absurd hb h

/-- The sub-view cut out at an occurrence compares equal to the needle. -/
theorem substr_eq_of_occurs (mem : Mem) (v s : string_view) (r : Nat) (hL : v.length_ ≤ npos)
    (h : occurs_at mem v s r) : (v.substr r s.length_).eq mem s = true := by
  obtain ⟨hfit, hbytes⟩ := h
  unfold string_view.substr
  have h1 : ¬ r > v.length_ := by omega
  simp only [h1, if_false]
  rw [size_sub_eq (by omega) hL]
  have h2 : ¬ s.length_ > v.length_ - r := by omega
  simp only [h2, if_false]
  unfold string_view.eq string_view.compare
  by_cases hn : s.length_ > 0
  · simp only [hn, if_true, Nat.min_self]
    have hc : memcmp mem (v.ptr_ + r) s.ptr_ s.length_ = 0 :=
      (memcmp_eq_zero_iff mem s.length_ (v.ptr_ + r) s.ptr_).2 hbytes
    simp [hc]
  · have hz : s.length_ = 0 := by omega
    simp [hz, string_view.default, memcmp]

end absl

namespace absl

/-- Result of `rfind` for a non-empty needle that fits: the greatest occurrence at or
before `min pos (length_ - s.length_)`, or `npos` when there is none. -/
theorem rfind_spec (mem : Mem) (v s : string_view) (pos : Nat) (hL : v.length_ ≤ npos)
    (hs : 0 < s.length_) (hfit : s.length_ ≤ v.length_) :
    (v.rfind mem s pos ≤ min pos (v.length_ - s.length_) ∧
      occurs_at mem v s (v.rfind mem s pos) ∧
      ∀ j, j ≤ min pos (v.length_ - s.length_) → occurs_at mem v s j →
        j ≤ v.rfind mem s pos) ∨
    (v.rfind mem s pos = npos ∧
      ∀ j, j ≤ min pos (v.length_ - s.length_) → ¬ occurs_at mem v s j) := by
  unfold string_view.rfind string_view.empty
  have h1 : ¬ v.length_ < s.length_ := by omega
  have h2 : ¬ ((s.length_ == 0) = true) := by
    simp only [beq_iff_eq]
    omega
  rw [if_neg h1, if_neg h2, size_sub_eq hfit hL]
  simp only []
  unfold find_end
  have h3 : ¬ s.ptr_ = s.ptr_ + s.length_ := by omega
  have h4 : ¬ v.ptr_ + min (v.length_ - s.length_) pos + s.length_ - v.ptr_ <
      s.ptr_ + s.length_ - s.ptr_ := by omega
  rw [if_neg h3, if_neg h4]
  have e1 : s.ptr_ + s.length_ - s.ptr_ = s.length_ := by omega
  have e2 : v.ptr_ + min (v.length_ - s.length_) pos + s.length_ - v.ptr_ - s.length_ + 1 =
      min (v.length_ - s.length_) pos + 1 := by omega
  rw [e1, e2]
  rcases find_end_scan_spec mem v.ptr_ (v.ptr_ + min (v.length_ - s.length_) pos + s.length_)
      s.ptr_ s.length_ (min (v.length_ - s.length_) pos + 1) (by omega) with
    ⟨a1, a2⟩ | ⟨r, a1, a2, a3, a4⟩
  · right
    rw [a1]
    simp only [ne_eq, not_true_eq_false, if_false, true_and]
    intro j hj hocc
    exact a2 j (by omega) ((occurs_at_iff_memcmp mem v s j).1 hocc).2
  · left
    rw [a1]
    have h5 : v.ptr_ + r ≠ v.ptr_ + min (v.length_ - s.length_) pos + s.length_ := by omega
    rw [if_pos h5]
    simp only [Nat.add_sub_cancel_left]
    refine ⟨by omega, ?_, fun j hj hocc => ?_⟩
    · rw [occurs_at_iff_memcmp]
      exact ⟨by omega, a3⟩
    · by_contra hlt
      exact a4 j (by omega) (by omega) ((occurs_at_iff_memcmp mem v s j).1 hocc).2

/-- `substr(a)` with the default count: the tail of the view from index `a` on, or
the default view when nothing remains. -/
theorem substr_tail (v : string_view) (a : Nat) (hL : v.length_ ≤ npos) (ha : a ≤ v.length_) :
    v.substr a npos =
      if v.length_ - a > 0 then ⟨v.ptr_ + a, v.length_ - a⟩ else string_view.default := by
  unfold string_view.substr
  have h1 : ¬ a > v.length_ := by omega
  simp only [h1, if_false]
  rw [size_sub_eq ha hL]
  by_cases h2 : npos > v.length_ - a
  · simp only [h2, if_true]
  · have e : v.length_ - a = npos := by omega
    simp only [e, gt_iff_lt, Nat.lt_irrefl, if_false]

/-- An occurrence in a tail of the view is an occurrence in the view. -/
theorem occurs_at_tail (mem : Mem) (v s : string_view) (a j : Nat) (ha : a ≤ v.length_)
    (h : occurs_at mem ⟨v.ptr_ + a, v.length_ - a⟩ s j) : occurs_at mem v s (a + j) := by
  obtain ⟨h1, h2⟩ := h
  simp only at h1 h2
  refine ⟨by omega, fun k hk => ?_⟩
  have := h2 k hk
  rw [← this]
  congr 1
  omega

end absl

/-! ## Substring search: the claims -/

namespace absl

/-- C1: match validity of `find`.  For every view `v`, needle `s` and start position
`pos`, if `r = v.find(s, pos)` is not `npos`, then `v.substr(r, s.length) == s`, and the
bytes of `v` at `[r, r + s.length)` are exactly the bytes of `s`. Here `hL` says that
the length of `v` is a `size_type` value. -/
theorem find_match_valid (mem : Mem) (v s : string_view) (pos : Nat)
    (hL : v.length_ ≤ npos) (h : v.find mem s pos ≠ npos) :
    (v.substr (v.find mem s pos) s.length_).eq mem s = true ∧
    v.find mem s pos + s.length_ ≤ v.length_ ∧
    ∀ k, k < s.length_ → mem (v.ptr_ + v.find mem s pos + k) = mem (s.ptr_ + k) :=
  have hocc := find_occurs mem v s pos hL h
  ⟨substr_eq_of_occurs mem v s _ hL hocc, hocc.1, hocc.2⟩

theorem find_match_valid_witness :
    (string_view.mk 16 8).find (mem2 "abcdecde" "cd") ⟨32, 2⟩ 0 = 2 ∧
    ((string_view.mk 16 8).substr
        ((string_view.mk 16 8).find (mem2 "abcdecde" "cd") ⟨32, 2⟩ 0) 2).eq
      (mem2 "abcdecde" "cd") ⟨32, 2⟩ = true ∧
    (string_view.mk 16 8).find (mem2 "abcdecde" "cd") ⟨32, 2⟩ 0 + 2 ≤ 8 ∧
    ∀ k, k < 2 →
      mem2 "abcdecde" "cd" (16 + (string_view.mk 16 8).find (mem2 "abcdecde" "cd") ⟨32, 2⟩ 0 + k)
        = mem2 "abcdecde" "cd" (32 + k) :=
  ⟨by decide,
    find_match_valid (mem2 "abcdecde" "cd") ⟨16, 8⟩ ⟨32, 2⟩ 0 (by decide) (by decide)⟩

/-- C2: first-match property of `find`.  For every view `v` of length `L`, every needle
`s` of length `m` and every `pos < L` (so `v` is not empty), `v.find(s, pos)` is the least
index `i` with `pos ≤ i`, `i + m ≤ L` and `v[i .. i+m)` equal to `s` whenever such an index
exists; it is `npos` exactly when none exists; and it is `pos` when `s` is empty. Here `hL` says that
the length of `v` is a `size_type` value. -/
theorem find_first_match (mem : Mem) (v s : string_view) (pos : Nat)
    (hL : v.length_ ≤ npos) (hpos : pos < v.length_) :
    ((∃ i, pos ≤ i ∧ occurs_at mem v s i) →
      IsLeast {i | pos ≤ i ∧ occurs_at mem v s i} (v.find mem s pos)) ∧
    (v.find mem s pos = npos ↔ ¬ ∃ i, pos ≤ i ∧ occurs_at mem v s i) ∧
    (s.length_ = 0 → v.find mem s pos = pos) := by
  rcases find_spec mem v s pos hL hpos with ⟨h1, h2, h3, h4⟩ | ⟨h1, h2⟩
  · refine ⟨fun _ => ⟨⟨h2, h3⟩, fun j hj => h4 j hj.1 hj.2⟩, ⟨fun h => ?_, fun h => ?_⟩, fun hz => ?_⟩
    · omega
    · exact absurd ⟨_, h2, h3⟩ h
    · have hp : occurs_at mem v s pos := ⟨by omega, fun k hk => by omega⟩
      have := h4 pos (Nat.le_refl _) hp
      omega
  · refine ⟨fun ⟨i, hi, hocc⟩ => absurd hocc (h2 i hi), ⟨fun _ => ?_, fun _ => h1⟩, fun hz => ?_⟩
    · rintro ⟨i, hi, hocc⟩
      exact h2 i hi hocc
    · have hp : occurs_at mem v s pos := ⟨by omega, fun k hk => by omega⟩
      exact absurd hp (h2 pos (Nat.le_refl _))

theorem find_first_match_witness :
    occurs_at (mem2 "abcabcabcd" "abc") ⟨16, 10⟩ ⟨32, 3⟩ 3 ∧
    (string_view.mk 16 10).find (mem2 "abcabcabcd" "abc") ⟨32, 3⟩ 1 = 3 ∧
    ((∃ i, 1 ≤ i ∧ occurs_at (mem2 "abcabcabcd" "abc") ⟨16, 10⟩ ⟨32, 3⟩ i) →
      IsLeast {i | 1 ≤ i ∧ occurs_at (mem2 "abcabcabcd" "abc") ⟨16, 10⟩ ⟨32, 3⟩ i}
        ((string_view.mk 16 10).find (mem2 "abcabcabcd" "abc") ⟨32, 3⟩ 1)) ∧
    ((string_view.mk 16 10).find (mem2 "abcabcabcd" "abc") ⟨32, 3⟩ 1 = npos ↔
      ¬ ∃ i, 1 ≤ i ∧ occurs_at (mem2 "abcabcabcd" "abc") ⟨16, 10⟩ ⟨32, 3⟩ i) ∧
    ((3 : Nat) = 0 → (string_view.mk 16 10).find (mem2 "abcabcabcd" "abc") ⟨32, 3⟩ 1 = 1) :=
  ⟨by decide, by decide,
    find_first_match (mem2 "abcabcabcd" "abc") ⟨16, 10⟩ ⟨32, 3⟩ 1 (by decide) (by decide)⟩

/-- C3: last-match property of `rfind`.  For every view `v` of length `L`, every
non-empty needle `s` of length `m` and every `pos`: `v.rfind(s, pos)` is `npos` when
`L < m`; otherwise it is the greatest index `i ≤ min(pos, L - m)` at which `s` occurs in
`v` whenever such an index exists, and it is `npos` exactly when none exists. Here `hL` says that
the length of `v` is a `size_type` value. -/
theorem rfind_last_match (mem : Mem) (v s : string_view) (pos : Nat)
    (hL : v.length_ ≤ npos) (hs : 0 < s.length_) :
    (v.length_ < s.length_ → v.rfind mem s pos = npos) ∧
    (s.length_ ≤ v.length_ →
      ((∃ i, i ≤ min pos (v.length_ - s.length_) ∧ occurs_at mem v s i) →
        IsGreatest {i | i ≤ min pos (v.length_ - s.length_) ∧ occurs_at mem v s i}
          (v.rfind mem s pos)) ∧
      (v.rfind mem s pos = npos ↔
        ¬ ∃ i, i ≤ min pos (v.length_ - s.length_) ∧ occurs_at mem v s i)) := by
  refine ⟨fun hlt => ?_, fun hfit => ?_⟩
  · unfold string_view.rfind
    rw [if_pos hlt]
  · rcases rfind_spec mem v s pos hL hs hfit with ⟨h1, h2, h3⟩ | ⟨h1, h2⟩
    · refine ⟨fun _ => ⟨⟨h1, h2⟩, fun j hj => h3 j hj.1 hj.2⟩, fun h => ?_, fun h => ?_⟩
      · have := Nat.min_le_right pos (v.length_ - s.length_)
        omega
      · exact absurd ⟨_, h1, h2⟩ h
    · refine ⟨fun ⟨i, hi, hocc⟩ => absurd hocc (h2 i hi), fun _ => ?_, fun _ => h1⟩
      rintro ⟨i, hi, hocc⟩
      exact h2 i hi hocc

theorem rfind_last_match_witness :
    occurs_at (mem2 "abcabcabcd" "abc") ⟨16, 10⟩ ⟨32, 3⟩ 3 ∧
    (string_view.mk 16 10).rfind (mem2 "abcabcabcd" "abc") ⟨32, 3⟩ 4 = 3 ∧
    ((10 : Nat) < 3 → (string_view.mk 16 10).rfind (mem2 "abcabcabcd" "abc") ⟨32, 3⟩ 4 = npos) ∧
    ((3 : Nat) ≤ 10 →
      ((∃ i, i ≤ min 4 (10 - 3) ∧ occurs_at (mem2 "abcabcabcd" "abc") ⟨16, 10⟩ ⟨32, 3⟩ i) →
        IsGreatest {i | i ≤ min 4 (10 - 3) ∧ occurs_at (mem2 "abcabcabcd" "abc") ⟨16, 10⟩ ⟨32, 3⟩ i}
          ((string_view.mk 16 10).rfind (mem2 "abcabcabcd" "abc") ⟨32, 3⟩ 4)) ∧
      ((string_view.mk 16 10).rfind (mem2 "abcabcabcd" "abc") ⟨32, 3⟩ 4 = npos ↔
        ¬ ∃ i, i ≤ min 4 (10 - 3) ∧ occurs_at (mem2 "abcabcabcd" "abc") ⟨16, 10⟩ ⟨32, 3⟩ i)) :=
  ⟨by decide, by decide,
    rfind_last_match (mem2 "abcabcabcd" "abc") ⟨16, 10⟩ ⟨32, 3⟩ 4 (by decide) (by decide)⟩

end absl

namespace absl

/-- C4 as stated fails for the empty needle: in the view "abc", `rfind` of the empty
view with the default position is `3`, not `npos`, yet `find` of the empty view in
`substr(3 + 1)` (the default view) is `0`, not `npos`. -/
theorem rfind_maximal_counterexample :
    ¬ ((string_view.mk 16 3).rfind (mem2 "abc" "") string_view.default npos ≠ npos →
      ((string_view.mk 16 3).substr
        ((string_view.mk 16 3).rfind (mem2 "abc" "") string_view.default npos + 1) npos).find
          (mem2 "abc" "") string_view.default 0 = npos) := by
  decide

/-- C4, amended: maximality of backward search for a non-empty needle.  For every view
`v` and every non-empty needle `s`, if `i = v.rfind(s)` (default position `npos`) is not
`npos`, then `v.substr(i + 1).find(s) == npos`: no occurrence of `s` lies after `i`. Here `hL` says that
the length of `v` is a `size_type` value. -/
theorem rfind_maximal_nonempty_needle (mem : Mem) (v s : string_view)
    (hL : v.length_ ≤ npos) (hs : 0 < s.length_) (h : v.rfind mem s npos ≠ npos) :
    (v.substr (v.rfind mem s npos + 1) npos).find mem s 0 = npos := by
  have hfit : s.length_ ≤ v.length_ := by
    by_contra hlt
    apply h
    unfold string_view.rfind
    rw [if_pos (by omega)]
  rcases rfind_spec mem v s npos hL hs hfit with ⟨h1, h2, h3⟩ | ⟨h1, _⟩
  · have hi : v.rfind mem s npos + 1 ≤ v.length_ := by
      have := h2.1
      omega
    rw [substr_tail v _ hL hi]
    by_cases hrest : v.length_ - (v.rfind mem s npos + 1) > 0
    · rw [if_pos hrest]
      rcases find_spec mem ⟨v.ptr_ + (v.rfind mem s npos + 1),
          v.length_ - (v.rfind mem s npos + 1)⟩ s 0
          (by simp only; omega) hrest with ⟨_, _, a3, _⟩ | ⟨a1, _⟩
      · exfalso
        have hocc := occurs_at_tail mem v s _ _ hi a3
        have hle := hocc.1
        have hb : v.rfind mem s npos + 1 + string_view.find mem
            ⟨v.ptr_ + (v.rfind mem s npos + 1), v.length_ - (v.rfind mem s npos + 1)⟩ s 0 ≤
            min npos (v.length_ - s.length_) := by
          have : v.length_ - s.length_ ≤ npos := by omega
          rw [Nat.min_eq_right this]
          omega
        have := h3 _ hb hocc
        omega
      · exact a1
    · rw [if_neg hrest]
      rw [find_of_le mem string_view.default s 0 (Nat.zero_le _)]
      have hne : ¬ (string_view.default.length_ = 0 ∧ s.length_ = 0 ∧ 0 = 0) := by
        rintro ⟨_, hz, _⟩
        omega
      rw [if_neg hne]
  · exact absurd h1 h

theorem rfind_maximal_nonempty_needle_witness :
    (string_view.mk 16 8).rfind (mem2 "abcdecde" "cd") ⟨32, 2⟩ npos = 5 ∧
    ((string_view.mk 16 8).substr
      ((string_view.mk 16 8).rfind (mem2 "abcdecde" "cd") ⟨32, 2⟩ npos + 1) npos).find
        (mem2 "abcdecde" "cd") ⟨32, 2⟩ 0 = npos :=
  ⟨by decide,
    rfind_maximal_nonempty_needle (mem2 "abcdecde" "cd") ⟨16, 8⟩ ⟨32, 2⟩
      (by decide) (by decide) (by decide)⟩

/-- C5: `rfind` with an empty needle never reports "not found".  For every view `v`
(empty or not), every empty needle `s` and every `pos`, `v.rfind(s, pos)` is
`min(v.length, pos)`; this is an index in `[0, v.length]`, and it differs from `npos`
for every view shorter than `npos` bytes. -/
theorem rfind_empty_needle (mem : Mem) (v s : string_view) (pos : Nat)
    (hs : s.empty = true) :
    v.rfind mem s pos = min v.length_ pos ∧
    v.rfind mem s pos ≤ v.length_ ∧
    (v.length_ < npos → v.rfind mem s pos ≠ npos) := by
  have hz : s.length_ = 0 := by simpa [string_view.empty] using hs
  have e : v.rfind mem s pos = min v.length_ pos := by
    unfold string_view.rfind
    rw [if_neg (by omega), if_pos hs]
  rw [e]
  have := Nat.min_le_left v.length_ pos
  exact ⟨rfl, this, fun h => by omega⟩

theorem rfind_empty_needle_witness :
    (string_view.mk 16 3).rfind (mem2 "abc" "") string_view.default 1 = 1 ∧
    (string_view.mk 16 3).rfind (mem2 "abc" "") string_view.default npos = 3 ∧
    ((string_view.mk 16 3).rfind (mem2 "abc" "") string_view.default 7 = min 3 7 ∧
      (string_view.mk 16 3).rfind (mem2 "abc" "") string_view.default 7 ≤ 3 ∧
      (3 < npos → (string_view.mk 16 3).rfind (mem2 "abc" "") string_view.default 7 ≠ npos)) :=
  ⟨by decide, by decide,
    rfind_empty_needle (mem2 "abc" "") ⟨16, 3⟩ string_view.default 7 (by decide)⟩

/-- C6: boundary cases of `find`.  For every view `v`, needle `s` and `pos` such that `v`
is empty or `pos ≥ v.length`, `v.find(s, pos)` is `0` if `v` is empty, `s` is empty and
`pos == 0`, and `npos` in every other case; in particular an empty needle searched from
`pos == v.length` on a non-empty view gives `npos`. -/
theorem find_boundary (mem : Mem) (v s : string_view) (pos : Nat)
    (h : v.empty = true ∨ pos ≥ v.length_) :
    v.find mem s pos =
      (if v.empty = true ∧ s.empty = true ∧ pos = 0 then 0 else npos) ∧
    (v.empty = false → s.empty = true → pos = v.length_ → v.find mem s pos = npos) := by
  have hle : v.length_ ≤ pos := by
    rcases h with h | h
    · have hz : v.length_ = 0 := by simpa [string_view.empty] using h
      omega
    · exact h
  have e := find_of_le mem v s pos hle
  refine ⟨?_, fun hv hs hp => ?_⟩
  · rw [e]
    simp only [string_view.empty, beq_iff_eq]
  · rw [e]
    have hnz : v.length_ ≠ 0 := by simpa [string_view.empty] using hv
    rw [if_neg (fun c => hnz c.1)]

theorem find_boundary_witness :
    (string_view.mk 16 3).find (mem2 "abc" "") string_view.default 3 = npos ∧
    string_view.default.find (mem2 "" "") string_view.default 0 = 0 ∧
    ((string_view.mk 16 3).find (mem2 "abc" "abc") ⟨32, 3⟩ 3 =
        (if (string_view.mk 16 3).empty = true ∧ (string_view.mk 32 3).empty = true ∧ 3 = 0
          then 0 else npos) ∧
      ((string_view.mk 16 3).empty = false → (string_view.mk 32 3).empty = true →
        3 = (string_view.mk 16 3).length_ →
        (string_view.mk 16 3).find (mem2 "abc" "abc") ⟨32, 3⟩ 3 = npos)) :=
  ⟨by decide, by decide,
    find_boundary (mem2 "abc" "abc") ⟨16, 3⟩ ⟨32, 3⟩ 3 (Or.inr (by decide))⟩

end absl

/-! ## Lemmas: character-class search -/

namespace absl

theorem in_pattern_empty (mem : Mem) (p : string_view) (b : UInt8) (hp : p.length_ = 0) :
    ¬ in_pattern mem p b := by
  rintro ⟨k, hk, _⟩
  omega

/-- For a one-byte pattern, membership is equality with `front()`; the assertion made
by `front()` holds there. -/
theorem in_pattern_single (mem : Mem) (p : string_view) (b : UInt8) (hp : p.length_ = 1) :
    p.at_pre 0 = true ∧ (in_pattern mem p b ↔ p.front mem = b) := by
  refine ⟨by simp [string_view.at_pre, hp], ?_⟩
  unfold in_pattern string_view.front string_view.at_
  constructor
  · rintro ⟨k, hk, h⟩
    have : k = 0 := by omega
    subst this
    exact h
  · intro h
    exact ⟨0, by omega, h⟩

/-- Result of `find(char, pos)`: the least index at or after `pos` holding `c`, or
`npos` when there is none. -/
theorem find_char_spec (mem : Mem) (v : string_view) (c : UInt8) (pos : Nat)
    (hL : v.length_ ≤ npos) :
    (v.find_char mem c pos < v.length_ ∧ pos ≤ v.find_char mem c pos ∧
      mem (v.ptr_ + v.find_char mem c pos) = c ∧
      ∀ j, pos ≤ j → j < v.find_char mem c pos → mem (v.ptr_ + j) ≠ c) ∨
    (v.find_char mem c pos = npos ∧ ∀ j, pos ≤ j → j < v.length_ → mem (v.ptr_ + j) ≠ c) := by
  unfold string_view.find_char string_view.empty
  by_cases hpos : pos < v.length_
  · have h1 : ¬ ((v.length_ == 0 || decide (pos ≥ v.length_)) = true) := by
      simp only [Bool.or_eq_true, beq_iff_eq, decide_eq_true_eq]
      omega
    rw [if_neg h1, size_sub_eq (Nat.le_of_lt hpos) hL]
    cases hm : memchr mem (v.ptr_ + pos) c (v.length_ - pos) with
    | none =>
      right
      have hnone := memchr_none mem c (v.length_ - pos) (v.ptr_ + pos) hm
      exact ⟨rfl, fun j hj1 hj2 => hnone (v.ptr_ + j) (by omega) (by omega)⟩
    | some m =>
      left
      obtain ⟨a1, a2, a3, a4⟩ := memchr_some mem c (v.length_ - pos) (v.ptr_ + pos) m hm
      simp only []
      have em : v.ptr_ + (m - v.ptr_) = m := by omega
      rw [em]
      exact ⟨by omega, by omega, a3, fun j hj1 hj2 => a4 (v.ptr_ + j) (by omega) (by omega)⟩
  · have h1 : (v.length_ == 0 || decide (pos ≥ v.length_)) = true := by
      simp only [Bool.or_eq_true, beq_iff_eq, decide_eq_true_eq]
      omega
    rw [if_pos h1]
    right
    exact ⟨rfl, fun j hj1 hj2 => by omega⟩

/-- Result of `find_first_of`: the least index at or after `pos` whose byte is in the
pattern, or `npos` when there is none. -/
theorem find_first_of_spec (mem : Mem) (v p : string_view) (pos : Nat)
    (hL : v.length_ ≤ npos) :
    (v.find_first_of mem p pos < v.length_ ∧ pos ≤ v.find_first_of mem p pos ∧
      in_pattern mem p (v.at_ mem (v.find_first_of mem p pos)) ∧
      ∀ j, pos ≤ j → j < v.find_first_of mem p pos → ¬ in_pattern mem p (v.at_ mem j)) ∨
    (v.find_first_of mem p pos = npos ∧
      ∀ j, pos ≤ j → j < v.length_ → ¬ in_pattern mem p (v.at_ mem j)) := by
  unfold string_view.find_first_of string_view.empty
  by_cases h0 : v.length_ = 0 ∨ p.length_ = 0
  · have h1 : (v.length_ == 0 || p.length_ == 0) = true := by
      simpa only [Bool.or_eq_true, beq_iff_eq] using h0
    rw [if_pos h1]
    right
    refine ⟨rfl, fun j hj1 hj2 => ?_⟩
    rcases h0 with h0 | h0
    · omega
    · exact in_pattern_empty mem p _ h0
  · have h1 : ¬ ((v.length_ == 0 || p.length_ == 0) = true) := by
      simpa only [Bool.or_eq_true, beq_iff_eq] using h0
    rw [if_neg h1]
    by_cases h2 : p.length_ = 1
    · rw [if_pos h2]
      unfold string_view.find_first_of_char
      have hin := fun b => (in_pattern_single mem p b h2).2
      rcases find_char_spec mem v (p.front mem) pos hL with ⟨a1, a2, a3, a4⟩ | ⟨a1, a2⟩
      · left
        exact ⟨a1, a2, (hin _).2 a3.symm,
          fun j hj1 hj2 hj => a4 j hj1 hj2 ((hin _).1 hj).symm⟩
      · right
        exact ⟨a1, fun j hj1 hj2 hj => a2 j hj1 hj2 ((hin _).1 hj).symm⟩
    · rw [if_neg h2]
      simp only []
      obtain ⟨l1, l2⟩ := for_up_spec
        (fun i => (LookupTable.build mem p).get (mem (v.ptr_ + i))) v.length_
        (v.length_ - pos) pos (Nat.le_refl _)
      cases hfu : for_up (fun i => (LookupTable.build mem p).get (mem (v.ptr_ + i)))
          v.length_ (v.length_ - pos) pos with
      | none =>
        right
        refine ⟨rfl, fun j hj1 hj2 hj => ?_⟩
        have hf := l2 hfu j hj1 hj2
        have ht := (LookupTable.build_get mem p _).2 hj
        unfold string_view.at_ at ht
        simp only [ht] at hf
        exact Bool.noConfusion hf
      | some i =>
        left
        obtain ⟨a1, a2, a3, a4⟩ := l1 i hfu
        simp only []
        refine ⟨a2, a1, (LookupTable.build_get mem p _).1 a3, fun j hj1 hj2 hj => ?_⟩
        have hf := a4 j hj1 hj2
        have ht := (LookupTable.build_get mem p _).2 hj
        unfold string_view.at_ at ht
        simp only [ht] at hf
        exact Bool.noConfusion hf

end absl

namespace absl

/-- Result of `find_first_not_of(char, pos)`: the least index at or after `pos` whose
byte differs from `c`, or `npos` when there is none. -/
theorem find_first_not_of_char_spec (mem : Mem) (v : string_view) (c : UInt8) (pos : Nat) :
    (v.find_first_not_of_char mem c pos < v.length_ ∧
      pos ≤ v.find_first_not_of_char mem c pos ∧
      mem (v.ptr_ + v.find_first_not_of_char mem c pos) ≠ c ∧
      ∀ j, pos ≤ j → j < v.find_first_not_of_char mem c pos → mem (v.ptr_ + j) = c) ∨
    (v.find_first_not_of_char mem c pos = npos ∧
      ∀ j, pos ≤ j → j < v.length_ → mem (v.ptr_ + j) = c) := by
  unfold string_view.find_first_not_of_char string_view.empty
  by_cases h0 : v.length_ = 0
  · have h1 : (v.length_ == 0) = true := by simpa only [beq_iff_eq] using h0
    rw [if_pos h1]
    right
    exact ⟨rfl, fun j hj1 hj2 => by omega⟩
  · have h1 : ¬ ((v.length_ == 0) = true) := by simpa only [beq_iff_eq] using h0
    rw [if_neg h1]
    obtain ⟨l1, l2⟩ := for_up_spec (fun i => mem (v.ptr_ + i) != c) v.length_
      (v.length_ - pos) pos (Nat.le_refl _)
    cases hfu : for_up (fun i => mem (v.ptr_ + i) != c) v.length_ (v.length_ - pos) pos with
    | none =>
      right
      refine ⟨rfl, fun j hj1 hj2 => ?_⟩
      have hf := l2 hfu j hj1 hj2
      simpa using hf
    | some i =>
      left
      obtain ⟨a1, a2, a3, a4⟩ := l1 i hfu
      simp only []
      refine ⟨a2, a1, by simpa using a3, fun j hj1 hj2 => ?_⟩
      have hf := a4 j hj1 hj2
      simpa using hf

/-- Result of `find_first_not_of`: the least index at or after `pos` whose byte is not
in the pattern, or `npos` when there is none. -/
theorem find_first_not_of_spec (mem : Mem) (v p : string_view) (pos : Nat) :
    (v.find_first_not_of mem p pos < v.length_ ∧ pos ≤ v.find_first_not_of mem p pos ∧
      ¬ in_pattern mem p (v.at_ mem (v.find_first_not_of mem p pos)) ∧
      ∀ j, pos ≤ j → j < v.find_first_not_of mem p pos → in_pattern mem p (v.at_ mem j)) ∨
    (v.find_first_not_of mem p pos = npos ∧
      ∀ j, pos ≤ j → j < v.length_ → in_pattern mem p (v.at_ mem j)) := by
  unfold string_view.find_first_not_of string_view.empty
  by_cases h0 : v.length_ = 0
  · have h1 : (v.length_ == 0) = true := by simpa only [beq_iff_eq] using h0
    rw [if_pos h1]
    right
    exact ⟨rfl, fun j hj1 hj2 => by omega⟩
  · have h1 : ¬ ((v.length_ == 0) = true) := by simpa only [beq_iff_eq] using h0
    rw [if_neg h1]
    by_cases hp0 : p.length_ = 0
    · have h2 : (p.length_ == 0) = true := by simpa only [beq_iff_eq] using hp0
      rw [if_pos h2]
      by_cases hpos : pos ≥ v.length_
      · rw [if_pos hpos]
        right
        exact ⟨rfl, fun j hj1 hj2 => by omega⟩
      · rw [if_neg hpos]
        left
        exact ⟨by omega, Nat.le_refl _, in_pattern_empty mem p _ hp0,
          fun j hj1 hj2 => by omega⟩
    · have h2 : ¬ ((p.length_ == 0) = true) := by simpa only [beq_iff_eq] using hp0
      rw [if_neg h2]
      by_cases h3 : p.length_ = 1
      · rw [if_pos h3]
        have hin := fun b => (in_pattern_single mem p b h3).2
        rcases find_first_not_of_char_spec mem v (p.front mem) pos with
          ⟨a1, a2, a3, a4⟩ | ⟨a1, a2⟩
        · left
          exact ⟨a1, a2, fun hj => a3 ((hin _).1 hj).symm,
            fun j hj1 hj2 => (hin _).2 (a4 j hj1 hj2).symm⟩
        · right
          exact ⟨a1, fun j hj1 hj2 => (hin _).2 (a2 j hj1 hj2).symm⟩
      · rw [if_neg h3]
        simp only []
        obtain ⟨l1, l2⟩ := for_up_spec
          (fun i => !(LookupTable.build mem p).get (mem (v.ptr_ + i))) v.length_
          (v.length_ - pos) pos (Nat.le_refl _)
        cases hfu : for_up (fun i => !(LookupTable.build mem p).get (mem (v.ptr_ + i)))
            v.length_ (v.length_ - pos) pos with
        | none =>
          right
          refine ⟨rfl, fun j hj1 hj2 => ?_⟩
          have hf := l2 hfu j hj1 hj2
          apply (LookupTable.build_get mem p _).1
          simpa using hf
        | some i =>
          left
          obtain ⟨a1, a2, a3, a4⟩ := l1 i hfu
          simp only []
          refine ⟨a2, a1, fun hj => ?_, fun j hj1 hj2 => ?_⟩
          · have ht := (LookupTable.build_get mem p _).2 hj
            unfold string_view.at_ at ht
            simp only [ht] at a3
            exact Bool.noConfusion a3
          · have hf := a4 j hj1 hj2
            apply (LookupTable.build_get mem p _).1
            simpa using hf

/-- Result of `rfind(char, pos)` on a non-empty view: the greatest index at or before
`min pos (length_ - 1)` holding `c`, index `0` included, or `npos` when there is none. -/
theorem rfind_char_spec (mem : Mem) (v : string_view) (c : UInt8) (pos : Nat)
    (hL : v.length_ ≤ npos) (hv : 0 < v.length_) :
    (v.rfind_char mem c pos ≤ min pos (v.length_ - 1) ∧
      mem (v.ptr_ + v.rfind_char mem c pos) = c ∧
      ∀ j, v.rfind_char mem c pos < j → j ≤ min pos (v.length_ - 1) →
        mem (v.ptr_ + j) ≠ c) ∨
    (v.rfind_char mem c pos = npos ∧
      ∀ j, j ≤ min pos (v.length_ - 1) → mem (v.ptr_ + j) ≠ c) := by
  unfold string_view.rfind_char string_view.empty
  have h1 : ¬ ((v.length_ == 0) = true) := by
    simp only [beq_iff_eq]
    omega
  rw [if_neg h1, size_sub_eq hv hL]
  obtain ⟨l1, l2⟩ := for_down_spec (fun i => mem (v.ptr_ + i) == c) (min pos (v.length_ - 1))
  cases hfd : for_down (fun i => mem (v.ptr_ + i) == c) (min pos (v.length_ - 1)) with
  | some i =>
    left
    obtain ⟨a1, a2, a3, a4⟩ := l1 i hfd
    simp only []
    refine ⟨a2, by simpa using a3, fun j hj1 hj2 => ?_⟩
    have hf := a4 j hj1 hj2
    simpa using hf
  | none =>
    simp only []
    have rest : ∀ j, 0 < j → j ≤ min pos (v.length_ - 1) → mem (v.ptr_ + j) ≠ c := by
      intro j hj1 hj2
      have hf := l2 hfd j hj1 hj2
      simpa using hf
    by_cases hz : mem (v.ptr_ + 0) = c
    · rw [if_pos hz]
      left
      exact ⟨Nat.zero_le _, hz, fun j hj1 hj2 => rest j hj1 hj2⟩
    · rw [if_neg hz]
      right
      refine ⟨rfl, fun j hj => ?_⟩
      by_cases e : j = 0
      · subst e; exact hz
      · exact rest j (by omega) hj

/-- Result of `find_last_not_of(char, pos)` on a non-empty view: the greatest index at
or before `min pos (length_ - 1)` whose byte differs from `c`, index `0` included, or
`npos` when there is none. -/
theorem find_last_not_of_char_spec (mem : Mem) (v : string_view) (c : UInt8) (pos : Nat)
    (hL : v.length_ ≤ npos) (hv : 0 < v.length_) :
    (v.find_last_not_of_char mem c pos ≤ min pos (v.length_ - 1) ∧
      mem (v.ptr_ + v.find_last_not_of_char mem c pos) ≠ c ∧
      ∀ j, v.find_last_not_of_char mem c pos < j → j ≤ min pos (v.length_ - 1) →
        mem (v.ptr_ + j) = c) ∨
    (v.find_last_not_of_char mem c pos = npos ∧
      ∀ j, j ≤ min pos (v.length_ - 1) → mem (v.ptr_ + j) = c) := by
  unfold string_view.find_last_not_of_char string_view.empty
  have h1 : ¬ ((v.length_ == 0) = true) := by
    simp only [beq_iff_eq]
    omega
  rw [if_neg h1, size_sub_eq hv hL]
  obtain ⟨l1, l2⟩ := for_down_spec (fun i => mem (v.ptr_ + i) != c) (min pos (v.length_ - 1))
  cases hfd : for_down (fun i => mem (v.ptr_ + i) != c) (min pos (v.length_ - 1)) with
  | some i =>
    left
    obtain ⟨a1, a2, a3, a4⟩ := l1 i hfd
    simp only []
    refine ⟨a2, by simpa using a3, fun j hj1 hj2 => ?_⟩
    have hf := a4 j hj1 hj2
    simpa using hf
  | none =>
    simp only []
    have rest : ∀ j, 0 < j → j ≤ min pos (v.length_ - 1) → mem (v.ptr_ + j) = c := by
      intro j hj1 hj2
      have hf := l2 hfd j hj1 hj2
      simpa using hf
    by_cases hz : mem (v.ptr_ + 0) ≠ c
    · rw [if_pos hz]
      left
      exact ⟨Nat.zero_le _, hz, fun j hj1 hj2 => rest j hj1 hj2⟩
    · rw [if_neg hz]
      right
      refine ⟨rfl, fun j hj => ?_⟩
      by_cases e : j = 0
      · subst e; exact not_not.1 hz
      · exact rest j (by omega) hj

end absl

namespace absl

/-- Result of `find_last_of` on a non-empty view: the greatest index at or before
`min pos (length_ - 1)` whose byte is in the pattern, index `0` included, or `npos`
when there is none. -/
theorem find_last_of_spec (mem : Mem) (v p : string_view) (pos : Nat)
    (hL : v.length_ ≤ npos) (hv : 0 < v.length_) :
    (v.find_last_of mem p pos ≤ min pos (v.length_ - 1) ∧
      in_pattern mem p (v.at_ mem (v.find_last_of mem p pos)) ∧
      ∀ j, v.find_last_of mem p pos < j → j ≤ min pos (v.length_ - 1) →
        ¬ in_pattern mem p (v.at_ mem j)) ∨
    (v.find_last_of mem p pos = npos ∧
      ∀ j, j ≤ min pos (v.length_ - 1) → ¬ in_pattern mem p (v.at_ mem j)) := by
  unfold string_view.find_last_of string_view.empty
  by_cases hp0 : p.length_ = 0
  · have h1 : (v.length_ == 0 || p.length_ == 0) = true := by
      simp only [Bool.or_eq_true, beq_iff_eq]
      exact Or.inr hp0
    rw [if_pos h1]
    right
    exact ⟨rfl, fun j _ => in_pattern_empty mem p _ hp0⟩
  · have h1 : ¬ ((v.length_ == 0 || p.length_ == 0) = true) := by
      simp only [Bool.or_eq_true, beq_iff_eq]
      omega
    rw [if_neg h1]
    by_cases h2 : p.length_ = 1
    · rw [if_pos h2]
      unfold string_view.find_last_of_char
      have hin := fun b => (in_pattern_single mem p b h2).2
      rcases rfind_char_spec mem v (p.front mem) pos hL hv with ⟨a1, a2, a3⟩ | ⟨a1, a2⟩
      · left
        exact ⟨a1, (hin _).2 a2.symm, fun j hj1 hj2 hj => a3 j hj1 hj2 ((hin _).1 hj).symm⟩
      · right
        exact ⟨a1, fun j hj1 hj => a2 j hj1 ((hin _).1 hj).symm⟩
    · rw [if_neg h2, size_sub_eq hv hL]
      simp only []
      have tab := fun b => LookupTable.build_get mem p b
      obtain ⟨l1, l2⟩ := for_down_spec
        (fun i => (LookupTable.build mem p).get (mem (v.ptr_ + i))) (min pos (v.length_ - 1))
      cases hfd : for_down (fun i => (LookupTable.build mem p).get (mem (v.ptr_ + i)))
          (min pos (v.length_ - 1)) with
      | some i =>
        left
        obtain ⟨a1, a2, a3, a4⟩ := l1 i hfd
        simp only []
        refine ⟨a2, (tab _).1 a3, fun j hj1 hj2 hj => ?_⟩
        have hf := a4 j hj1 hj2
        have ht := (tab _).2 hj
        unfold string_view.at_ at ht
        simp only [ht] at hf
        exact Bool.noConfusion hf
      | none =>
        simp only []
        have rest : ∀ j, 0 < j → j ≤ min pos (v.length_ - 1) →
            ¬ in_pattern mem p (v.at_ mem j) := by
          intro j hj1 hj2 hj
          have hf := l2 hfd j hj1 hj2
          have ht := (tab _).2 hj
          unfold string_view.at_ at ht
          simp only [ht] at hf
          exact Bool.noConfusion hf
        by_cases hz : (LookupTable.build mem p).get (mem (v.ptr_ + 0)) = true
        · rw [if_pos hz]
          left
          exact ⟨Nat.zero_le _, (tab _).1 hz, fun j hj1 hj2 => rest j hj1 hj2⟩
        · rw [if_neg hz]
          right
          refine ⟨rfl, fun j hj => ?_⟩
          by_cases e : j = 0
          · subst e
            exact fun hin => hz ((tab _).2 hin)
          · exact rest j (by omega) hj

/-- Result of `find_last_not_of` on a non-empty view: the greatest index at or before
`min pos (length_ - 1)` whose byte is not in the pattern, index `0` included, or `npos`
when there is none. -/
theorem find_last_not_of_spec (mem : Mem) (v p : string_view) (pos : Nat)
    (hL : v.length_ ≤ npos) (hv : 0 < v.length_) :
    (v.find_last_not_of mem p pos ≤ min pos (v.length_ - 1) ∧
      ¬ in_pattern mem p (v.at_ mem (v.find_last_not_of mem p pos)) ∧
      ∀ j, v.find_last_not_of mem p pos < j → j ≤ min pos (v.length_ - 1) →
        in_pattern mem p (v.at_ mem j)) ∨
    (v.find_last_not_of mem p pos = npos ∧
      ∀ j, j ≤ min pos (v.length_ - 1) → in_pattern mem p (v.at_ mem j)) := by
  unfold string_view.find_last_not_of string_view.empty
  have h1 : ¬ ((v.length_ == 0) = true) := by
    simp only [beq_iff_eq]
    omega
  rw [if_neg h1]
  by_cases hp0 : p.length_ = 0
  · have h2 : (p.length_ == 0) = true := by simpa only [beq_iff_eq] using hp0
    rw [if_pos h2, size_sub_eq hv hL]
    left
    exact ⟨Nat.le_refl _, in_pattern_empty mem p _ hp0, fun j hj1 hj2 => by omega⟩
  · have h2 : ¬ ((p.length_ == 0) = true) := by simpa only [beq_iff_eq] using hp0
    rw [if_neg h2]
    by_cases h3 : p.length_ = 1
    · rw [if_pos h3]
      have hin := fun b => (in_pattern_single mem p b h3).2
      rcases find_last_not_of_char_spec mem v (p.front mem) pos hL hv with
        ⟨a1, a2, a3⟩ | ⟨a1, a2⟩
      · left
        exact ⟨a1, fun hj => a2 ((hin _).1 hj).symm,
          fun j hj1 hj2 => (hin _).2 (a3 j hj1 hj2).symm⟩
      · right
        exact ⟨a1, fun j hj1 => (hin _).2 (a2 j hj1).symm⟩
    · rw [if_neg h3, size_sub_eq hv hL]
      simp only []
      have tab := fun b => LookupTable.build_get mem p b
      obtain ⟨l1, l2⟩ := for_down_spec
        (fun i => !(LookupTable.build mem p).get (mem (v.ptr_ + i))) (min pos (v.length_ - 1))
      cases hfd : for_down (fun i => !(LookupTable.build mem p).get (mem (v.ptr_ + i)))
          (min pos (v.length_ - 1)) with
      | some i =>
        left
        obtain ⟨a1, a2, a3, a4⟩ := l1 i hfd
        simp only []
        refine ⟨a2, fun hj => ?_, fun j hj1 hj2 => ?_⟩
        · have ht := (tab _).2 hj
          unfold string_view.at_ at ht
          simp only [ht] at a3
          exact Bool.noConfusion a3
        · have hf := a4 j hj1 hj2
          apply (tab _).1
          simpa using hf
      | none =>
        simp only []
        have rest : ∀ j, 0 < j → j ≤ min pos (v.length_ - 1) →
            in_pattern mem p (v.at_ mem j) := by
          intro j hj1 hj2
          have hf := l2 hfd j hj1 hj2
          apply (tab _).1
          simpa using hf
        by_cases hz : (!(LookupTable.build mem p).get (mem (v.ptr_ + 0))) = true
        · rw [if_pos hz]
          left
          refine ⟨Nat.zero_le _, fun hin => ?_, fun j hj1 hj2 => rest j hj1 hj2⟩
          have ht := (tab _).2 hin
          unfold string_view.at_ at ht
          simp only [ht] at hz
          exact Bool.noConfusion hz
        · rw [if_neg hz]
          right
          refine ⟨rfl, fun j hj => ?_⟩
          by_cases e : j = 0
          · subst e
            apply (tab _).1
            simpa using hz
          · exact rest j (by omega) hj

end absl

/-! ## Character-class search: the claims -/

namespace absl

/-- C7: characterisation of `find_first_of`.  For every view `v`, pattern `p` and `pos`,
with `r = v.find_first_of(p, pos)`: if `r` is not `npos` then `pos ≤ r < v.length`, the
byte `v[r]` occurs in `p`, and no byte `v[j]` with `pos ≤ j < r` occurs in `p`; and `r`
is `npos` exactly when no index `j` with `pos ≤ j < v.length` has `v[j]` in `p`. Here `hL` says that
the length of `v` is a `size_type` value. -/
theorem find_first_of_char_class (mem : Mem) (v p : string_view) (pos : Nat)
    (hL : v.length_ ≤ npos) :
    (v.find_first_of mem p pos ≠ npos →
      pos ≤ v.find_first_of mem p pos ∧ v.find_first_of mem p pos < v.length_ ∧
      in_pattern mem p (v.at_ mem (v.find_first_of mem p pos)) ∧
      ∀ j, pos ≤ j → j < v.find_first_of mem p pos → ¬ in_pattern mem p (v.at_ mem j)) ∧
    (v.find_first_of mem p pos = npos ↔
      ∀ j, pos ≤ j → j < v.length_ → ¬ in_pattern mem p (v.at_ mem j)) := by
  rcases find_first_of_spec mem v p pos hL with ⟨h1, h2, h3, h4⟩ | ⟨h1, h2⟩
  · refine ⟨fun _ => ⟨h2, h1, h3, h4⟩, fun h => ?_, fun h => ?_⟩
    · omega
    · exact absurd h3 (h _ h2 h1)
  · exact ⟨fun h => absurd h1 h, fun _ => h2, fun _ => h1⟩

theorem find_first_of_char_class_witness :
    (string_view.mk 16 7).find_first_of (mem2 "abababc" "ac") ⟨32, 2⟩ 1 = 2 ∧
    (((string_view.mk 16 7).find_first_of (mem2 "abababc" "ac") ⟨32, 2⟩ 1 ≠ npos →
      1 ≤ (string_view.mk 16 7).find_first_of (mem2 "abababc" "ac") ⟨32, 2⟩ 1 ∧
      (string_view.mk 16 7).find_first_of (mem2 "abababc" "ac") ⟨32, 2⟩ 1 < 7 ∧
      in_pattern (mem2 "abababc" "ac") ⟨32, 2⟩ ((string_view.mk 16 7).at_ (mem2 "abababc" "ac")
        ((string_view.mk 16 7).find_first_of (mem2 "abababc" "ac") ⟨32, 2⟩ 1)) ∧
      ∀ j, 1 ≤ j → j < (string_view.mk 16 7).find_first_of (mem2 "abababc" "ac") ⟨32, 2⟩ 1 →
        ¬ in_pattern (mem2 "abababc" "ac") ⟨32, 2⟩
          ((string_view.mk 16 7).at_ (mem2 "abababc" "ac") j)) ∧
    ((string_view.mk 16 7).find_first_of (mem2 "abababc" "ac") ⟨32, 2⟩ 1 = npos ↔
      ∀ j, 1 ≤ j → j < 7 →
        ¬ in_pattern (mem2 "abababc" "ac") ⟨32, 2⟩
          ((string_view.mk 16 7).at_ (mem2 "abababc" "ac") j))) :=
  ⟨by decide, find_first_of_char_class (mem2 "abababc" "ac") ⟨16, 7⟩ ⟨32, 2⟩ 1 (by decide)⟩

/-- C8: characterisation of `find_first_not_of`.  For every view `v`, pattern `p` and
`pos`, with `r = v.find_first_not_of(p, pos)`: if `r` is not `npos` then
`pos ≤ r < v.length`, the byte `v[r]` does not occur in `p`, and every byte `v[j]` with
`pos ≤ j < r` occurs in `p`; and `r` is `npos` exactly when every index `j` with
`pos ≤ j < v.length` has `v[j]` in `p`. Here `hL` says that
the length of `v` is a `size_type` value. -/
theorem find_first_not_of_char_class (mem : Mem) (v p : string_view) (pos : Nat)
    (hL : v.length_ ≤ npos) :
    (v.find_first_not_of mem p pos ≠ npos →
      pos ≤ v.find_first_not_of mem p pos ∧ v.find_first_not_of mem p pos < v.length_ ∧
      ¬ in_pattern mem p (v.at_ mem (v.find_first_not_of mem p pos)) ∧
      ∀ j, pos ≤ j → j < v.find_first_not_of mem p pos → in_pattern mem p (v.at_ mem j)) ∧
    (v.find_first_not_of mem p pos = npos ↔
      ∀ j, pos ≤ j → j < v.length_ → in_pattern mem p (v.at_ mem j)) := by
  rcases find_first_not_of_spec mem v p pos with ⟨h1, h2, h3, h4⟩ | ⟨h1, h2⟩
  · refine ⟨fun _ => ⟨h2, h1, h3, h4⟩, fun h => ?_, fun h => ?_⟩
    · omega
    · exact absurd (h _ h2 h1) h3
  · exact ⟨fun h => absurd h1 h, fun _ => h2, fun _ => h1⟩

theorem find_first_not_of_char_class_witness :
    (string_view.mk 16 7).find_first_not_of (mem2 "abababc" "ab") ⟨32, 2⟩ 1 = 6 ∧
    (((string_view.mk 16 7).find_first_not_of (mem2 "abababc" "ab") ⟨32, 2⟩ 1 ≠ npos →
      1 ≤ (string_view.mk 16 7).find_first_not_of (mem2 "abababc" "ab") ⟨32, 2⟩ 1 ∧
      (string_view.mk 16 7).find_first_not_of (mem2 "abababc" "ab") ⟨32, 2⟩ 1 < 7 ∧
      ¬ in_pattern (mem2 "abababc" "ab") ⟨32, 2⟩ ((string_view.mk 16 7).at_ (mem2 "abababc" "ab")
        ((string_view.mk 16 7).find_first_not_of (mem2 "abababc" "ab") ⟨32, 2⟩ 1)) ∧
      ∀ j, 1 ≤ j → j < (string_view.mk 16 7).find_first_not_of (mem2 "abababc" "ab") ⟨32, 2⟩ 1 →
        in_pattern (mem2 "abababc" "ab") ⟨32, 2⟩
          ((string_view.mk 16 7).at_ (mem2 "abababc" "ab") j)) ∧
    ((string_view.mk 16 7).find_first_not_of (mem2 "abababc" "ab") ⟨32, 2⟩ 1 = npos ↔
      ∀ j, 1 ≤ j → j < 7 →
        in_pattern (mem2 "abababc" "ab") ⟨32, 2⟩
          ((string_view.mk 16 7).at_ (mem2 "abababc" "ab") j))) :=
  ⟨by decide, find_first_not_of_char_class (mem2 "abababc" "ab") ⟨16, 7⟩ ⟨32, 2⟩ 1 (by decide)⟩

/-- C9: characterisation of `find_last_of`.  For every non-empty view `v` of length `L`,
pattern `p` and `pos`, `v.find_last_of(p, pos)` is the greatest index
`i ≤ min(pos, L - 1)` whose byte `v[i]` occurs in `p` whenever such an index exists; it is
`npos` exactly when no index in `[0, min(pos, L - 1)]` holds a byte of `p`; and index `0`
is always examined: if `v[0]` occurs in `p` the result is not `npos`. Here `hL` says that
the length of `v` is a `size_type` value. -/
theorem find_last_of_char_class (mem : Mem) (v p : string_view) (pos : Nat)
    (hL : v.length_ ≤ npos) (hv : 0 < v.length_) :
    ((∃ i, i ≤ min pos (v.length_ - 1) ∧ in_pattern mem p (v.at_ mem i)) →
      IsGreatest {i | i ≤ min pos (v.length_ - 1) ∧ in_pattern mem p (v.at_ mem i)}
        (v.find_last_of mem p pos)) ∧
    (v.find_last_of mem p pos = npos ↔
      ¬ ∃ i, i ≤ min pos (v.length_ - 1) ∧ in_pattern mem p (v.at_ mem i)) ∧
    (in_pattern mem p (v.at_ mem 0) → v.find_last_of mem p pos ≠ npos) := by
  have hB : min pos (v.length_ - 1) < npos := by
    have := Nat.min_le_right pos (v.length_ - 1)
    omega
  rcases find_last_of_spec mem v p pos hL hv with ⟨h1, h2, h3⟩ | ⟨h1, h2⟩
  · refine ⟨fun _ => ⟨⟨h1, h2⟩, fun j hj => ?_⟩, ⟨fun h => ?_, fun h => ?_⟩, fun _ => ?_⟩
    · by_contra hlt
      exact h3 j (by omega) hj.1 hj.2
    · omega
    · exact absurd ⟨_, h1, h2⟩ h
    · omega
  · refine ⟨fun ⟨i, hi, hin⟩ => absurd hin (h2 i hi), ⟨fun _ => ?_, fun _ => h1⟩, fun h0 => ?_⟩
    · rintro ⟨i, hi, hin⟩
      exact h2 i hi hin
    · exact absurd h0 (h2 0 (Nat.zero_le _))

theorem find_last_of_char_class_witness :
    (string_view.mk 16 8).find_last_of (mem2 "abcabcab" "bc") ⟨32, 2⟩ 3 = 2 ∧
    (((∃ i, i ≤ min 3 (8 - 1) ∧ in_pattern (mem2 "abcabcab" "bc") ⟨32, 2⟩
        ((string_view.mk 16 8).at_ (mem2 "abcabcab" "bc") i)) →
      IsGreatest {i | i ≤ min 3 (8 - 1) ∧ in_pattern (mem2 "abcabcab" "bc") ⟨32, 2⟩
          ((string_view.mk 16 8).at_ (mem2 "abcabcab" "bc") i)}
        ((string_view.mk 16 8).find_last_of (mem2 "abcabcab" "bc") ⟨32, 2⟩ 3)) ∧
    ((string_view.mk 16 8).find_last_of (mem2 "abcabcab" "bc") ⟨32, 2⟩ 3 = npos ↔
      ¬ ∃ i, i ≤ min 3 (8 - 1) ∧ in_pattern (mem2 "abcabcab" "bc") ⟨32, 2⟩
        ((string_view.mk 16 8).at_ (mem2 "abcabcab" "bc") i)) ∧
    (in_pattern (mem2 "abcabcab" "bc") ⟨32, 2⟩ ((string_view.mk 16 8).at_ (mem2 "abcabcab" "bc") 0) →
      (string_view.mk 16 8).find_last_of (mem2 "abcabcab" "bc") ⟨32, 2⟩ 3 ≠ npos)) :=
  ⟨by decide,
    find_last_of_char_class (mem2 "abcabcab" "bc") ⟨16, 8⟩ ⟨32, 2⟩ 3 (by decide) (by decide)⟩

/-- C10: characterisation of `find_last_not_of`.  For every non-empty view `v` of length
`L`, pattern `p` and `pos`, `v.find_last_not_of(p, pos)` is the greatest index
`i ≤ min(pos, L - 1)` whose byte `v[i]` does not occur in `p` whenever such an index
exists; it is `npos` exactly when every byte at an index in `[0, min(pos, L - 1)]` occurs
in `p`; and index `0` is always examined: if `v[0]` does not occur in `p` the result is
not `npos`. Here `hL` says that
the length of `v` is a `size_type` value. -/
theorem find_last_not_of_char_class (mem : Mem) (v p : string_view) (pos : Nat)
    (hL : v.length_ ≤ npos) (hv : 0 < v.length_) :
    ((∃ i, i ≤ min pos (v.length_ - 1) ∧ ¬ in_pattern mem p (v.at_ mem i)) →
      IsGreatest {i | i ≤ min pos (v.length_ - 1) ∧ ¬ in_pattern mem p (v.at_ mem i)}
        (v.find_last_not_of mem p pos)) ∧
    (v.find_last_not_of mem p pos = npos ↔
      ∀ i, i ≤ min pos (v.length_ - 1) → in_pattern mem p (v.at_ mem i)) ∧
    (¬ in_pattern mem p (v.at_ mem 0) → v.find_last_not_of mem p pos ≠ npos) := by
  have hB : min pos (v.length_ - 1) < npos := by
    have := Nat.min_le_right pos (v.length_ - 1)
    omega
  rcases find_last_not_of_spec mem v p pos hL hv with ⟨h1, h2, h3⟩ | ⟨h1, h2⟩
  · refine ⟨fun _ => ⟨⟨h1, h2⟩, fun j hj => ?_⟩, ⟨fun h => ?_, fun h => ?_⟩, fun _ => ?_⟩
    · by_contra hlt
      exact hj.2 (h3 j (by omega) hj.1)
    · omega
    · exact absurd (h _ h1) h2
    · omega
  · refine ⟨fun ⟨i, hi, hin⟩ => absurd (h2 i hi) hin, ⟨fun _ => h2, fun _ => h1⟩, fun h0 => ?_⟩
    exact absurd (h2 0 (Nat.zero_le _)) h0

theorem find_last_not_of_char_class_witness :
    (string_view.mk 16 8).find_last_not_of (mem2 "abcabcab" "ab") ⟨32, 2⟩ npos = 5 ∧
    (((∃ i, i ≤ min npos (8 - 1) ∧ ¬ in_pattern (mem2 "abcabcab" "ab") ⟨32, 2⟩
        ((string_view.mk 16 8).at_ (mem2 "abcabcab" "ab") i)) →
      IsGreatest {i | i ≤ min npos (8 - 1) ∧ ¬ in_pattern (mem2 "abcabcab" "ab") ⟨32, 2⟩
          ((string_view.mk 16 8).at_ (mem2 "abcabcab" "ab") i)}
        ((string_view.mk 16 8).find_last_not_of (mem2 "abcabcab" "ab") ⟨32, 2⟩ npos)) ∧
    ((string_view.mk 16 8).find_last_not_of (mem2 "abcabcab" "ab") ⟨32, 2⟩ npos = npos ↔
      ∀ i, i ≤ min npos (8 - 1) → in_pattern (mem2 "abcabcab" "ab") ⟨32, 2⟩
        ((string_view.mk 16 8).at_ (mem2 "abcabcab" "ab") i)) ∧
    (¬ in_pattern (mem2 "abcabcab" "ab") ⟨32, 2⟩
        ((string_view.mk 16 8).at_ (mem2 "abcabcab" "ab") 0) →
      (string_view.mk 16 8).find_last_not_of (mem2 "abcabcab" "ab") ⟨32, 2⟩ npos ≠ npos)) :=
  ⟨by decide,
    find_last_not_of_char_class (mem2 "abcabcab" "ab") ⟨16, 8⟩ ⟨32, 2⟩ npos
      (by decide) (by decide)⟩

end absl

/-! ## Character-class search: empty operands -/

namespace absl

/-- On an empty view all four character-class searches return `npos`. -/
theorem char_class_empty_view (mem : Mem) (v p : string_view) (pos : Nat)
    (hv : v.length_ = 0) :
    v.find_first_of mem p pos = npos ∧ v.find_last_of mem p pos = npos ∧
    v.find_first_not_of mem p pos = npos ∧ v.find_last_not_of mem p pos = npos := by
  refine ⟨?_, ?_, ?_, ?_⟩
  · simp [string_view.find_first_of, string_view.empty, hv]
  · simp [string_view.find_last_of, string_view.empty, hv]
  · simp [string_view.find_first_not_of, string_view.empty, hv]
  · simp [string_view.find_last_not_of, string_view.empty, hv]

/-- With an empty pattern `find_first_of` and `find_last_of` return `npos`. -/
theorem char_class_empty_pattern (mem : Mem) (v p : string_view) (pos : Nat)
    (hp : p.length_ = 0) :
    v.find_first_of mem p pos = npos ∧ v.find_last_of mem p pos = npos := by
  refine ⟨?_, ?_⟩
  · simp [string_view.find_first_of, string_view.empty, hp]
  · simp [string_view.find_last_of, string_view.empty, hp]

/-- With an empty pattern on a non-empty view, `find_first_not_of` returns `pos` when
`pos` is inside the view and `npos` otherwise. -/
theorem find_first_not_of_empty_pattern (mem : Mem) (v p : string_view) (pos : Nat)
    (hv : 0 < v.length_) (hp : p.length_ = 0) :
    v.find_first_not_of mem p pos = if pos ≥ v.length_ then npos else pos := by
  unfold string_view.find_first_not_of string_view.empty
  have h1 : ¬ ((v.length_ == 0) = true) := by
    simp only [beq_iff_eq]
    omega
  have h2 : (p.length_ == 0) = true := by simpa only [beq_iff_eq] using hp
  rw [if_neg h1, if_pos h2]

/-- With an empty pattern on a non-empty view, `find_last_not_of` returns
`min pos (length_ - 1)`. -/
theorem find_last_not_of_empty_pattern (mem : Mem) (v p : string_view) (pos : Nat)
    (hL : v.length_ ≤ npos) (hv : 0 < v.length_) (hp : p.length_ = 0) :
    v.find_last_not_of mem p pos = min pos (v.length_ - 1) := by
  unfold string_view.find_last_not_of string_view.empty
  have h1 : ¬ ((v.length_ == 0) = true) := by
    simp only [beq_iff_eq]
    omega
  have h2 : (p.length_ == 0) = true := by simpa only [beq_iff_eq] using hp
  rw [if_neg h1, if_pos h2, size_sub_eq hv hL]

theorem empty_iff_length (v : string_view) : v.empty = true ↔ v.length_ = 0 := by
  simp [string_view.empty]

/-- C11: empty operands give the sentinel in character-class search.  For every
pattern `p` and `pos`, all of `find_first_of`, `find_last_of`, `find_first_not_of` and
`find_last_not_of` return `npos` on an empty view `v`; and for every view `v` and `pos`,
`find_first_of` and `find_last_of` return `npos` when the pattern `p` is empty. -/
theorem char_class_empty_operands (mem : Mem) (v p : string_view) (pos : Nat) :
    (v.empty = true →
      v.find_first_of mem p pos = npos ∧ v.find_last_of mem p pos = npos ∧
      v.find_first_not_of mem p pos = npos ∧ v.find_last_not_of mem p pos = npos) ∧
    (p.empty = true →
      v.find_first_of mem p pos = npos ∧ v.find_last_of mem p pos = npos) :=
  ⟨fun hv => char_class_empty_view mem v p pos ((empty_iff_length v).1 hv),
    fun hp => char_class_empty_pattern mem v p pos ((empty_iff_length p).1 hp)⟩

theorem char_class_empty_operands_witness :
    (string_view.default.find_first_of (mem2 "" "ab") ⟨32, 2⟩ 0 = npos ∧
      string_view.default.find_last_of (mem2 "" "ab") ⟨32, 2⟩ 0 = npos ∧
      string_view.default.find_first_not_of (mem2 "" "ab") ⟨32, 2⟩ 0 = npos ∧
      string_view.default.find_last_not_of (mem2 "" "ab") ⟨32, 2⟩ 0 = npos) ∧
    ((string_view.mk 16 3).find_first_of (mem2 "abc" "") string_view.default 1 = npos ∧
      (string_view.mk 16 3).find_last_of (mem2 "abc" "") string_view.default 1 = npos) :=
  ⟨(char_class_empty_operands (mem2 "" "ab") string_view.default ⟨32, 2⟩ 0).1 (by decide),
    (char_class_empty_operands (mem2 "abc" "") ⟨16, 3⟩ string_view.default 1).2 (by decide)⟩

/-- C12 as stated fails for `find_first_not_of` when the start position is at or past
the end: in the view "xyz" (length 3), `find_first_not_of` of the empty pattern from
`pos = 3` is `npos`, not `min(3, 3 - 1) = 2`. -/
theorem not_of_empty_pattern_counterexample :
    ¬ ((string_view.mk 16 3).find_first_not_of (mem2 "xyz" "") string_view.default 3 =
        min 3 ((string_view.mk 16 3).length_ - 1) ∧
      (string_view.mk 16 3).find_first_not_of (mem2 "xyz" "") string_view.default 3 ≠ npos) := by
  decide

/-- C12, amended: empty pattern in the "_not_of" searches.  For every non-empty view `v`
of length `L`, every empty pattern `p` and every start position `pos`:
`v.find_last_not_of(p, pos)` is `min(pos, L - 1)` and never `npos`;
`v.find_first_not_of(p, pos)` is `min(pos, L - 1)`, that is `pos`, and not `npos` when
`pos < L`, and it is `npos` when `pos ≥ L`.  Here `hL` says that the length of `v` is a
`size_type` value. -/
theorem not_of_empty_pattern (mem : Mem) (v p : string_view) (pos : Nat)
    (hL : v.length_ ≤ npos) (hv : 0 < v.length_) (hp : p.empty = true) :
    (v.find_last_not_of mem p pos = min pos (v.length_ - 1) ∧
      v.find_last_not_of mem p pos ≠ npos) ∧
    (pos < v.length_ →
      v.find_first_not_of mem p pos = min pos (v.length_ - 1) ∧
      v.find_first_not_of mem p pos = pos ∧
      v.find_first_not_of mem p pos ≠ npos) ∧
    (pos ≥ v.length_ → v.find_first_not_of mem p pos = npos) := by
  have hp0 := (empty_iff_length p).1 hp
  have e1 := find_last_not_of_empty_pattern mem v p pos hL hv hp0
  have e2 := find_first_not_of_empty_pattern mem v p pos hv hp0
  have hmin := Nat.min_le_right pos (v.length_ - 1)
  refine ⟨⟨e1, by omega⟩, fun hlt => ?_, fun hge => ?_⟩
  · rw [if_neg (by omega)] at e2
    have : min pos (v.length_ - 1) = pos := Nat.min_eq_left (by omega)
    exact ⟨by omega, e2, by omega⟩
  · rw [if_pos hge] at e2
    exact e2

theorem not_of_empty_pattern_witness :
    (string_view.mk 16 3).find_last_not_of (mem2 "abc" "") string_view.default npos = 2 ∧
    (string_view.mk 16 3).find_first_not_of (mem2 "abc" "") string_view.default 2 = 2 ∧
    (((string_view.mk 16 3).find_last_not_of (mem2 "abc" "") string_view.default 1 =
        min 1 (3 - 1) ∧
      (string_view.mk 16 3).find_last_not_of (mem2 "abc" "") string_view.default 1 ≠ npos) ∧
    (1 < 3 →
      (string_view.mk 16 3).find_first_not_of (mem2 "abc" "") string_view.default 1 =
        min 1 (3 - 1) ∧
      (string_view.mk 16 3).find_first_not_of (mem2 "abc" "") string_view.default 1 = 1 ∧
      (string_view.mk 16 3).find_first_not_of (mem2 "abc" "") string_view.default 1 ≠ npos) ∧
    (1 ≥ 3 →
      (string_view.mk 16 3).find_first_not_of (mem2 "abc" "") string_view.default 1 = npos)) :=
  ⟨by decide, by decide,
    not_of_empty_pattern (mem2 "abc" "") ⟨16, 3⟩ string_view.default 1
      (by decide) (by decide) (by decide)⟩

end absl

/-! ## Lemmas: a search result is determined by its characterisation -/

namespace absl

/-- Two results that are both "the least index in `[pos, L)` with `Q`, or `npos` when
`N` holds throughout" are equal, when `Q` and `N` exclude each other. -/
theorem first_unique (Q N : Nat → Prop) (hQN : ∀ j, Q j → N j → False) (pos L r1 r2 : Nat)
    (h1 : (r1 < L ∧ pos ≤ r1 ∧ Q r1 ∧ ∀ j, pos ≤ j → j < r1 → N j) ∨
      (r1 = npos ∧ ∀ j, pos ≤ j → j < L → N j))
    (h2 : (r2 < L ∧ pos ≤ r2 ∧ Q r2 ∧ ∀ j, pos ≤ j → j < r2 → N j) ∨
      (r2 = npos ∧ ∀ j, pos ≤ j → j < L → N j)) : r1 = r2 := by
  rcases h1 with ⟨a1, a2, a3, a4⟩ | ⟨a1, a2⟩
  · rcases h2 with ⟨b1, b2, b3, b4⟩ | ⟨b1, b2⟩
    · by_contra hne
      rcases Nat.lt_or_gt_of_ne hne with hlt | hgt
      · exact hQN r1 a3 (b4 r1 a2 hlt)
      · exact hQN r2 b3 (a4 r2 b2 hgt)
    · exact absurd (b2 r1 a2 a1) (fun hn => hQN r1 a3 hn)
  · rcases h2 with ⟨b1, b2, b3, b4⟩ | ⟨b1, b2⟩
    · exact absurd (a2 r2 b2 b1) (fun hn => hQN r2 b3 hn)
    · rw [a1, b1]

/-- Two results that are both "the greatest index in `[0, B]` with `Q`, or `npos` when
`N` holds throughout" are equal, when `Q` and `N` exclude each other. -/
theorem last_unique (Q N : Nat → Prop) (hQN : ∀ j, Q j → N j → False) (B r1 r2 : Nat)
    (h1 : (r1 ≤ B ∧ Q r1 ∧ ∀ j, r1 < j → j ≤ B → N j) ∨ (r1 = npos ∧ ∀ j, j ≤ B → N j))
    (h2 : (r2 ≤ B ∧ Q r2 ∧ ∀ j, r2 < j → j ≤ B → N j) ∨ (r2 = npos ∧ ∀ j, j ≤ B → N j)) :
    r1 = r2 := by
  rcases h1 with ⟨a1, a2, a3⟩ | ⟨a1, a2⟩
  · rcases h2 with ⟨b1, b2, b3⟩ | ⟨b1, b2⟩
    · by_contra hne
      rcases Nat.lt_or_gt_of_ne hne with hlt | hgt
      · exact hQN r2 b2 (a3 r2 hlt b1)
      · exact hQN r1 a2 (b3 r1 hgt a1)
    · exact absurd (b2 r1 a1) (fun hn => hQN r1 a2 hn)
  · rcases h2 with ⟨b1, b2, b3⟩ | ⟨b1, b2⟩
    · exact absurd (a2 r2 b1) (fun hn => hQN r2 b2 hn)
    · rw [a1, b1]

end absl

/-! ## Character-class search: the pattern counts only as a set of bytes -/

namespace absl

/-- C13: character-class search depends only on the set of pattern bytes.  For every view
`v`, every `pos` and any two patterns `p` and `q` that contain the same set of byte values
(in any order, with any duplicates, and whether or not one of them has length 1 and takes
the single-character shortcut), each of `find_first_of`, `find_last_of`,
`find_first_not_of` and `find_last_not_of` returns the same result for `p` as for `q`.
Here `hL` says that the length of `v` is a `size_type` value. -/
theorem char_class_depends_on_byte_set (mem : Mem) (v p q : string_view) (pos : Nat)
    (hL : v.length_ ≤ npos) (hset : ∀ b, in_pattern mem p b ↔ in_pattern mem q b) :
    v.find_first_of mem p pos = v.find_first_of mem q pos ∧
    v.find_last_of mem p pos = v.find_last_of mem q pos ∧
    v.find_first_not_of mem p pos = v.find_first_not_of mem q pos ∧
    v.find_last_not_of mem p pos = v.find_last_not_of mem q pos := by
  have f1 := find_first_of_spec mem v p pos hL
  have f2 := find_first_of_spec mem v q pos hL
  have n1 := find_first_not_of_spec mem v p pos
  have n2 := find_first_not_of_spec mem v q pos
  simp only [← hset] at f2 n2
  have hfirst : v.find_first_of mem p pos = v.find_first_of mem q pos :=
    first_unique (fun j => in_pattern mem p (v.at_ mem j))
      (fun j => ¬ in_pattern mem p (v.at_ mem j)) (fun j h1 h2 => h2 h1) pos v.length_ _ _ f1 f2
  have hfirstn : v.find_first_not_of mem p pos = v.find_first_not_of mem q pos :=
    first_unique (fun j => ¬ in_pattern mem p (v.at_ mem j))
      (fun j => in_pattern mem p (v.at_ mem j)) (fun j h1 h2 => h1 h2) pos v.length_ _ _ n1 n2
  by_cases hv : v.length_ = 0
  · obtain ⟨_, a2, _, a4⟩ := char_class_empty_view mem v p pos hv
    obtain ⟨_, b2, _, b4⟩ := char_class_empty_view mem v q pos hv
    exact ⟨hfirst, by rw [a2, b2], hfirstn, by rw [a4, b4]⟩
  · have hv2 : 0 < v.length_ := by omega
    have l1 := find_last_of_spec mem v p pos hL hv2
    have l2 := find_last_of_spec mem v q pos hL hv2
    have m1 := find_last_not_of_spec mem v p pos hL hv2
    have m2 := find_last_not_of_spec mem v q pos hL hv2
    simp only [← hset] at l2 m2
    refine ⟨hfirst, ?_, hfirstn, ?_⟩
    · exact last_unique (fun j => in_pattern mem p (v.at_ mem j))
        (fun j => ¬ in_pattern mem p (v.at_ mem j)) (fun j h1 h2 => h2 h1)
        (min pos (v.length_ - 1)) _ _ l1 l2
    · exact last_unique (fun j => ¬ in_pattern mem p (v.at_ mem j))
        (fun j => in_pattern mem p (v.at_ mem j)) (fun j h1 h2 => h1 h2)
        (min pos (v.length_ - 1)) _ _ m1 m2

end absl

namespace absl

theorem char_class_depends_on_byte_set_witness :
    (string_view.mk 16 7).find_first_of (mem2 "babcbab" "aa") ⟨32, 1⟩ 2 = 5 ∧
    ((string_view.mk 16 7).find_first_of (mem2 "babcbab" "aa") ⟨32, 1⟩ 2 =
        (string_view.mk 16 7).find_first_of (mem2 "babcbab" "aa") ⟨32, 2⟩ 2 ∧
      (string_view.mk 16 7).find_last_of (mem2 "babcbab" "aa") ⟨32, 1⟩ 2 =
        (string_view.mk 16 7).find_last_of (mem2 "babcbab" "aa") ⟨32, 2⟩ 2 ∧
      (string_view.mk 16 7).find_first_not_of (mem2 "babcbab" "aa") ⟨32, 1⟩ 2 =
        (string_view.mk 16 7).find_first_not_of (mem2 "babcbab" "aa") ⟨32, 2⟩ 2 ∧
      (string_view.mk 16 7).find_last_not_of (mem2 "babcbab" "aa") ⟨32, 1⟩ 2 =
        (string_view.mk 16 7).find_last_not_of (mem2 "babcbab" "aa") ⟨32, 2⟩ 2) :=
  ⟨by decide,
    char_class_depends_on_byte_set (mem2 "babcbab" "aa") ⟨16, 7⟩ ⟨32, 1⟩ ⟨32, 2⟩ 2 (by decide)
      (fun b => by
        have e0 : mem2 "babcbab" "aa" (32 + 0) = 97 := by decide
        have e1 : mem2 "babcbab" "aa" (32 + 1) = 97 := by decide
        constructor
        · rintro ⟨k, hk, h⟩
          have hk0 : k = 0 := by
            simp only at hk
            omega
          subst hk0
          exact ⟨0, by decide, h⟩
        · rintro ⟨k, hk, h⟩
          simp only at hk h
          refine ⟨0, by decide, ?_⟩
          show mem2 "babcbab" "aa" (32 + 0) = b
          have hk2 : k = 0 ∨ k = 1 := by omega
          rcases hk2 with hk2 | hk2
          · subst hk2; exact h
          · subst hk2; rw [e0]; rw [e1] at h; exact h)⟩

end absl

/-! ## Single-byte search -/

namespace absl

/-- A one-byte needle occurs at `j` exactly when `j` is an index of the view holding
that byte. -/
theorem occurs_at_single (mem : Mem) (v s : string_view) (j : Nat) (hs : s.length_ = 1) :
    occurs_at mem v s j ↔ j < v.length_ ∧ mem (v.ptr_ + j) = s.front mem := by
  unfold occurs_at string_view.front string_view.at_
  rw [hs]
  constructor
  · rintro ⟨h1, h2⟩
    exact ⟨by omega, by simpa using h2 0 (by omega)⟩
  · rintro ⟨h1, h2⟩
    refine ⟨by omega, fun k hk => ?_⟩
    have : k = 0 := by omega
    subst this
    simpa using h2

/-- Result of `find` for a one-byte needle, in the shape of `find_char_spec`. -/
theorem find_single_spec (mem : Mem) (v s : string_view) (pos : Nat)
    (hL : v.length_ ≤ npos) (hs : s.length_ = 1) :
    (v.find mem s pos < v.length_ ∧ pos ≤ v.find mem s pos ∧
      mem (v.ptr_ + v.find mem s pos) = s.front mem ∧
      ∀ j, pos ≤ j → j < v.find mem s pos → mem (v.ptr_ + j) ≠ s.front mem) ∨
    (v.find mem s pos = npos ∧
      ∀ j, pos ≤ j → j < v.length_ → mem (v.ptr_ + j) ≠ s.front mem) := by
  by_cases hpos : pos < v.length_
  · rcases find_spec mem v s pos hL hpos with ⟨a1, a2, a3, a4⟩ | ⟨a1, a2⟩
    · left
      refine ⟨a1, a2, ((occurs_at_single mem v s _ hs).1 a3).2, fun j hj1 hj2 hj => ?_⟩
      have := a4 j hj1 ((occurs_at_single mem v s j hs).2 ⟨by omega, hj⟩)
      omega
    · right
      exact ⟨a1, fun j hj1 hj2 hj => a2 j hj1 ((occurs_at_single mem v s j hs).2 ⟨hj2, hj⟩)⟩
  · right
    have e := find_of_le mem v s pos (by omega)
    rw [if_neg (fun c => by omega)] at e
    exact ⟨e, fun j hj1 hj2 => by omega⟩

/-- Result of `rfind` for a one-byte needle on a non-empty view, in the shape of
`rfind_char_spec`. -/
theorem rfind_single_spec (mem : Mem) (v s : string_view) (pos : Nat)
    (hL : v.length_ ≤ npos) (hv : 0 < v.length_) (hs : s.length_ = 1) :
    (v.rfind mem s pos ≤ min pos (v.length_ - 1) ∧
      mem (v.ptr_ + v.rfind mem s pos) = s.front mem ∧
      ∀ j, v.rfind mem s pos < j → j ≤ min pos (v.length_ - 1) →
        mem (v.ptr_ + j) ≠ s.front mem) ∨
    (v.rfind mem s pos = npos ∧
      ∀ j, j ≤ min pos (v.length_ - 1) → mem (v.ptr_ + j) ≠ s.front mem) := by
  have hB := Nat.min_le_right pos (v.length_ - 1)
  have spec := rfind_spec mem v s pos hL (by omega) (by omega)
  rw [hs] at spec
  rcases spec with ⟨a1, a2, a3⟩ | ⟨a1, a2⟩
  · left
    refine ⟨a1, ((occurs_at_single mem v s _ hs).1 a2).2, fun j hj1 hj2 hj => ?_⟩
    have := a3 j hj2 ((occurs_at_single mem v s j hs).2 ⟨by omega, hj⟩)
    omega
  · right
    exact ⟨a1, fun j hj1 hj => a2 j hj1 ((occurs_at_single mem v s j hs).2 ⟨by omega, hj⟩)⟩

/-- C14: single-character `find` agrees with substring `find`.  For every view `v`, byte
`c` and `pos`, `v.find(c, pos)` equals `v.find(s, pos)` where `s` is a one-byte view
holding `c`; it is the least index `i ≥ pos` with `v[i] == c` when there is one, and
`npos` exactly when there is none.  Here `hL` says that the length of `v` is a
`size_type` value. -/
theorem find_char_agrees (mem : Mem) (v s : string_view) (c : UInt8) (pos : Nat)
    (hL : v.length_ ≤ npos) (hs : s.length_ = 1) (hc : s.front mem = c) :
    v.find_char mem c pos = v.find mem s pos ∧
    ((∃ i, pos ≤ i ∧ i < v.length_ ∧ v.at_ mem i = c) →
      IsLeast {i | pos ≤ i ∧ i < v.length_ ∧ v.at_ mem i = c} (v.find_char mem c pos)) ∧
    (v.find_char mem c pos = npos ↔ ¬ ∃ i, pos ≤ i ∧ i < v.length_ ∧ v.at_ mem i = c) := by
  have fc := find_char_spec mem v c pos hL
  have fs := find_single_spec mem v s pos hL hs
  rw [hc] at fs
  refine ⟨first_unique (fun j => mem (v.ptr_ + j) = c) (fun j => mem (v.ptr_ + j) ≠ c)
    (fun j h1 h2 => h2 h1) pos v.length_ _ _ fc fs, ?_⟩
  unfold string_view.at_
  rcases fc with ⟨a1, a2, a3, a4⟩ | ⟨a1, a2⟩
  · refine ⟨fun _ => ⟨⟨a2, a1, a3⟩, fun j hj => ?_⟩, fun h => ?_, fun h => ?_⟩
    · by_contra hlt
      exact a4 j hj.1 (by omega) hj.2.2
    · omega
    · exact absurd ⟨_, a2, a1, a3⟩ h
  · refine ⟨fun ⟨i, h1, h2, h3⟩ => absurd h3 (a2 i h1 h2), fun _ => ?_, fun _ => a1⟩
    rintro ⟨i, h1, h2, h3⟩
    exact a2 i h1 h2 h3

theorem find_char_agrees_witness :
    (string_view.mk 16 7).find_char (mem2 "abababc" "a") 97 1 = 2 ∧
    ((string_view.mk 16 7).find_char (mem2 "abababc" "a") 97 1 =
        (string_view.mk 16 7).find (mem2 "abababc" "a") ⟨32, 1⟩ 1 ∧
      ((∃ i, 1 ≤ i ∧ i < 7 ∧ (string_view.mk 16 7).at_ (mem2 "abababc" "a") i = 97) →
        IsLeast {i | 1 ≤ i ∧ i < 7 ∧ (string_view.mk 16 7).at_ (mem2 "abababc" "a") i = 97}
          ((string_view.mk 16 7).find_char (mem2 "abababc" "a") 97 1)) ∧
      ((string_view.mk 16 7).find_char (mem2 "abababc" "a") 97 1 = npos ↔
        ¬ ∃ i, 1 ≤ i ∧ i < 7 ∧ (string_view.mk 16 7).at_ (mem2 "abababc" "a") i = 97)) :=
  ⟨by decide,
    find_char_agrees (mem2 "abababc" "a") ⟨16, 7⟩ ⟨32, 1⟩ 97 1 (by decide) (by decide)
      (by decide)⟩

end absl

namespace absl

/-- On an empty view `rfind(char)` is `npos`, and so is `rfind` of any non-empty needle. -/
theorem rfind_empty_view (mem : Mem) (v s : string_view) (c : UInt8) (pos : Nat)
    (hv : v.length_ = 0) (hs : 0 < s.length_) :
    v.rfind_char mem c pos = npos ∧ v.rfind mem s pos = npos := by
  refine ⟨by simp [string_view.rfind_char, string_view.empty, hv], ?_⟩
  unfold string_view.rfind
  rw [if_pos (by omega)]

/-- C15: single-character `rfind`.  For every view `v` of length `L`, byte `c` and `pos`,
`v.rfind(c, pos)` is `npos` if `v` is empty; otherwise it is the greatest index
`i ≤ min(pos, L - 1)` with `v[i] == c` when there is one (index `0` included: if
`v[0] == c` the result is not `npos`), and `npos` exactly when there is none; and it
equals `v.rfind(s, pos)` for a one-byte view `s` holding `c`.  Here `hL` says that the
length of `v` is a `size_type` value. -/
theorem rfind_char_agrees (mem : Mem) (v s : string_view) (c : UInt8) (pos : Nat)
    (hL : v.length_ ≤ npos) (hs : s.length_ = 1) (hc : s.front mem = c) :
    (v.empty = true → v.rfind_char mem c pos = npos) ∧
    (0 < v.length_ →
      ((∃ i, i ≤ min pos (v.length_ - 1) ∧ v.at_ mem i = c) →
        IsGreatest {i | i ≤ min pos (v.length_ - 1) ∧ v.at_ mem i = c}
          (v.rfind_char mem c pos)) ∧
      (v.rfind_char mem c pos = npos ↔
        ¬ ∃ i, i ≤ min pos (v.length_ - 1) ∧ v.at_ mem i = c) ∧
      (v.at_ mem 0 = c → v.rfind_char mem c pos ≠ npos)) ∧
    v.rfind_char mem c pos = v.rfind mem s pos := by
  have hempty : v.length_ = 0 → v.rfind_char mem c pos = npos ∧ v.rfind mem s pos = npos :=
    fun hv => rfind_empty_view mem v s c pos hv (by omega)
  refine ⟨fun hv => (hempty ((empty_iff_length v).1 hv)).1, fun hv => ?_, ?_⟩
  · have hB := Nat.min_le_right pos (v.length_ - 1)
    unfold string_view.at_
    rcases rfind_char_spec mem v c pos hL hv with ⟨a1, a2, a3⟩ | ⟨a1, a2⟩
    · refine ⟨fun _ => ⟨⟨a1, a2⟩, fun j hj => ?_⟩, ⟨fun h => ?_, fun h => ?_⟩, fun _ => ?_⟩
      · by_contra hlt
        exact a3 j (by omega) hj.1 hj.2
      · omega
      · exact absurd ⟨_, a1, a2⟩ h
      · omega
    · refine ⟨fun ⟨i, h1, h2⟩ => absurd h2 (a2 i h1), ⟨fun _ => ?_, fun _ => a1⟩, fun h0 => ?_⟩
      · rintro ⟨i, h1, h2⟩
        exact a2 i h1 h2
      · exact absurd h0 (a2 0 (Nat.zero_le _))
  · by_cases hv : v.length_ = 0
    · rw [(hempty hv).1, (hempty hv).2]
    · have hv2 : 0 < v.length_ := by omega
      have rc := rfind_char_spec mem v c pos hL hv2
      have rs := rfind_single_spec mem v s pos hL hv2 hs
      rw [hc] at rs
      exact last_unique (fun j => mem (v.ptr_ + j) = c) (fun j => mem (v.ptr_ + j) ≠ c)
        (fun j h1 h2 => h2 h1) (min pos (v.length_ - 1)) _ _ rc rs

theorem rfind_char_agrees_witness :
    (string_view.mk 16 6).rfind_char (mem2 "abcdce" "c") 99 npos = 4 ∧
    (((string_view.mk 16 6).empty = true →
        (string_view.mk 16 6).rfind_char (mem2 "abcdce" "c") 99 npos = npos) ∧
      (0 < 6 →
        ((∃ i, i ≤ min npos (6 - 1) ∧ (string_view.mk 16 6).at_ (mem2 "abcdce" "c") i = 99) →
          IsGreatest
            {i | i ≤ min npos (6 - 1) ∧ (string_view.mk 16 6).at_ (mem2 "abcdce" "c") i = 99}
            ((string_view.mk 16 6).rfind_char (mem2 "abcdce" "c") 99 npos)) ∧
        ((string_view.mk 16 6).rfind_char (mem2 "abcdce" "c") 99 npos = npos ↔
          ¬ ∃ i, i ≤ min npos (6 - 1) ∧ (string_view.mk 16 6).at_ (mem2 "abcdce" "c") i = 99) ∧
        ((string_view.mk 16 6).at_ (mem2 "abcdce" "c") 0 = 99 →
          (string_view.mk 16 6).rfind_char (mem2 "abcdce" "c") 99 npos ≠ npos)) ∧
      (string_view.mk 16 6).rfind_char (mem2 "abcdce" "c") 99 npos =
        (string_view.mk 16 6).rfind (mem2 "abcdce" "c") ⟨32, 1⟩ npos) :=
  ⟨by decide,
    rfind_char_agrees (mem2 "abcdce" "c") ⟨16, 6⟩ ⟨32, 1⟩ 99 npos (by decide) (by decide)
      (by decide)⟩

end absl

/-! ## Comparison -/

namespace absl

/-- `memcmp` returns the difference at the first position where the ranges differ. -/
theorem memcmp_first_diff (mem : Mem) (n p q i : Nat) (hi : i < n)
    (heq : ∀ k, k < i → mem (p + k) = mem (q + k)) (hne : mem (p + i) ≠ mem (q + i)) :
    memcmp mem p q n = ((mem (p + i)).toNat : Int) - ((mem (q + i)).toNat : Int) := by
  induction n generalizing p q i with
  | zero => omega
  | succ n ih =>
    unfold memcmp
    cases i with
    | zero =>
      have h0 : ¬ mem p = mem q := by simpa using hne
      rw [if_neg h0]
      simp
    | succ i =>
      have h0 : mem p = mem q := by simpa using heq 0 (by omega)
      rw [if_pos h0]
      have e1 : p + (i + 1) = p + 1 + i := by omega
      have e2 : q + (i + 1) = q + 1 + i := by omega
      rw [e1, e2] at hne ⊢
      refine ih (p + 1) (q + 1) i (by omega) (fun k hk => ?_) hne
      have := heq (k + 1) (by omega)
      have e3 : p + (k + 1) = p + 1 + k := by omega
      have e4 : q + (k + 1) = q + 1 + k := by omega
      rw [e3, e4] at this
      exact this

/-- Swapping the arguments of `memcmp` negates its result. -/
theorem memcmp_antisymm (mem : Mem) (n p q : Nat) :
    memcmp mem q p n = - memcmp mem p q n := by
  induction n generalizing p q with
  | zero => simp [memcmp]
  | succ n ih =>
    unfold memcmp
    by_cases h : mem p = mem q
    · rw [if_pos h, if_pos h.symm]
      exact ih (p + 1) (q + 1)
    · rw [if_neg h, if_neg (fun e => h e.symm)]
      omega

/-- The bytes of two different values differ as numbers. -/
theorem toNat_sub_ne_zero {x y : UInt8} (h : x ≠ y) : ((x.toNat : Int) - (y.toNat : Int)) ≠ 0 := by
  intro e
  apply h
  apply UInt8.ext
  omega

/-- `compare` is zero exactly for views of the same length and bytes. -/
theorem compare_eq_zero_iff (mem : Mem) (a b : string_view) :
    a.compare mem b = 0 ↔
      a.length_ = b.length_ ∧ ∀ k, k < a.length_ → mem (a.ptr_ + k) = mem (b.ptr_ + k) := by
  unfold string_view.compare
  simp only []
  by_cases hr : memcmp mem a.ptr_ b.ptr_ (min a.length_ b.length_) = 0
  · have hb := (memcmp_eq_zero_iff mem _ a.ptr_ b.ptr_).1 hr
    simp only [hr, ne_eq, not_true_eq_false, if_false]
    by_cases hl : a.length_ = b.length_
    · simp only [hl, if_true, true_and]
      simp only [hl, Nat.min_self] at hb
      exact ⟨fun _ => hb, fun _ => trivial⟩
    · simp only [hl, if_false, false_and, iff_false]
      split <;> omega
  · simp only [ne_eq, hr, not_false_eq_true, if_true]
    constructor
    · intro h
      split at h <;> omega
    · rintro ⟨hl, hb⟩
      exfalso
      apply hr
      rw [memcmp_eq_zero_iff]
      intro k hk
      exact hb k (by
        have := Nat.min_le_left a.length_ b.length_
        omega)

/-- Swapping the operands of `compare` negates its result. -/
theorem compare_neg (mem : Mem) (a b : string_view) :
    b.compare mem a = - a.compare mem b := by
  unfold string_view.compare
  rw [Nat.min_comm b.length_ a.length_, memcmp_antisymm mem _ a.ptr_ b.ptr_]
  generalize memcmp mem a.ptr_ b.ptr_ (min a.length_ b.length_) = r
  simp only []
  split_ifs <;> omega

/-- The result of `compare` is `-1`, `0` or `1`. -/
theorem compare_range (mem : Mem) (a b : string_view) :
    a.compare mem b = -1 ∨ a.compare mem b = 0 ∨ a.compare mem b = 1 := by
  unfold string_view.compare
  simp only []
  split_ifs <;> simp

end absl

namespace absl

/-- C16: `compare` is the three-way lexicographic order on bytes.  For all views `a` and
`b`: `a.compare(b)` is `-1`, `0` or `1`; at the first position below
`min(a.length, b.length)` where the bytes differ it is the sign of the difference of the
two bytes taken as unsigned values; if there is no such position it is `-1`, `0` or `1`
according to whether `a.length` is less than, equal to or greater than `b.length`; and it
is `0` exactly when `a` and `b` have the same length and the same bytes. -/
theorem compare_three_way (mem : Mem) (a b : string_view) :
    (a.compare mem b = -1 ∨ a.compare mem b = 0 ∨ a.compare mem b = 1) ∧
    (∀ i, i < min a.length_ b.length_ →
      (∀ k, k < i → a.at_ mem k = b.at_ mem k) → a.at_ mem i ≠ b.at_ mem i →
      a.compare mem b =
        Int.sign (((a.at_ mem i).toNat : Int) - ((b.at_ mem i).toNat : Int))) ∧
    ((∀ k, k < min a.length_ b.length_ → a.at_ mem k = b.at_ mem k) →
      a.compare mem b =
        if a.length_ < b.length_ then -1 else if a.length_ = b.length_ then 0 else 1) ∧
    (a.compare mem b = 0 ↔
      a.length_ = b.length_ ∧ ∀ k, k < a.length_ → a.at_ mem k = b.at_ mem k) := by
  refine ⟨compare_range mem a b, fun i hi heq hne => ?_, fun heq => ?_,
    compare_eq_zero_iff mem a b⟩
  · unfold string_view.at_ at heq hne ⊢
    have hd := memcmp_first_diff mem (min a.length_ b.length_) a.ptr_ b.ptr_ i hi heq hne
    have hnz := toNat_sub_ne_zero hne
    unfold string_view.compare
    simp only []
    rw [hd, if_pos hnz]
    by_cases hneg : ((mem (a.ptr_ + i)).toNat : Int) - ((mem (b.ptr_ + i)).toNat : Int) < 0
    · rw [if_pos hneg, Int.sign_eq_neg_one_of_neg hneg]
    · rw [if_neg hneg, Int.sign_eq_one_of_pos (by omega)]
  · unfold string_view.at_ at heq
    have hz := (memcmp_eq_zero_iff mem (min a.length_ b.length_) a.ptr_ b.ptr_).2 heq
    unfold string_view.compare
    simp only [hz, ne_eq, not_true_eq_false, if_false]
    split_ifs <;> first | rfl | omega

theorem compare_three_way_witness :
    (string_view.mk 16 3).compare (mem2 "abc" "abd") ⟨32, 3⟩ = -1 ∧
    (string_view.mk 16 4).compare (mem2 "abcd" "abc") ⟨32, 3⟩ = 1 ∧
    ((string_view.mk 16 3).compare (mem2 "abc" "abc") ⟨32, 3⟩ = 0 ↔
      (3 : Nat) = 3 ∧ ∀ k, k < 3 →
        (string_view.mk 16 3).at_ (mem2 "abc" "abc") k =
          (string_view.mk 32 3).at_ (mem2 "abc" "abc") k) :=
  ⟨by decide, by decide, (compare_three_way (mem2 "abc" "abc") ⟨16, 3⟩ ⟨32, 3⟩).2.2.2⟩

/-- C17: `compare` is antisymmetric.  For all views `a` and `b`,
`a.compare(b) == -b.compare(a)`. -/
theorem compare_antisymmetric (mem : Mem) (a b : string_view) :
    a.compare mem b = - b.compare mem a :=
  compare_neg mem b a

theorem compare_antisymmetric_witness :
    (string_view.mk 16 3).compare (mem2 "abc" "abd") ⟨32, 3⟩ = -1 ∧
    (string_view.mk 32 3).compare (mem2 "abc" "abd") ⟨16, 3⟩ = 1 ∧
    (string_view.mk 16 3).compare (mem2 "abc" "abd") ⟨32, 3⟩ =
      - (string_view.mk 32 3).compare (mem2 "abc" "abd") ⟨16, 3⟩ :=
  ⟨by decide, by decide, compare_antisymmetric (mem2 "abc" "abd") ⟨16, 3⟩ ⟨32, 3⟩⟩

/-- C18: the relational operators are consistent with `compare`.  For all views `a` and
`b`: `a == b` iff `a.compare(b) == 0`, `a != b` iff `a.compare(b) != 0`, `a < b` iff
`a.compare(b) < 0`, `a <= b` iff `a.compare(b) <= 0`, `a > b` iff `a.compare(b) > 0` and
`a >= b` iff `a.compare(b) >= 0`; and exactly one of `a < b`, `a == b`, `a > b` holds. -/
theorem operators_consistent (mem : Mem) (a b : string_view) :
    (a.eq mem b = true ↔ a.compare mem b = 0) ∧
    (a.ne mem b = true ↔ a.compare mem b ≠ 0) ∧
    (a.lt mem b = true ↔ a.compare mem b < 0) ∧
    (a.le mem b = true ↔ a.compare mem b ≤ 0) ∧
    (a.gt mem b = true ↔ a.compare mem b > 0) ∧
    (a.ge mem b = true ↔ a.compare mem b ≥ 0) ∧
    ((a.lt mem b = true ∧ a.eq mem b = false ∧ a.gt mem b = false) ∨
      (a.lt mem b = false ∧ a.eq mem b = true ∧ a.gt mem b = false) ∨
      (a.lt mem b = false ∧ a.eq mem b = false ∧ a.gt mem b = true)) := by
  have hneg := compare_neg mem a b
  unfold string_view.ne string_view.le string_view.gt string_view.ge string_view.eq
    string_view.lt
  rw [hneg]
  generalize a.compare mem b = r
  simp only [decide_eq_true_eq, Bool.not_eq_true', decide_eq_false_iff_not]
  refine ⟨trivial, trivial, trivial, by omega, by omega, by omega, by omega⟩

theorem operators_consistent_witness :
    (string_view.mk 16 2).lt (mem2 "ab" "ac") ⟨32, 2⟩ = true ∧
    (string_view.mk 16 2).le (mem2 "ab" "ac") ⟨32, 2⟩ = true ∧
    (string_view.mk 16 2).gt (mem2 "ab" "ac") ⟨32, 2⟩ = false ∧
    ((string_view.mk 16 2).le (mem2 "ab" "ac") ⟨32, 2⟩ = true ↔
      (string_view.mk 16 2).compare (mem2 "ab" "ac") ⟨32, 2⟩ ≤ 0) :=
  ⟨by decide, by decide, by decide,
    (operators_consistent (mem2 "ab" "ac") ⟨16, 2⟩ ⟨32, 2⟩).2.2.2.1⟩

end absl

/-! ## `substr`, `starts_with` and `ends_with` -/

namespace absl

/-- The view returned by `substr(pos, n)`, with both clamps written as minima. -/
theorem substr_spec (v : string_view) (pos n : Nat) (hL : v.length_ ≤ npos) :
    v.substr pos n =
      if min n (v.length_ - min pos v.length_) > 0 then
        ⟨v.ptr_ + min pos v.length_, min n (v.length_ - min pos v.length_)⟩
      else string_view.default := by
  unfold string_view.substr
  have hp : (if pos > v.length_ then v.length_ else pos) = min pos v.length_ := by
    split <;> omega
  simp only [hp]
  rw [size_sub_eq (Nat.min_le_right pos v.length_) hL]
  have hn : ∀ m, (if n > m then m else n) = min n m := by
    intro m
    split <;> omega
  simp only [hn]

/-- Cutting `s.length_` bytes at an index where the needle fits and comparing with the
needle gives zero exactly when the needle occurs there. -/
theorem substr_compare_zero_iff (mem : Mem) (v s : string_view) (i : Nat)
    (hL : v.length_ ≤ npos) (hfit : i + s.length_ ≤ v.length_) :
    (v.substr i s.length_).compare mem s = 0 ↔ occurs_at mem v s i := by
  rw [substr_spec v i s.length_ hL, compare_eq_zero_iff]
  have e1 : min i v.length_ = i := Nat.min_eq_left (by omega)
  have e2 : min s.length_ (v.length_ - i) = s.length_ := Nat.min_eq_left (by omega)
  rw [e1, e2]
  unfold occurs_at
  by_cases hm : s.length_ > 0
  · rw [if_pos hm]
    simp only [true_and]
    exact ⟨fun h => ⟨hfit, h⟩, fun h => h.2⟩
  · rw [if_neg hm]
    have hz : s.length_ = 0 := by omega
    exact ⟨fun _ => ⟨by omega, fun k hk => by omega⟩,
      fun _ => ⟨hz.symm, fun k hk => absurd hk (Nat.not_lt_zero k)⟩⟩

/-- `starts_with` holds exactly when the needle fits and occurs at index `0`. -/
theorem starts_with_iff (mem : Mem) (v s : string_view) (hL : v.length_ ≤ npos) :
    v.starts_with mem s = true ↔ s.length_ ≤ v.length_ ∧ occurs_at mem v s 0 := by
  unfold string_view.starts_with
  simp only [Bool.and_eq_true, decide_eq_true_eq, ge_iff_le]
  constructor
  · rintro ⟨h1, h2⟩
    exact ⟨h1, (substr_compare_zero_iff mem v s 0 hL (by omega)).1 h2⟩
  · rintro ⟨h1, h2⟩
    exact ⟨h1, (substr_compare_zero_iff mem v s 0 hL (by omega)).2 h2⟩

/-- `ends_with` holds exactly when the needle fits and occurs at index
`length_ - s.length_`. -/
theorem ends_with_iff (mem : Mem) (v s : string_view) (hL : v.length_ ≤ npos) :
    v.ends_with mem s = true ↔
      s.length_ ≤ v.length_ ∧ occurs_at mem v s (v.length_ - s.length_) := by
  unfold string_view.ends_with
  simp only [Bool.and_eq_true, decide_eq_true_eq, ge_iff_le]
  constructor
  · rintro ⟨h1, h2⟩
    rw [size_sub_eq h1 hL] at h2
    exact ⟨h1, (substr_compare_zero_iff mem v s _ hL (by omega)).1 h2⟩
  · rintro ⟨h1, h2⟩
    rw [size_sub_eq h1 hL]
    exact ⟨h1, (substr_compare_zero_iff mem v s _ hL (by omega)).2 h2⟩

/-- C19: `starts_with` / `ends_with`.  For all views `v` and `s`, `v.starts_with(s)` is
true iff `v.length >= s.length` and the first `s.length` bytes of `v` equal `s`, and
`v.ends_with(s)` is true iff `v.length >= s.length` and the last `s.length` bytes of `v`
equal `s`; consequently an empty `s` always matches (also on an empty `v`), and a needle
longer than `v` never matches.  Here `hL` says that the length of `v` is a `size_type`
value. -/
theorem starts_ends_with (mem : Mem) (v s : string_view) (hL : v.length_ ≤ npos) :
    (v.starts_with mem s = true ↔
      v.length_ ≥ s.length_ ∧ ∀ k, k < s.length_ → v.at_ mem k = s.at_ mem k) ∧
    (v.ends_with mem s = true ↔
      v.length_ ≥ s.length_ ∧
        ∀ k, k < s.length_ → v.at_ mem (v.length_ - s.length_ + k) = s.at_ mem k) ∧
    (s.empty = true → v.starts_with mem s = true ∧ v.ends_with mem s = true) ∧
    (v.length_ < s.length_ → v.starts_with mem s = false ∧ v.ends_with mem s = false) := by
  have hs := starts_with_iff mem v s hL
  have he := ends_with_iff mem v s hL
  unfold occurs_at at hs he
  unfold string_view.at_
  have hs2 : v.starts_with mem s = true ↔
      v.length_ ≥ s.length_ ∧ ∀ k, k < s.length_ → mem (v.ptr_ + k) = mem (s.ptr_ + k) := by
    rw [hs]
    simp only [Nat.add_zero, Nat.zero_add, ge_iff_le]
    exact ⟨fun h => ⟨h.1, h.2.2⟩, fun h => ⟨h.1, h.1, h.2⟩⟩
  have he2 : v.ends_with mem s = true ↔
      v.length_ ≥ s.length_ ∧
        ∀ k, k < s.length_ → mem (v.ptr_ + (v.length_ - s.length_ + k)) = mem (s.ptr_ + k) := by
    rw [he]
    simp only [ge_iff_le, Nat.add_assoc]
    exact ⟨fun h => ⟨h.1, h.2.2⟩, fun h => ⟨h.1, by omega, h.2⟩⟩
  refine ⟨hs2, he2, fun hemp => ?_, fun hlt => ?_⟩
  · have hz := (empty_iff_length s).1 hemp
    exact ⟨hs2.2 ⟨by omega, fun k hk => by omega⟩, he2.2 ⟨by omega, fun k hk => by omega⟩⟩
  · constructor
    · cases hb : v.starts_with mem s with
      | false => rfl
      | true => have := (hs2.1 hb).1; omega
    · cases hb : v.ends_with mem s with
      | false => rfl
      | true => have := (he2.1 hb).1; omega

theorem starts_ends_with_witness :
    (string_view.mk 16 3).starts_with (mem2 "cab" "ab") ⟨32, 2⟩ = false ∧
    (string_view.mk 16 3).ends_with (mem2 "cab" "ab") ⟨32, 2⟩ = true ∧
    string_view.default.starts_with (mem2 "" "") string_view.default = true ∧
    ((string_view.mk 16 3).ends_with (mem2 "cab" "ab") ⟨32, 2⟩ = true ↔
      3 ≥ 2 ∧ ∀ k, k < 2 →
        (string_view.mk 16 3).at_ (mem2 "cab" "ab") (3 - 2 + k) =
          (string_view.mk 32 2).at_ (mem2 "cab" "ab") k) :=
  ⟨by decide, by decide, by decide,
    (starts_ends_with (mem2 "cab" "ab") ⟨16, 3⟩ ⟨32, 2⟩ (by decide)).2.1⟩

/-- C20: `substr` clamps and canonicalises.  For every view `v` of length `L` and all
`pos`, `n`, with `p = min(pos, L)` and `k = min(n, L - p)`: `v.substr(pos, n)` has length
`k`; if `k > 0` its pointer is `v`'s pointer advanced by `p` and its bytes are
`v[p .. p+k)`; if `k == 0` it is the canonical empty view (null pointer, length 0).
Here `hL` says that the length of `v` is a `size_type` value. -/
theorem substr_clamps (mem : Mem) (v : string_view) (pos n : Nat) (hL : v.length_ ≤ npos) :
    (v.substr pos n).length_ = min n (v.length_ - min pos v.length_) ∧
    (min n (v.length_ - min pos v.length_) > 0 →
      (v.substr pos n).ptr_ = v.ptr_ + min pos v.length_ ∧
      ∀ i, i < min n (v.length_ - min pos v.length_) →
        (v.substr pos n).at_ mem i = v.at_ mem (min pos v.length_ + i)) ∧
    (min n (v.length_ - min pos v.length_) = 0 →
      v.substr pos n = string_view.default ∧
      (v.substr pos n).ptr_ = nullptr ∧ (v.substr pos n).length_ = 0) := by
  rw [substr_spec v pos n hL]
  by_cases hk : min n (v.length_ - min pos v.length_) > 0
  · rw [if_pos hk]
    refine ⟨rfl, fun _ => ⟨rfl, fun i _ => ?_⟩, fun hz => by omega⟩
    unfold string_view.at_
    simp only [Nat.add_assoc]
  · rw [if_neg hk]
    refine ⟨?_, fun h => absurd h hk, fun _ => ⟨rfl, rfl, rfl⟩⟩
    simp only [string_view.default]
    omega

theorem substr_clamps_witness :
    (string_view.mk 16 8).substr 2 3 = ⟨18, 3⟩ ∧
    (string_view.mk 16 8).substr 8 3 = ⟨0, 0⟩ ∧
    (string_view.mk 16 8).substr 6 npos = ⟨22, 2⟩ ∧
    (((string_view.mk 16 8).substr 9 0).length_ = min 0 (8 - min 9 8) ∧
      (min 0 (8 - min 9 8) > 0 →
        ((string_view.mk 16 8).substr 9 0).ptr_ = 16 + min 9 8 ∧
        ∀ i, i < min 0 (8 - min 9 8) →
          ((string_view.mk 16 8).substr 9 0).at_ (mem2 "abcdecde" "") i =
            (string_view.mk 16 8).at_ (mem2 "abcdecde" "") (min 9 8 + i)) ∧
      (min 0 (8 - min 9 8) = 0 →
        (string_view.mk 16 8).substr 9 0 = string_view.default ∧
        ((string_view.mk 16 8).substr 9 0).ptr_ = nullptr ∧
        ((string_view.mk 16 8).substr 9 0).length_ = 0)) :=
  ⟨by decide, by decide, by decide,
    substr_clamps (mem2 "abcdecde" "") ⟨16, 8⟩ 9 0 (by decide)⟩

end absl

/-! ## `substr` identity and window narrowing -/

namespace absl

/-- A view occurs in itself at index `0`. -/
theorem occurs_at_self (mem : Mem) (v : string_view) : occurs_at mem v v 0 :=
  ⟨by omega, fun k _ => by simp⟩

/-- The view left by `remove_prefix(n)`, with the clamp written as a minimum. -/
theorem remove_prefix_spec (v : string_view) (n : Nat) (hL : v.length_ ≤ npos) :
    string_view.remove_prefix v n = ⟨v.ptr_ + min n v.length_, v.length_ - min n v.length_⟩ := by
  unfold string_view.remove_prefix
  have hn : (if n > v.length_ then v.length_ else n) = min n v.length_ := by
    split <;> omega
  simp only [hn]
  rw [size_sub_eq (Nat.min_le_right n v.length_) hL]

/-- The view left by `remove_suffix(n)`, with the clamp written as a minimum. -/
theorem remove_suffix_spec (v : string_view) (n : Nat) (hL : v.length_ ≤ npos) :
    string_view.remove_suffix v n = ⟨v.ptr_, v.length_ - min n v.length_⟩ := by
  unfold string_view.remove_suffix
  have hn : (if n > v.length_ then v.length_ else n) = min n v.length_ := by
    split <;> omega
  simp only [hn]
  rw [size_sub_eq (Nat.min_le_right n v.length_) hL]

/-- C21: `substr` identity.  For every view `v` (with a non-null pointer or not),
`v.substr(0, v.length) == v` holds (`operator==`); and for every `pos ≤ v.length`,
`v.substr(pos, 0)` is the canonical empty view (null pointer, length 0).  Here `hL`
says that the length of `v` is a `size_type` value. -/
theorem substr_identity (mem : Mem) (v : string_view) (pos : Nat) (hL : v.length_ ≤ npos) :
    (v.substr 0 v.length_).eq mem v = true ∧
    (0 < v.length_ → v.substr 0 v.length_ = v) ∧
    (pos ≤ v.length_ →
      v.substr pos 0 = string_view.default ∧
      (v.substr pos 0).ptr_ = nullptr ∧ (v.substr pos 0).length_ = 0) := by
  refine ⟨substr_eq_of_occurs mem v v 0 hL (occurs_at_self mem v), fun hv => ?_, fun _ => ?_⟩
  · rw [substr_spec v 0 v.length_ hL]
    have e1 : min 0 v.length_ = 0 := Nat.min_eq_left (Nat.zero_le _)
    have e2 : min v.length_ (v.length_ - 0) = v.length_ := by omega
    rw [e1, e2, if_pos hv]
    rfl
  · have e : v.substr pos 0 = string_view.default := by
      rw [substr_spec v pos 0 hL]
      have e1 : min 0 (v.length_ - min pos v.length_) = 0 := Nat.min_eq_left (Nat.zero_le _)
      rw [e1, if_neg (by omega)]
    rw [e]
    exact ⟨rfl, rfl, rfl⟩

theorem substr_identity_witness :
    (string_view.mk 16 4).substr 0 4 = ⟨16, 4⟩ ∧
    (string_view.mk 16 4).substr 2 0 = ⟨0, 0⟩ ∧
    (((string_view.mk 16 4).substr 0 4).eq (mem2 "abcd" "") ⟨16, 4⟩ = true ∧
      (0 < 4 → (string_view.mk 16 4).substr 0 4 = ⟨16, 4⟩) ∧
      (4 ≤ 4 →
        (string_view.mk 16 4).substr 4 0 = string_view.default ∧
        ((string_view.mk 16 4).substr 4 0).ptr_ = nullptr ∧
        ((string_view.mk 16 4).substr 4 0).length_ = 0)) :=
  ⟨by decide, by decide, substr_identity (mem2 "abcd" "") ⟨16, 4⟩ 4 (by decide)⟩

/-- C22: `remove_prefix` clamps instead of underflowing.  For every view `v` of length
`L` and every `n`, after `v.remove_prefix(n)` the length is `L - min(n, L)`, the pointer
has advanced by exactly `min(n, L)`, and the remaining bytes are the last
`L - min(n, L)` bytes of the original view; on the default (null) view the pointer stays
null and the length stays 0.  Here `hL` says that the length of `v` is a `size_type`
value. -/
theorem remove_prefix_clamps (mem : Mem) (v : string_view) (n : Nat)
    (hL : v.length_ ≤ npos) :
    string_view.length_ ( string_view.remove_prefix v n) = v.length_ - min n v.length_ ∧
    string_view.ptr_ ( string_view.remove_prefix v n) = v.ptr_ + min n v.length_ ∧
    (∀ i, i < v.length_ - min n v.length_ →
      string_view.at_ mem ( string_view.remove_prefix v n) i =
        v.at_ mem (v.length_ - (v.length_ - min n v.length_) + i)) ∧
    string_view.remove_prefix string_view.default n = string_view.default := by
  rw [remove_prefix_spec v n hL]
  refine ⟨rfl, rfl, fun i hi => ?_, ?_⟩
  · unfold string_view.at_
    have hmin := Nat.min_le_right n v.length_
    have e : v.ptr_ + min n v.length_ + i =
        v.ptr_ + (v.length_ - (v.length_ - min n v.length_) + i) := by omega
    simp only [e]
  · rw [remove_prefix_spec string_view.default n (Nat.zero_le _)]
    simp [string_view.default, nullptr]

theorem remove_prefix_clamps_witness :
    string_view.remove_prefix ⟨16, 3⟩ 2 = ⟨18, 1⟩ ∧
    string_view.remove_prefix ⟨16, 3⟩ 7 = ⟨19, 0⟩ ∧
    (string_view.length_ ( string_view.remove_prefix ⟨16, 3⟩ 7) = 3 - min 7 3 ∧
      string_view.ptr_ ( string_view.remove_prefix ⟨16, 3⟩ 7) = 16 + min 7 3 ∧
      (∀ i, i < 3 - min 7 3 →
        string_view.at_ (mem2 "abc" "") ( string_view.remove_prefix ⟨16, 3⟩ 7) i =
          (string_view.mk 16 3).at_ (mem2 "abc" "") (3 - (3 - min 7 3) + i)) ∧
      string_view.remove_prefix string_view.default 7 = string_view.default) :=
  ⟨by decide, by decide, remove_prefix_clamps (mem2 "abc" "") ⟨16, 3⟩ 7 (by decide)⟩

/-- C23: `remove_suffix` shrinks only the length.  For every view `v` of length `L` and
every `n`, after `v.remove_suffix(n)` the length is `L - min(n, L)`, the pointer is
unchanged, and the remaining bytes are the first `L - min(n, L)` bytes of the original
view.  Here `hL` says that the length of `v` is a `size_type` value. -/
theorem remove_suffix_shrinks (mem : Mem) (v : string_view) (n : Nat)
    (hL : v.length_ ≤ npos) :
    (v.remove_suffix n).length_ = v.length_ - min n v.length_ ∧
    (v.remove_suffix n).ptr_ = v.ptr_ ∧
    (∀ i, i < v.length_ - min n v.length_ → (v.remove_suffix n).at_ mem i = v.at_ mem i) := by
  rw [remove_suffix_spec v n hL]
  exact ⟨rfl, rfl, fun i _ => rfl⟩

theorem remove_suffix_shrinks_witness :
    (string_view.mk 16 3).remove_suffix 2 = ⟨16, 1⟩ ∧
    (string_view.mk 16 3).remove_suffix 7 = ⟨16, 0⟩ ∧
    (((string_view.mk 16 3).remove_suffix 2).length_ = 3 - min 2 3 ∧
      ((string_view.mk 16 3).remove_suffix 2).ptr_ = 16 ∧
      (∀ i, i < 3 - min 2 3 →
        ((string_view.mk 16 3).remove_suffix 2).at_ (mem2 "abc" "") i =
          (string_view.mk 16 3).at_ (mem2 "abc" "") i)) :=
  ⟨by decide, by decide, remove_suffix_shrinks (mem2 "abc" "") ⟨16, 3⟩ 2 (by decide)⟩

end absl

/-! ## `copy`, element access and construction -/

namespace absl

/-- The result of `copy(dest, n, pos)`, with both clamps written as minima. -/
theorem copy_spec (mem : Mem) (v : string_view) (dest n pos : Nat) (hL : v.length_ ≤ npos) :
    v.copy mem dest n pos =
      (memcpy mem dest (v.ptr_ + min pos v.length_) (min n (v.length_ - min pos v.length_)),
        min n (v.length_ - min pos v.length_)) := by
  unfold string_view.copy
  have hp : (if pos > v.length_ then v.length_ else pos) = min pos v.length_ := by
    split <;> omega
  simp only [hp]
  rw [size_sub_eq (Nat.min_le_right pos v.length_) hL]
  have hn : ∀ m, (if n > m then m else n) = min n m := by
    intro m
    split <;> omega
  simp only [hn]

/-- C24: `copy` returns and copies the clamped count.  For every view `v` of length `L`,
destination `dest` and all `n`, `pos`, with `p = min(pos, L)` and `k = min(n, L - p)`:
`v.copy(dest, n, pos)` returns `k`; afterwards `dest[0 .. k)` holds the bytes
`v[p .. p+k)`; every byte outside `dest[0 .. k)`, in particular every destination byte at
index `≥ k`, is unchanged; and the bytes of `v` are unchanged when the destination does
not overlap the view (the view itself, a value, is not modified by `copy`).  Here `hL`
says that the length of `v` is a `size_type` value. -/
theorem copy_clamped (mem : Mem) (v : string_view) (dest n pos : Nat)
    (hL : v.length_ ≤ npos) :
    (v.copy mem dest n pos).2 = min n (v.length_ - min pos v.length_) ∧
    (∀ i, i < min n (v.length_ - min pos v.length_) →
      (v.copy mem dest n pos).1 (dest + i) = v.at_ mem (min pos v.length_ + i)) ∧
    (∀ j, j ≥ min n (v.length_ - min pos v.length_) →
      (v.copy mem dest n pos).1 (dest + j) = mem (dest + j)) ∧
    (∀ a, a < dest → (v.copy mem dest n pos).1 a = mem a) ∧
    ((dest + min n (v.length_ - min pos v.length_) ≤ v.ptr_ ∨ v.ptr_ + v.length_ ≤ dest) →
      (∀ i, i < v.length_ → v.at_ (v.copy mem dest n pos).1 i = v.at_ mem i) ∧
      ∀ i, i < min n (v.length_ - min pos v.length_) →
        (v.copy mem dest n pos).1 (dest + i) =
          v.at_ (v.copy mem dest n pos).1 (min pos v.length_ + i)) := by
  rw [copy_spec mem v dest n pos hL]
  simp only [memcpy, string_view.at_]
  have hmin := Nat.min_le_right pos v.length_
  have hk := Nat.min_le_right n (v.length_ - min pos v.length_)
  refine ⟨trivial, fun i hi => ?_, fun j hj => ?_, fun a ha => ?_, fun hdis => ⟨fun i hi => ?_, fun i hi => ?_⟩⟩
  · rw [if_pos ⟨by omega, by omega⟩]
    congr 1
    omega
  · rw [if_neg (by omega)]
  · rw [if_neg (by omega)]
  · rw [if_neg (by omega)]
  · rw [if_pos ⟨by omega, by omega⟩, if_neg (by omega)]
    congr 1
    omega

theorem copy_clamped_witness :
    ((string_view.mk 16 4).copy (mem2 "abcd" "") 32 5 0).2 = 4 ∧
    ((string_view.mk 16 4).copy (mem2 "abcd" "") 32 4 1).2 = 3 ∧
    ((string_view.mk 16 4).copy (mem2 "abcd" "") 32 4 1).1 32 = 98 ∧
    (((string_view.mk 16 4).copy (mem2 "abcd" "") 32 4 1).2 = min 4 (4 - min 1 4) ∧
      (∀ i, i < min 4 (4 - min 1 4) →
        ((string_view.mk 16 4).copy (mem2 "abcd" "") 32 4 1).1 (32 + i) =
          (string_view.mk 16 4).at_ (mem2 "abcd" "") (min 1 4 + i)) ∧
      (∀ j, j ≥ min 4 (4 - min 1 4) →
        ((string_view.mk 16 4).copy (mem2 "abcd" "") 32 4 1).1 (32 + j) =
          mem2 "abcd" "" (32 + j)) ∧
      (∀ a, a < 32 → ((string_view.mk 16 4).copy (mem2 "abcd" "") 32 4 1).1 a =
        mem2 "abcd" "" a) ∧
      ((32 + min 4 (4 - min 1 4) ≤ 16 ∨ 16 + 4 ≤ 32) →
        (∀ i, i < 4 →
          (string_view.mk 16 4).at_ ((string_view.mk 16 4).copy (mem2 "abcd" "") 32 4 1).1 i =
            (string_view.mk 16 4).at_ (mem2 "abcd" "") i) ∧
        ∀ i, i < min 4 (4 - min 1 4) →
          ((string_view.mk 16 4).copy (mem2 "abcd" "") 32 4 1).1 (32 + i) =
            (string_view.mk 16 4).at_ ((string_view.mk 16 4).copy (mem2 "abcd" "") 32 4 1).1
              (min 1 4 + i))) :=
  ⟨by decide, by decide, by decide,
    copy_clamped (mem2 "abcd" "") ⟨16, 4⟩ 32 4 1 (by decide)⟩

/-- C25: bounds-checked element access.  For every view `v` and every `pos < v.length`,
the assertion in `at(pos)` holds and `at(pos)` (and `operator[](pos)`) returns the byte at
offset `pos`; for every non-empty `v`, `front()` is `at(0)` and `back()` is
`at(v.length - 1)`; and for `pos ≥ v.length` (in particular for `front()` or `back()` on
an empty view) the precondition assertion fails and no value is returned. -/
theorem element_access (mem : Mem) (v : string_view) (pos : Nat) :
    (pos < v.length_ →
      v.at_pre pos = true ∧ v.at_checked mem pos = some (mem (v.ptr_ + pos)) ∧
      v.index mem pos = some (mem (v.ptr_ + pos))) ∧
    (0 < v.length_ →
      v.front_checked mem = v.at_checked mem 0 ∧
      v.front_checked mem = some (mem v.ptr_) ∧
      v.back_pre = true ∧
      v.back_checked mem = v.at_checked mem (v.length_ - 1) ∧
      v.back_checked mem = some (mem (v.ptr_ + (v.length_ - 1)))) ∧
    (pos ≥ v.length_ →
      v.at_pre pos = false ∧ v.at_checked mem pos = none ∧ v.index mem pos = none) ∧
    (v.empty = true →
      v.front_checked mem = none ∧ v.back_pre = false ∧ v.back_checked mem = none) := by
  unfold string_view.index string_view.front_checked string_view.back_checked
    string_view.at_checked string_view.at_pre string_view.back_pre string_view.back
    string_view.at_ string_view.empty
  refine ⟨fun h => ?_, fun h => ?_, fun h => ?_, fun h => ?_⟩
  · simp [h]
  · have e : v.ptr_ + v.length_ - 1 = v.ptr_ + (v.length_ - 1) := by omega
    have h2 : v.length_ - 1 < v.length_ := by omega
    simp [h, h2, e]
  · have h2 : ¬ pos < v.length_ := by omega
    simp [h2]
  · have hz : v.length_ = 0 := by simpa using h
    simp [hz]

theorem element_access_witness :
    (string_view.mk 16 3).at_checked (mem2 "abc" "") 1 = some 98 ∧
    (string_view.mk 16 3).at_checked (mem2 "abc" "") 3 = none ∧
    (string_view.mk 16 3).back_checked (mem2 "abc" "") = some 99 ∧
    string_view.default.front_checked (mem2 "abc" "") = none ∧
    ((string_view.mk 16 3).at_pre 1 = true ∧
      (string_view.mk 16 3).at_checked (mem2 "abc" "") 1 = some (mem2 "abc" "" (16 + 1)) ∧
      (string_view.mk 16 3).index (mem2 "abc" "") 1 = some (mem2 "abc" "" (16 + 1))) :=
  ⟨by decide, by decide, by decide, by decide,
    (element_access (mem2 "abc" "") ⟨16, 3⟩ 1).1 (by decide)⟩

end absl

namespace absl

/-- What the `strlen` scan returns. -/
theorem strlen_scan_spec (mem : Mem) (s fuel i : Nat) :
    (∀ r, strlen_scan mem s fuel i = some r →
      i ≤ r ∧ r < i + fuel ∧ mem (s + r) = 0 ∧ ∀ j, i ≤ j → j < r → mem (s + j) ≠ 0) ∧
    (strlen_scan mem s fuel i = none → ∀ j, i ≤ j → j < i + fuel → mem (s + j) ≠ 0) := by
  induction fuel generalizing i with
  | zero =>
    exact ⟨fun r h => by simp [strlen_scan] at h, fun _ j h1 h2 => by omega⟩
  | succ fuel ih =>
    unfold strlen_scan
    by_cases hz : mem (s + i) = 0
    · rw [if_pos hz]
      refine ⟨fun r hr => ?_, fun h => by simp at h⟩
      injection hr with hr
      subst hr
      exact ⟨Nat.le_refl _, by omega, hz, fun j h1 h2 => by omega⟩
    · rw [if_neg hz]
      obtain ⟨ih1, ih2⟩ := ih (i + 1)
      refine ⟨fun r hr => ?_, fun h j hj1 hj2 => ?_⟩
      · obtain ⟨a1, a2, a3, a4⟩ := ih1 r hr
        refine ⟨by omega, by omega, a3, fun j hj1 hj2 => ?_⟩
        by_cases e : j = i
        · subst e; exact hz
        · exact a4 j (by omega) hj2
      · by_cases e : j = i
        · subst e; exact hz
        · exact ih2 h j (by omega) (by omega)

/-- On a buffer with a NUL byte at an offset `n` that is a `size_t` value, `strlen`
returns the offset of the first NUL byte. -/
theorem strlen_terminated (mem : Mem) (s n : Nat) (hn : n ≤ npos) (hz : mem (s + n) = 0) :
    ∃ m, strlen mem s = some m ∧ m ≤ n ∧ mem (s + m) = 0 ∧ ∀ i, i < m → mem (s + i) ≠ 0 := by
  unfold strlen
  obtain ⟨l1, l2⟩ := strlen_scan_spec mem s (2 ^ 64) 0
  cases hs : strlen_scan mem s (2 ^ 64) 0 with
  | none =>
    exfalso
    unfold npos at hn
    exact l2 hs n (Nat.zero_le _) (by omega) hz
  | some m =>
    obtain ⟨_, _, a3, a4⟩ := l1 m hs
    refine ⟨m, rfl, ?_, a3, fun i hi => a4 i (Nat.zero_le _) hi⟩
    by_contra hlt
    exact a4 n (Nat.zero_le _) (by omega) hz

/-- C26: construction.  The default view is (null pointer, length 0); a view built from a
null-terminated buffer `s` (with a NUL at some offset `n`) keeps the buffer's pointer and
has length equal to the index of the first NUL byte, so its bytes contain no NUL; a null
input pointer gives length 0; and a view built from (pointer, count) stores both
verbatim. -/
theorem construction (mem : Mem) (s n : Nat) :
    (string_view.default.ptr_ = nullptr ∧ string_view.default.length_ = 0) ∧
    (s ≠ nullptr → n ≤ npos → mem (s + n) = 0 →
      ∃ v, string_view.of_cstr mem s = some v ∧ v.ptr_ = s ∧ v.length_ ≤ n ∧
        mem (s + v.length_) = 0 ∧ (∀ i, i < v.length_ → mem (s + i) ≠ 0) ∧
        ∀ i, i < v.length_ → v.at_ mem i ≠ 0) ∧
    string_view.of_cstr mem nullptr = some ⟨nullptr, 0⟩ ∧
    ((string_view.of_counted s n).ptr_ = s ∧ (string_view.of_counted s n).length_ = n) := by
  refine ⟨⟨rfl, rfl⟩, fun hs hn hz => ?_, ?_, ⟨rfl, rfl⟩⟩
  · obtain ⟨m, h1, h2, h3, h4⟩ := strlen_terminated mem s n hn hz
    refine ⟨⟨s, m⟩, ?_, rfl, h2, h3, h4, h4⟩
    unfold string_view.of_cstr
    rw [if_pos hs, h1]
    rfl
  · unfold string_view.of_cstr
    rw [if_neg (by simp)]

theorem construction_witness :
    string_view.of_cstr (mem2 "foo" "") 16 = some ⟨16, 3⟩ ∧
    (∃ v, string_view.of_cstr (mem2 "foo" "") 16 = some v ∧ v.ptr_ = 16 ∧ v.length_ ≤ 5 ∧
      mem2 "foo" "" (16 + v.length_) = 0 ∧ (∀ i, i < v.length_ → mem2 "foo" "" (16 + i) ≠ 0) ∧
      ∀ i, i < v.length_ → v.at_ (mem2 "foo" "") i ≠ 0) :=
  ⟨by decide, (construction (mem2 "foo" "") 16 5).2.1 (by decide) (by decide) (by decide)⟩

end absl

/-! ## Formatted output -/

namespace absl

/-- The padding loop appends `pad` fill characters and changes nothing else, given at
least `pad` rounds. -/
theorem WritePadLoop_spec (f : UInt8) (fuel : Nat) (os : ostream) (pad : Nat)
    (hf : pad ≤ fuel) (hp : pad ≤ npos) :
    WritePadLoop (List.replicate 32 f) fuel os pad =
      { os with out := os.out ++ List.replicate pad f } := by
  induction fuel generalizing os pad with
  | zero =>
    have hz : pad = 0 := by omega
    subst hz
    simp [WritePadLoop]
  | succ fuel ih =>
    unfold WritePadLoop
    by_cases hz : pad = 0
    · subst hz
      simp
    · rw [if_pos hz]
      simp only []
      have hmin : min pad 32 ≤ pad := Nat.min_le_left pad 32
      have hpos : 0 < min pad 32 := by omega
      rw [size_sub_eq hmin hp, ih _ _ (by omega) (by omega)]
      simp only [ostream.write, List.take_replicate, List.append_assoc,
        List.append_replicate_replicate]
      have e1 : min (min pad 32) 32 = min pad 32 := by omega
      have e2 : min pad 32 + (pad - min pad 32) = pad := by omega
      rw [e1, e2]

/-- `WritePad(os, pad)` appends `pad` fill characters and changes nothing else. -/
theorem WritePad_spec (os : ostream) (pad : Nat) (hp : pad ≤ npos) :
    WritePad os pad = { os with out := os.out ++ List.replicate pad os.fill_ } := by
  unfold WritePad
  exact WritePadLoop_spec os.fill_ pad os pad (Nat.le_refl _) hp

/-- A `std::streamsize` converted to `size_t` is a `size_t` value. -/
theorem size_cast_le (w : Int) : size_cast w ≤ npos := by
  unfold size_cast npos
  have h1 := Int.emod_nonneg w (b := 2 ^ 64) (by norm_num)
  have h2 := Int.emod_lt_of_pos w (b := 2 ^ 64) (by norm_num)
  omega

/-- A non-negative `std::streamsize` is converted to `size_t` unchanged. -/
theorem size_cast_nonneg (w : Int) (h0 : 0 ≤ w) (h1 : w < 2 ^ 63) : (size_cast w : Int) = w := by
  unfold size_cast
  omega

/-- The sink after `operator<<` on a good sink, in terms of the width as the code reads
it, `static_cast<size_t>(os.width())`. -/
theorem operator_shl_spec (mem : Mem) (os : ostream) (s : string_view) (hg : os.good = true) :
    operator_shl mem os s =
      { os with
        width_ := 0
        out :=
          if size_cast os.width_ > s.length_ then
            if os.flags_ &&& ios_adjustfield = ios_left then
              os.out ++ s.bytes mem ++ List.replicate (size_cast os.width_ - s.length_) os.fill_
            else
              os.out ++ List.replicate (size_cast os.width_ - s.length_) os.fill_ ++ s.bytes mem
          else os.out ++ s.bytes mem } := by
  unfold operator_shl
  rw [if_pos hg]
  have hW := size_cast_le os.width_
  by_cases hw : size_cast os.width_ > s.length_
  · have hsub : size_sub (size_cast os.width_) s.length_ = size_cast os.width_ - s.length_ :=
      size_sub_eq (by omega) hW
    have hne : size_cast os.width_ - s.length_ ≠ 0 := by omega
    have hle : size_cast os.width_ - s.length_ ≤ npos := by omega
    by_cases hl : os.flags_ &&& ios_adjustfield = ios_left
    · simp only [hw, hl, if_true, hsub, ne_eq, not_true_eq_false, if_false, hne,
        not_false_eq_true]
      rw [WritePad_spec _ _ hle]
      simp [ostream.write, ostream.set_width]
    · simp only [hw, hl, if_true, if_false, hsub, ne_eq, not_true_eq_false, hne,
        not_false_eq_true]
      rw [WritePad_spec _ _ hle]
      simp [ostream.write, ostream.set_width]
  · simp only [hw, if_false, ne_eq, not_true_eq_false]
    simp [ostream.write, ostream.set_width]

end absl

namespace absl

/-- For a non-negative field width `w` the output is padded to `max(w, size)` bytes:
exactly the view's bytes when `w ≤ size`, otherwise the bytes followed (left
adjustment) or preceded (any other adjustment) by `w - size` fill characters. -/
theorem operator_shl_nonneg_width (mem : Mem) (os : ostream) (s : string_view)
    (hg : os.good = true) (h0 : 0 ≤ os.width_) (h1 : os.width_ < 2 ^ 63) :
    (operator_shl mem os s).out =
      os.out ++
        (if os.width_.toNat ≤ s.length_ then s.bytes mem
        else if os.flags_ &&& ios_adjustfield = ios_left then
          s.bytes mem ++ List.replicate (os.width_.toNat - s.length_) os.fill_
        else List.replicate (os.width_.toNat - s.length_) os.fill_ ++ s.bytes mem) ∧
    (operator_shl mem os s).out.length = os.out.length + max os.width_.toNat s.length_ := by
  have hc : size_cast os.width_ = os.width_.toNat := by
    have := size_cast_nonneg os.width_ h0 h1
    omega
  have hb : (s.bytes mem).length = s.length_ := by simp [string_view.bytes]
  rw [operator_shl_spec mem os s hg, hc]
  simp only []
  by_cases hw : os.width_.toNat > s.length_
  · have hw2 : ¬ os.width_.toNat ≤ s.length_ := by omega
    by_cases hl : os.flags_ &&& ios_adjustfield = ios_left
    · simp only [hw, hw2, hl, if_true, if_false, List.append_assoc, List.length_append,
        List.length_replicate, hb, true_and]
      omega
    · simp only [hw, hw2, hl, if_true, if_false, List.append_assoc, List.length_append,
        List.length_replicate, hb, true_and]
      omega
  · have hw2 : os.width_.toNat ≤ s.length_ := by omega
    simp only [hw, hw2, if_true, if_false, List.length_append, hb, true_and]
    omega

/-- C27 at a negative field width: the code reads the width through
`static_cast<size_t>`, so with `os.width(-1)`, right adjustment and fill `' '`, the
three-byte view "abc" is written after `2 ^ 64 - 4` fill characters, `2 ^ 64 - 1` bytes
in all, and not as its three bytes alone. -/
theorem operator_shl_negative_width :
    (operator_shl (mem2 "abc" "") ⟨true, -1, 32, ios_right, []⟩ ⟨16, 3⟩).out =
      List.replicate (2 ^ 64 - 4) 32 ++ (string_view.mk 16 3).bytes (mem2 "abc" "") ∧
    (string_view.mk 16 3).bytes (mem2 "abc" "") = [97, 98, 99] ∧
    (operator_shl (mem2 "abc" "") ⟨true, -1, 32, ios_right, []⟩ ⟨16, 3⟩).out.length =
      2 ^ 64 - 1 := by
  have e1 : size_cast (-1) = 2 ^ 64 - 1 := by decide
  have e2 : ¬ (ios_right &&& ios_adjustfield = ios_left) := by decide
  have e3 : (2 : Nat) ^ 64 - 1 > 3 := by decide
  have e4 : (2 : Nat) ^ 64 - 1 - 3 = 2 ^ 64 - 4 := by decide
  have hb : (string_view.mk 16 3).bytes (mem2 "abc" "") = [97, 98, 99] := by decide
  have e : (operator_shl (mem2 "abc" "") ⟨true, -1, 32, ios_right, []⟩ ⟨16, 3⟩).out =
      List.replicate (2 ^ 64 - 4) 32 ++ (string_view.mk 16 3).bytes (mem2 "abc" "") := by
    rw [operator_shl_spec _ _ _ rfl]
    simp only [e1, e2, e3, e4, if_true, if_false, List.nil_append]
  refine ⟨e, hb, ?_⟩
  rw [e, hb, List.length_append, List.length_replicate]
  decide

/-- C28: one-shot field width.  After a view is streamed into a good sink, the sink's
field width is 0 whatever it was before, while its fill character and format flags (the
alignment among them) are unchanged and the sink is still good; so a second view
streamed without setting the width again is written unpadded. -/
theorem width_one_shot (mem : Mem) (os : ostream) (s t : string_view)
    (hg : os.good = true) :
    (operator_shl mem os s).width_ = 0 ∧
    (operator_shl mem os s).fill_ = os.fill_ ∧
    (operator_shl mem os s).flags_ = os.flags_ ∧
    (operator_shl mem os s).good = true ∧
    (operator_shl mem (operator_shl mem os s) t).out =
      (operator_shl mem os s).out ++ t.bytes mem := by
  have h1 := operator_shl_spec mem os s hg
  have hg2 : (operator_shl mem os s).good = true := by rw [h1]; exact hg
  have hw : (operator_shl mem os s).width_ = 0 := by rw [h1]
  refine ⟨hw, by rw [h1], by rw [h1], hg2, ?_⟩
  rw [operator_shl_spec mem (operator_shl mem os s) t hg2, hw]
  have e0 : size_cast 0 = 0 := by decide
  simp only [e0, gt_iff_lt, Nat.not_lt_zero, if_false]

theorem width_one_shot_witness :
    (operator_shl (mem2 "abcd" "xy") ⟨true, 6, 32, ios_left, []⟩ ⟨16, 3⟩).out =
      [97, 98, 99, 32, 32, 32] ∧
    (operator_shl (mem2 "abcd" "xy") ⟨true, 6, 32, ios_left, []⟩ ⟨16, 3⟩).width_ = 0 ∧
    (operator_shl (mem2 "abcd" "xy")
      (operator_shl (mem2 "abcd" "xy") ⟨true, 6, 32, ios_left, []⟩ ⟨16, 3⟩) ⟨32, 2⟩).out =
        [97, 98, 99, 32, 32, 32, 120, 121] ∧
    ((operator_shl (mem2 "abcd" "xy") ⟨true, 6, 32, ios_left, []⟩ ⟨16, 3⟩).width_ = 0 ∧
      (operator_shl (mem2 "abcd" "xy") ⟨true, 6, 32, ios_left, []⟩ ⟨16, 3⟩).fill_ = 32 ∧
      (operator_shl (mem2 "abcd" "xy") ⟨true, 6, 32, ios_left, []⟩ ⟨16, 3⟩).flags_ = ios_left ∧
      (operator_shl (mem2 "abcd" "xy") ⟨true, 6, 32, ios_left, []⟩ ⟨16, 3⟩).good = true ∧
      (operator_shl (mem2 "abcd" "xy")
        (operator_shl (mem2 "abcd" "xy") ⟨true, 6, 32, ios_left, []⟩ ⟨16, 3⟩) ⟨32, 2⟩).out =
          (operator_shl (mem2 "abcd" "xy") ⟨true, 6, 32, ios_left, []⟩ ⟨16, 3⟩).out ++
            (string_view.mk 32 2).bytes (mem2 "abcd" "xy")) :=
  ⟨by decide, by decide, by decide,
    width_one_shot (mem2 "abcd" "xy") ⟨true, 6, 32, ios_left, []⟩ ⟨16, 3⟩ ⟨32, 2⟩ rfl⟩

end absl

/-! ## The null-pointer invariant -/

namespace absl

/-- The two shapes of a `substr` result: the default view, or a non-empty window into the
view. -/
theorem substr_cases (v : string_view) (pos n : Nat) :
    v.substr pos n = string_view.default ∨
    ∃ p k, v.substr pos n = ⟨v.ptr_ + p, k⟩ ∧ 0 < k ∧ p ≤ v.length_ ∧
      k ≤ size_sub v.length_ p := by
  unfold string_view.substr
  simp only []
  generalize hp : (if pos > v.length_ then v.length_ else pos) = p
  have hpl : p ≤ v.length_ := by
    rw [← hp]
    split <;> omega
  generalize hk : (if n > size_sub v.length_ p then size_sub v.length_ p else n) = k
  have hkl : k ≤ size_sub v.length_ p := by
    rw [← hk]
    split <;> omega
  by_cases h : k > 0
  · right
    exact ⟨p, k, by rw [if_pos h], h, hpl, hkl⟩
  · left
    rw [if_neg h]

/-- C29: null-pointer invariant.  The predicate "pointer is null implies length == 0" is
established by the default constructor and by the null-terminated-buffer constructor
(for every input on which it returns, and in particular for a null input), and it is
preserved by `remove_prefix`, `remove_suffix`, `substr` and `swap` for every argument. -/
theorem null_invariant (mem : Mem) (v other : string_view) (s n pos : Nat) :
    string_view.default.null_inv ∧
    (∀ w, string_view.of_cstr mem s = some w → w.null_inv) ∧
    (∃ w, string_view.of_cstr mem nullptr = some w ∧ w.null_inv) ∧
    (v.null_inv →
      string_view.null_inv ( string_view.remove_prefix v n) ∧
      (v.remove_suffix n).null_inv ∧ (v.substr pos n).null_inv) ∧
    (v.null_inv → other.null_inv → (v.swap other).1.null_inv ∧ (v.swap other).2.null_inv) := by
  have hz : size_sub 0 0 = 0 := by decide
  refine ⟨fun _ => rfl, fun w hw => ?_, ⟨⟨nullptr, 0⟩, ?_, fun _ => rfl⟩, fun hv => ⟨?_, ?_, ?_⟩,
    fun hv ho => ⟨ho, hv⟩⟩
  · unfold string_view.of_cstr at hw
    by_cases hs : s ≠ nullptr
    · rw [if_pos hs] at hw
      cases hlen : strlen mem s with
      | none => rw [hlen] at hw; cases hw
      | some m =>
        rw [hlen] at hw
        injection hw with hw
        subst hw
        exact fun h => absurd h hs
    · rw [if_neg hs] at hw
      injection hw with hw
      subst hw
      exact fun _ => rfl
  · unfold string_view.of_cstr
    rw [if_neg (by simp)]
  · unfold string_view.null_inv string_view.remove_prefix nullptr at *
    simp only []
    generalize hm : (if n > v.length_ then v.length_ else n) = m
    have hml : m ≤ v.length_ := by
      rw [← hm]
      split <;> omega
    intro h
    have hl := hv (by omega)
    have hm0 : m = 0 := by omega
    rw [hl, hm0]
    exact hz
  · unfold string_view.null_inv string_view.remove_suffix nullptr at *
    simp only []
    generalize hm : (if n > v.length_ then v.length_ else n) = m
    have hml : m ≤ v.length_ := by
      rw [← hm]
      split <;> omega
    intro h
    have hl := hv h
    have hm0 : m = 0 := by omega
    rw [hl, hm0]
    exact hz
  · rcases substr_cases v pos n with e | ⟨p, k, e, hk, hp, hkl⟩
    · rw [e]
      exact fun _ => rfl
    · rw [e]
      unfold string_view.null_inv nullptr at *
      simp only []
      intro h
      have hl := hv (by omega)
      have hp0 : p = 0 := by omega
      rw [hl, hp0, hz] at hkl
      omega

theorem null_invariant_witness :
    string_view.remove_prefix string_view.default 3 = string_view.default ∧
    (string_view.null_inv ( string_view.remove_prefix ⟨16, 3⟩ 5) ∧
      ((string_view.mk 16 3).remove_suffix 5).null_inv ∧
      ((string_view.mk 16 3).substr 3 5).null_inv) ∧
    (string_view.null_inv ( string_view.remove_prefix string_view.default 5) ∧
      (string_view.default.remove_suffix 5).null_inv ∧
      (string_view.default.substr 3 5).null_inv) :=
  ⟨by decide,
    (null_invariant (mem2 "abc" "") ⟨16, 3⟩ string_view.default 16 5 3).2.2.2.1 (by decide),
    (null_invariant (mem2 "abc" "") string_view.default ⟨16, 3⟩ 16 5 3).2.2.2.1 (by decide)⟩

end absl

/-! ## Search and comparison depend only on contents and position -/

namespace absl

/-- `memcmp` depends only on the bytes of the two ranges. -/
theorem memcmp_congr (mem : Mem) (n p p2 q q2 : Nat)
    (hp : ∀ k, k < n → mem (p + k) = mem (p2 + k))
    (hq : ∀ k, k < n → mem (q + k) = mem (q2 + k)) :
    memcmp mem p q n = memcmp mem p2 q2 n := by
  induction n generalizing p p2 q q2 with
  | zero => rfl
  | succ n ih =>
    unfold memcmp
    have hp0 : mem p = mem p2 := by simpa using hp 0 (by omega)
    have hq0 : mem q = mem q2 := by simpa using hq 0 (by omega)
    rw [hp0, hq0]
    have hrec : memcmp mem (p + 1) (q + 1) n = memcmp mem (p2 + 1) (q2 + 1) n := by
      apply ih
      · intro k hk
        have := hp (k + 1) (by omega)
        have e1 : p + (k + 1) = p + 1 + k := by omega
        have e2 : p2 + (k + 1) = p2 + 1 + k := by omega
        rw [e1, e2] at this
        exact this
      · intro k hk
        have := hq (k + 1) (by omega)
        have e1 : q + (k + 1) = q + 1 + k := by omega
        have e2 : q2 + (k + 1) = q2 + 1 + k := by omega
        rw [e1, e2] at this
        exact this
    rw [hrec]

theorem compare_congr (mem : Mem) (v1 v2 p1 p2 : string_view)
    (hv : same_bytes mem v1 v2) (hp : same_bytes mem p1 p2) :
    v1.compare mem p1 = v2.compare mem p2 := by
  obtain ⟨hv1, hv2⟩ := hv
  obtain ⟨hp1, hp2⟩ := hp
  unfold string_view.compare
  have hm : memcmp mem v1.ptr_ p1.ptr_ (min v1.length_ p1.length_) =
      memcmp mem v2.ptr_ p2.ptr_ (min v1.length_ p1.length_) :=
    memcmp_congr mem _ _ _ _ _
      (fun k hk => hv2 k (by
        have := Nat.min_le_left v1.length_ p1.length_
        omega))
      (fun k hk => hp2 k (by
        have := Nat.min_le_right v1.length_ p1.length_
        omega))
  rw [hm, hv1, hp1]

theorem occurs_at_congr (mem : Mem) (v1 v2 p1 p2 : string_view) (i : Nat)
    (hv : same_bytes mem v1 v2) (hp : same_bytes mem p1 p2) :
    occurs_at mem v2 p2 i ↔ occurs_at mem v1 p1 i := by
  obtain ⟨hv1, hv2⟩ := hv
  obtain ⟨hp1, hp2⟩ := hp
  unfold occurs_at
  rw [← hv1, ← hp1]
  constructor
  · rintro ⟨h1, h2⟩
    refine ⟨h1, fun k hk => ?_⟩
    have := h2 k hk
    rw [hp2 k hk, ← this, Nat.add_assoc, Nat.add_assoc]
    exact hv2 (i + k) (by omega)
  · rintro ⟨h1, h2⟩
    refine ⟨h1, fun k hk => ?_⟩
    have := h2 k hk
    rw [← hp2 k hk, ← this, Nat.add_assoc, Nat.add_assoc]
    exact (hv2 (i + k) (by omega)).symm

theorem in_pattern_congr (mem : Mem) (p1 p2 : string_view) (b : UInt8)
    (hp : same_bytes mem p1 p2) : in_pattern mem p2 b ↔ in_pattern mem p1 b := by
  obtain ⟨hp1, hp2⟩ := hp
  unfold in_pattern
  rw [← hp1]
  constructor
  · rintro ⟨k, hk, h⟩
    exact ⟨k, hk, by rw [hp2 k hk]; exact h⟩
  · rintro ⟨k, hk, h⟩
    exact ⟨k, hk, by rw [← hp2 k hk]; exact h⟩

/-- `first_unique` for two characterisations whose predicates agree on the indices of
the view. -/
theorem first_unique_on (Q N Q2 N2 : Nat → Prop) (hQN : ∀ j, Q j → N j → False)
    (pos L r1 r2 : Nat) (hQ : ∀ j, j < L → Q2 j → Q j) (hN : ∀ j, j < L → N2 j → N j)
    (h1 : (r1 < L ∧ pos ≤ r1 ∧ Q r1 ∧ ∀ j, pos ≤ j → j < r1 → N j) ∨
      (r1 = npos ∧ ∀ j, pos ≤ j → j < L → N j))
    (h2 : (r2 < L ∧ pos ≤ r2 ∧ Q2 r2 ∧ ∀ j, pos ≤ j → j < r2 → N2 j) ∨
      (r2 = npos ∧ ∀ j, pos ≤ j → j < L → N2 j)) : r1 = r2 := by
  apply first_unique Q N hQN pos L r1 r2 h1
  rcases h2 with ⟨b1, b2, b3, b4⟩ | ⟨b1, b2⟩
  · left
    exact ⟨b1, b2, hQ r2 b1 b3, fun j hj1 hj2 => hN j (by omega) (b4 j hj1 hj2)⟩
  · right
    exact ⟨b1, fun j hj1 hj2 => hN j hj2 (b2 j hj1 hj2)⟩

/-- `last_unique` for two characterisations whose predicates agree on the indices up to
the bound. -/
theorem last_unique_on (Q N Q2 N2 : Nat → Prop) (hQN : ∀ j, Q j → N j → False)
    (B r1 r2 : Nat) (hQ : ∀ j, j ≤ B → Q2 j → Q j) (hN : ∀ j, j ≤ B → N2 j → N j)
    (h1 : (r1 ≤ B ∧ Q r1 ∧ ∀ j, r1 < j → j ≤ B → N j) ∨ (r1 = npos ∧ ∀ j, j ≤ B → N j))
    (h2 : (r2 ≤ B ∧ Q2 r2 ∧ ∀ j, r2 < j → j ≤ B → N2 j) ∨
      (r2 = npos ∧ ∀ j, j ≤ B → N2 j)) : r1 = r2 := by
  apply last_unique Q N hQN B r1 r2 h1
  rcases h2 with ⟨b1, b2, b3⟩ | ⟨b1, b2⟩
  · left
    exact ⟨b1, hQ r2 b1 b2, fun j hj1 hj2 => hN j hj2 (b3 j hj1 hj2)⟩
  · right
    exact ⟨b1, fun j hj => hN j hj (b2 j hj)⟩

/-- `find_spec` in the shape used by `first_unique`. -/
theorem find_first_form (mem : Mem) (v s : string_view) (pos : Nat) (hL : v.length_ ≤ npos)
    (hpos : pos < v.length_) :
    (v.find mem s pos < v.length_ ∧ pos ≤ v.find mem s pos ∧
      occurs_at mem v s (v.find mem s pos) ∧
      ∀ j, pos ≤ j → j < v.find mem s pos → ¬ occurs_at mem v s j) ∨
    (v.find mem s pos = npos ∧ ∀ j, pos ≤ j → j < v.length_ → ¬ occurs_at mem v s j) := by
  rcases find_spec mem v s pos hL hpos with ⟨a1, a2, a3, a4⟩ | ⟨a1, a2⟩
  · left
    refine ⟨a1, a2, a3, fun j hj1 hj2 hj => ?_⟩
    have := a4 j hj1 hj
    omega
  · right
    exact ⟨a1, fun j hj1 _ => a2 j hj1⟩

/-- `rfind_spec` in the shape used by `last_unique`. -/
theorem rfind_last_form (mem : Mem) (v s : string_view) (pos : Nat) (hL : v.length_ ≤ npos)
    (hs : 0 < s.length_) (hfit : s.length_ ≤ v.length_) :
    (v.rfind mem s pos ≤ min pos (v.length_ - s.length_) ∧
      occurs_at mem v s (v.rfind mem s pos) ∧
      ∀ j, v.rfind mem s pos < j → j ≤ min pos (v.length_ - s.length_) →
        ¬ occurs_at mem v s j) ∨
    (v.rfind mem s pos = npos ∧
      ∀ j, j ≤ min pos (v.length_ - s.length_) → ¬ occurs_at mem v s j) := by
  rcases rfind_spec mem v s pos hL hs hfit with ⟨a1, a2, a3⟩ | ⟨a1, a2⟩
  · left
    refine ⟨a1, a2, fun j hj1 hj2 hj => ?_⟩
    have := a3 j hj2 hj
    omega
  · right
    exact ⟨a1, a2⟩

end absl

namespace absl

theorem starts_ends_congr (mem : Mem) (v1 v2 p1 p2 : string_view) (hL : v1.length_ ≤ npos)
    (hv : same_bytes mem v1 v2) (hp : same_bytes mem p1 p2) :
    v1.starts_with mem p1 = v2.starts_with mem p2 ∧
    v1.ends_with mem p1 = v2.ends_with mem p2 := by
  have hL2 : v2.length_ ≤ npos := by rw [← hv.1]; exact hL
  have hocc := fun i => occurs_at_congr mem v1 v2 p1 p2 i hv hp
  constructor
  · rw [Bool.eq_iff_iff, starts_with_iff mem v1 p1 hL, starts_with_iff mem v2 p2 hL2, hocc,
      hv.1, hp.1]
  · rw [Bool.eq_iff_iff, ends_with_iff mem v1 p1 hL, ends_with_iff mem v2 p2 hL2, hocc,
      hv.1, hp.1]

theorem find_congr (mem : Mem) (v1 v2 p1 p2 : string_view) (pos : Nat)
    (hL : v1.length_ ≤ npos) (hv : same_bytes mem v1 v2) (hp : same_bytes mem p1 p2) :
    v1.find mem p1 pos = v2.find mem p2 pos := by
  have hocc := fun i => occurs_at_congr mem v1 v2 p1 p2 i hv hp
  by_cases hpos : pos < v1.length_
  · have f1 := find_first_form mem v1 p1 pos hL hpos
    have f2 := find_first_form mem v2 p2 pos (by rw [← hv.1]; exact hL)
      (by rw [← hv.1]; exact hpos)
    rw [← hv.1] at f2
    simp only [hocc] at f2
    exact first_unique (fun j => occurs_at mem v1 p1 j) (fun j => ¬ occurs_at mem v1 p1 j)
      (fun j h1 h2 => h2 h1) pos v1.length_ _ _ f1 f2
  · rw [find_of_le mem v1 p1 pos (by omega),
      find_of_le mem v2 p2 pos (by rw [← hv.1]; omega), hv.1, hp.1]

theorem rfind_congr (mem : Mem) (v1 v2 p1 p2 : string_view) (pos : Nat)
    (hL : v1.length_ ≤ npos) (hv : same_bytes mem v1 v2) (hp : same_bytes mem p1 p2) :
    v1.rfind mem p1 pos = v2.rfind mem p2 pos := by
  have hocc := fun i => occurs_at_congr mem v1 v2 p1 p2 i hv hp
  by_cases hlt : v1.length_ < p1.length_
  · have hlt2 : v2.length_ < p2.length_ := by rw [← hv.1, ← hp.1]; exact hlt
    unfold string_view.rfind
    rw [if_pos hlt, if_pos hlt2]
  · have hlt2 : ¬ v2.length_ < p2.length_ := by rw [← hv.1, ← hp.1]; exact hlt
    by_cases hz : p1.length_ = 0
    · have hz2 : p2.length_ = 0 := by rw [← hp.1]; exact hz
      unfold string_view.rfind string_view.empty
      rw [if_neg hlt, if_neg hlt2, if_pos (by simp [hz]), if_pos (by simp [hz2]), hv.1]
    · have r1 := rfind_last_form mem v1 p1 pos hL (by omega) (by omega)
      have r2 := rfind_last_form mem v2 p2 pos (by rw [← hv.1]; exact hL)
        (by rw [← hp.1]; omega) (by rw [← hv.1, ← hp.1]; omega)
      rw [← hv.1, ← hp.1] at r2
      simp only [hocc] at r2
      exact last_unique (fun j => occurs_at mem v1 p1 j) (fun j => ¬ occurs_at mem v1 p1 j)
        (fun j h1 h2 => h2 h1) (min pos (v1.length_ - p1.length_)) _ _ r1 r2

theorem char_class_congr (mem : Mem) (v1 v2 p1 p2 : string_view) (pos : Nat)
    (hL : v1.length_ ≤ npos) (hv : same_bytes mem v1 v2) (hp : same_bytes mem p1 p2) :
    v1.find_first_of mem p1 pos = v2.find_first_of mem p2 pos ∧
    v1.find_last_of mem p1 pos = v2.find_last_of mem p2 pos ∧
    v1.find_first_not_of mem p1 pos = v2.find_first_not_of mem p2 pos ∧
    v1.find_last_not_of mem p1 pos = v2.find_last_not_of mem p2 pos := by
  have hL2 : v2.length_ ≤ npos := by rw [← hv.1]; exact hL
  have hin : ∀ j, j < v1.length_ →
      (in_pattern mem p2 (v2.at_ mem j) ↔ in_pattern mem p1 (v1.at_ mem j)) := by
    intro j hj
    have e : v2.at_ mem j = v1.at_ mem j := (hv.2 j hj).symm
    rw [e]
    exact in_pattern_congr mem p1 p2 _ hp
  have f1 := find_first_of_spec mem v1 p1 pos hL
  have f2 := find_first_of_spec mem v2 p2 pos hL2
  have n1 := find_first_not_of_spec mem v1 p1 pos
  have n2 := find_first_not_of_spec mem v2 p2 pos
  rw [← hv.1] at f2 n2
  have hfirst : v1.find_first_of mem p1 pos = v2.find_first_of mem p2 pos :=
    first_unique_on (fun j => in_pattern mem p1 (v1.at_ mem j))
      (fun j => ¬ in_pattern mem p1 (v1.at_ mem j))
      (fun j => in_pattern mem p2 (v2.at_ mem j))
      (fun j => ¬ in_pattern mem p2 (v2.at_ mem j))
      (fun j h1 h2 => h2 h1) pos v1.length_ _ _
      (fun j hj h => (hin j hj).1 h) (fun j hj h h2 => h ((hin j hj).2 h2)) f1 f2
  have hfirstn : v1.find_first_not_of mem p1 pos = v2.find_first_not_of mem p2 pos :=
    first_unique_on (fun j => ¬ in_pattern mem p1 (v1.at_ mem j))
      (fun j => in_pattern mem p1 (v1.at_ mem j))
      (fun j => ¬ in_pattern mem p2 (v2.at_ mem j))
      (fun j => in_pattern mem p2 (v2.at_ mem j))
      (fun j h1 h2 => h1 h2) pos v1.length_ _ _
      (fun j hj h h2 => h ((hin j hj).2 h2)) (fun j hj h => (hin j hj).1 h) n1 n2
  by_cases hz : v1.length_ = 0
  · obtain ⟨_, a2, _, a4⟩ := char_class_empty_view mem v1 p1 pos hz
    obtain ⟨_, b2, _, b4⟩ := char_class_empty_view mem v2 p2 pos (by rw [← hv.1]; exact hz)
    exact ⟨hfirst, by rw [a2, b2], hfirstn, by rw [a4, b4]⟩
  · have hpos1 : 0 < v1.length_ := by omega
    have hB := Nat.min_le_right pos (v1.length_ - 1)
    have l1 := find_last_of_spec mem v1 p1 pos hL hpos1
    have l2 := find_last_of_spec mem v2 p2 pos hL2 (by rw [← hv.1]; exact hpos1)
    have m1 := find_last_not_of_spec mem v1 p1 pos hL hpos1
    have m2 := find_last_not_of_spec mem v2 p2 pos hL2 (by rw [← hv.1]; exact hpos1)
    rw [← hv.1] at l2 m2
    refine ⟨hfirst, ?_, hfirstn, ?_⟩
    · exact last_unique_on (fun j => in_pattern mem p1 (v1.at_ mem j))
        (fun j => ¬ in_pattern mem p1 (v1.at_ mem j))
        (fun j => in_pattern mem p2 (v2.at_ mem j))
        (fun j => ¬ in_pattern mem p2 (v2.at_ mem j))
        (fun j h1 h2 => h2 h1) (min pos (v1.length_ - 1)) _ _
        (fun j hj h => (hin j (by omega)).1 h)
        (fun j hj h h2 => h ((hin j (by omega)).2 h2)) l1 l2
    · exact last_unique_on (fun j => ¬ in_pattern mem p1 (v1.at_ mem j))
        (fun j => in_pattern mem p1 (v1.at_ mem j))
        (fun j => ¬ in_pattern mem p2 (v2.at_ mem j))
        (fun j => in_pattern mem p2 (v2.at_ mem j))
        (fun j h1 h2 => h1 h2) (min pos (v1.length_ - 1)) _ _
        (fun j hj h h2 => h ((hin j (by omega)).2 h2))
        (fun j hj h => (hin j (by omega)).1 h) m1 m2

/-- C30: search and comparison are pure functions of contents and position.  For all
views `v1`, `v2` with the same length and bytes, all patterns `p1`, `p2` with the same
length and bytes, and every `pos`, each of `compare`, `starts_with`, `ends_with`, `find`,
`rfind`, `find_first_of`, `find_last_of`, `find_first_not_of` and `find_last_not_of`
returns the same result on `(v1, p1, pos)` as on `(v2, p2, pos)`, whatever pointers (null
or not) the views hold.  Here `hL` says that the common length of `v1` and `v2` is a
`size_type` value. -/
theorem search_depends_on_contents (mem : Mem) (v1 v2 p1 p2 : string_view) (pos : Nat)
    (hL : v1.length_ ≤ npos) (hv : same_bytes mem v1 v2) (hp : same_bytes mem p1 p2) :
    v1.compare mem p1 = v2.compare mem p2 ∧
    v1.starts_with mem p1 = v2.starts_with mem p2 ∧
    v1.ends_with mem p1 = v2.ends_with mem p2 ∧
    v1.find mem p1 pos = v2.find mem p2 pos ∧
    v1.rfind mem p1 pos = v2.rfind mem p2 pos ∧
    v1.find_first_of mem p1 pos = v2.find_first_of mem p2 pos ∧
    v1.find_last_of mem p1 pos = v2.find_last_of mem p2 pos ∧
    v1.find_first_not_of mem p1 pos = v2.find_first_not_of mem p2 pos ∧
    v1.find_last_not_of mem p1 pos = v2.find_last_not_of mem p2 pos := by
  obtain ⟨s1, s2⟩ := starts_ends_congr mem v1 v2 p1 p2 hL hv hp
  obtain ⟨c1, c2, c3, c4⟩ := char_class_congr mem v1 v2 p1 p2 pos hL hv hp
  exact ⟨compare_congr mem v1 v2 p1 p2 hv hp, s1, s2,
    find_congr mem v1 v2 p1 p2 pos hL hv hp, rfind_congr mem v1 v2 p1 p2 pos hL hv hp,
    c1, c2, c3, c4⟩

theorem search_depends_on_contents_witness :
    (string_view.mk 16 5).find (mem2 "abcab-abcab" "ab-ab") ⟨32, 2⟩ 1 = 3 ∧
    string_view.default.find (mem2 "" "") ⟨16, 0⟩ 0 = (string_view.mk 32 0).find (mem2 "" "") ⟨0, 0⟩ 0 ∧
    ((string_view.mk 16 5).compare (mem2 "abcab-abcab" "ab-ab") ⟨32, 2⟩ =
        (string_view.mk 22 5).compare (mem2 "abcab-abcab" "ab-ab") ⟨35, 2⟩ ∧
      (string_view.mk 16 5).starts_with (mem2 "abcab-abcab" "ab-ab") ⟨32, 2⟩ =
        (string_view.mk 22 5).starts_with (mem2 "abcab-abcab" "ab-ab") ⟨35, 2⟩ ∧
      (string_view.mk 16 5).ends_with (mem2 "abcab-abcab" "ab-ab") ⟨32, 2⟩ =
        (string_view.mk 22 5).ends_with (mem2 "abcab-abcab" "ab-ab") ⟨35, 2⟩ ∧
      (string_view.mk 16 5).find (mem2 "abcab-abcab" "ab-ab") ⟨32, 2⟩ 1 =
        (string_view.mk 22 5).find (mem2 "abcab-abcab" "ab-ab") ⟨35, 2⟩ 1 ∧
      (string_view.mk 16 5).rfind (mem2 "abcab-abcab" "ab-ab") ⟨32, 2⟩ 1 =
        (string_view.mk 22 5).rfind (mem2 "abcab-abcab" "ab-ab") ⟨35, 2⟩ 1 ∧
      (string_view.mk 16 5).find_first_of (mem2 "abcab-abcab" "ab-ab") ⟨32, 2⟩ 1 =
        (string_view.mk 22 5).find_first_of (mem2 "abcab-abcab" "ab-ab") ⟨35, 2⟩ 1 ∧
      (string_view.mk 16 5).find_last_of (mem2 "abcab-abcab" "ab-ab") ⟨32, 2⟩ 1 =
        (string_view.mk 22 5).find_last_of (mem2 "abcab-abcab" "ab-ab") ⟨35, 2⟩ 1 ∧
      (string_view.mk 16 5).find_first_not_of (mem2 "abcab-abcab" "ab-ab") ⟨32, 2⟩ 1 =
        (string_view.mk 22 5).find_first_not_of (mem2 "abcab-abcab" "ab-ab") ⟨35, 2⟩ 1 ∧
      (string_view.mk 16 5).find_last_not_of (mem2 "abcab-abcab" "ab-ab") ⟨32, 2⟩ 1 =
        (string_view.mk 22 5).find_last_not_of (mem2 "abcab-abcab" "ab-ab") ⟨35, 2⟩ 1) :=
  ⟨by decide, by decide,
    search_depends_on_contents (mem2 "abcab-abcab" "ab-ab") ⟨16, 5⟩ ⟨22, 5⟩ ⟨32, 2⟩ ⟨35, 2⟩ 1
      (by decide) (by decide) (by decide)⟩

end absl

/-! ## Forward and backward search together -/

namespace absl

end absl

/-! ## Composition of `substr` -/

namespace absl

/-- `substr(a)` with the default count, for any offset. -/
theorem substr_default_count (v : string_view) (a : Nat) (hL : v.length_ ≤ npos) :
    v.substr a npos =
      if v.length_ - min a v.length_ > 0 then
        ⟨v.ptr_ + min a v.length_, v.length_ - min a v.length_⟩
      else string_view.default := by
  rw [substr_spec v a npos hL]
  have e : min npos (v.length_ - min a v.length_) = v.length_ - min a v.length_ :=
    Nat.min_eq_right (by omega)
  rw [e]

/-- C34: `substr` composes additively.  For every view `v` and all offsets `a`, `b` whose
sum does not exceed the maximum `size_type` value, `v.substr(a).substr(b)` is the same
view (same pointer and length, the canonical empty view when nothing remains) as
`v.substr(a + b)`, the sum being a `size_type` sum; and after `v.remove_prefix(n)` the
view has the same length and bytes as the original `v.substr(n)`.  Here `hL` says that
the length of `v` is a `size_type` value. -/
theorem substr_composes (mem : Mem) (v : string_view) (a b n : Nat)
    (hL : v.length_ ≤ npos) (hab : a + b ≤ npos) :
    (v.substr a npos).substr b npos = v.substr ((a + b) % 2 ^ 64) npos ∧
    same_bytes mem ( string_view.remove_prefix v n) (v.substr n npos) := by
  have hmod : (a + b) % 2 ^ 64 = a + b := by
    unfold npos at hab
    omega
  rw [hmod]
  constructor
  · rw [substr_default_count v a hL, substr_default_count v (a + b) hL]
    by_cases ha : a < v.length_
    · have e1 : min a v.length_ = a := Nat.min_eq_left (by omega)
      rw [e1, if_pos (by omega)]
      rw [substr_default_count ⟨v.ptr_ + a, v.length_ - a⟩ b (by simp only; omega)]
      simp only []
      by_cases hb : b < v.length_ - a
      · have e2 : min b (v.length_ - a) = b := Nat.min_eq_left (by omega)
        have e3 : min (a + b) v.length_ = a + b := Nat.min_eq_left (by omega)
        rw [e2, e3, if_pos (by omega), if_pos (by omega)]
        have e4 : v.ptr_ + a + b = v.ptr_ + (a + b) := by omega
        have e5 : v.length_ - a - b = v.length_ - (a + b) := by omega
        rw [e4, e5]
      · have e2 : min b (v.length_ - a) = v.length_ - a := Nat.min_eq_right (by omega)
        have e3 : min (a + b) v.length_ = v.length_ := Nat.min_eq_right (by omega)
        rw [e2, e3, if_neg (by omega), if_neg (by omega)]
    · have e1 : min a v.length_ = v.length_ := Nat.min_eq_right (by omega)
      have e3 : min (a + b) v.length_ = v.length_ := Nat.min_eq_right (by omega)
      rw [e1, e3, if_neg (by omega)]
      rw [substr_default_count string_view.default b (Nat.zero_le _)]
      rw [if_neg (by simp [string_view.default])]
  · rw [remove_prefix_spec v n hL, substr_default_count v n hL]
    by_cases hr : v.length_ - min n v.length_ > 0
    · rw [if_pos hr]
      exact ⟨rfl, fun k _ => rfl⟩
    · rw [if_neg hr]
      refine ⟨?_, fun k hk => ?_⟩
      · simp only [string_view.default]
        omega
      · simp only at hk
        omega

theorem substr_composes_witness :
    ((string_view.mk 16 8).substr 2 npos).substr 3 npos = ⟨21, 3⟩ ∧
    ((string_view.mk 16 8).substr 5 npos).substr 3 npos = ⟨0, 0⟩ ∧
    (((string_view.mk 16 8).substr 2 npos).substr 3 npos =
        (string_view.mk 16 8).substr ((2 + 3) % 2 ^ 64) npos ∧
      same_bytes (mem2 "abcdecde" "") ( string_view.remove_prefix ⟨16, 8⟩ 5)
        ((string_view.mk 16 8).substr 5 npos)) :=
  ⟨by decide, by decide,
    substr_composes (mem2 "abcdecde" "") ⟨16, 8⟩ 2 3 5 (by decide) (by decide)⟩

end absl

/-! ## `compare` as an order -/

namespace absl

/-- Two ranges of `n` bytes agree, or there is a first position where they differ. -/
theorem first_diff_or_equal (mem : Mem) (p q n : Nat) :
    (∀ k, k < n → mem (p + k) = mem (q + k)) ∨
    ∃ i, i < n ∧ (∀ k, k < i → mem (p + k) = mem (q + k)) ∧ mem (p + i) ≠ mem (q + i) := by
  induction n with
  | zero => left; intro k hk; omega
  | succ n ih =>
    rcases ih with h | ⟨i, hi, h1, h2⟩
    · by_cases e : mem (p + n) = mem (q + n)
      · left
        intro k hk
        by_cases ek : k = n
        · subst ek; exact e
        · exact h k (by omega)
      · right
        exact ⟨n, by omega, h, e⟩
    · right
      exact ⟨i, by omega, h1, h2⟩

/-- `compare` is at most zero exactly when the first view is a prefix of the second, or
is smaller at the first position where they differ. -/
theorem compare_le_iff (mem : Mem) (a b : string_view) :
    a.compare mem b ≤ 0 ↔
      ((∀ k, k < min a.length_ b.length_ → mem (a.ptr_ + k) = mem (b.ptr_ + k)) ∧
        a.length_ ≤ b.length_) ∨
      ∃ i, i < min a.length_ b.length_ ∧
        (∀ k, k < i → mem (a.ptr_ + k) = mem (b.ptr_ + k)) ∧
        (mem (a.ptr_ + i)).toNat < (mem (b.ptr_ + i)).toNat := by
  have hpre : (∀ k, k < min a.length_ b.length_ → mem (a.ptr_ + k) = mem (b.ptr_ + k)) →
      (a.compare mem b ≤ 0 ↔ a.length_ ≤ b.length_) := by
    intro h
    have hz := (memcmp_eq_zero_iff mem (min a.length_ b.length_) a.ptr_ b.ptr_).2 h
    unfold string_view.compare
    simp only [hz, ne_eq, not_true_eq_false, if_false]
    split_ifs <;> omega
  have hdiff : ∀ i, i < min a.length_ b.length_ →
      (∀ k, k < i → mem (a.ptr_ + k) = mem (b.ptr_ + k)) →
      mem (a.ptr_ + i) ≠ mem (b.ptr_ + i) →
      (a.compare mem b ≤ 0 ↔ (mem (a.ptr_ + i)).toNat < (mem (b.ptr_ + i)).toNat) := by
    intro i hi heq hne
    have hd := memcmp_first_diff mem (min a.length_ b.length_) a.ptr_ b.ptr_ i hi heq hne
    have hnz := toNat_sub_ne_zero hne
    unfold string_view.compare
    simp only []
    rw [hd, if_pos hnz]
    split_ifs <;> omega
  have hne_of_lt : ∀ i, (mem (a.ptr_ + i)).toNat < (mem (b.ptr_ + i)).toNat →
      mem (a.ptr_ + i) ≠ mem (b.ptr_ + i) := by
    intro i hlt e
    rw [e] at hlt
    omega
  constructor
  · intro hle
    rcases first_diff_or_equal mem a.ptr_ b.ptr_ (min a.length_ b.length_) with
      h | ⟨i, hi, h1, h2⟩
    · left
      exact ⟨h, (hpre h).1 hle⟩
    · right
      exact ⟨i, hi, h1, (hdiff i hi h1 h2).1 hle⟩
  · rintro (⟨h, hl⟩ | ⟨i, hi, h1, h2⟩)
    · exact (hpre h).2 hl
    · exact (hdiff i hi h1 (hne_of_lt i h2)).2 h2

/-- `compare` is transitive on "at most zero". -/
theorem compare_le_trans (mem : Mem) (a b c : string_view)
    (hab : a.compare mem b ≤ 0) (hbc : b.compare mem c ≤ 0) : a.compare mem c ≤ 0 := by
  rw [compare_le_iff] at hab hbc ⊢
  have hA := Nat.min_le_left a.length_ b.length_
  have hB := Nat.min_le_right a.length_ b.length_
  have hC := Nat.min_le_left b.length_ c.length_
  have hD := Nat.min_le_right b.length_ c.length_
  rcases hab with ⟨p1, l1⟩ | ⟨i, hi, pi, di⟩
  · have p1' : ∀ k, k < a.length_ → mem (a.ptr_ + k) = mem (b.ptr_ + k) :=
      fun k hk => p1 k (by omega)
    rcases hbc with ⟨p2, l2⟩ | ⟨j, hj, pj, dj⟩
    · left
      refine ⟨fun k hk => ?_, by omega⟩
      have hk1 : k < a.length_ := by
        have := Nat.min_le_left a.length_ c.length_
        omega
      rw [p1' k hk1]
      exact p2 k (by omega)
    · by_cases hja : j < a.length_
      · right
        refine ⟨j, by omega, fun k hk => ?_, ?_⟩
        · rw [p1' k (by omega)]
          exact pj k hk
        · rw [p1' j hja]
          exact dj
      · left
        refine ⟨fun k hk => ?_, by omega⟩
        have hk1 : k < a.length_ := by
          have := Nat.min_le_left a.length_ c.length_
          omega
        rw [p1' k hk1]
        exact pj k (by omega)
  · rcases hbc with ⟨p2, l2⟩ | ⟨j, hj, pj, dj⟩
    · right
      have p2' : ∀ k, k < b.length_ → mem (b.ptr_ + k) = mem (c.ptr_ + k) :=
        fun k hk => p2 k (by omega)
      refine ⟨i, by omega, fun k hk => ?_, ?_⟩
      · rw [pi k hk]
        exact p2' k (by omega)
      · rw [← p2' i (by omega)]
        exact di
    · right
      rcases Nat.lt_trichotomy i j with hlt | heq | hgt
      · refine ⟨i, by omega, fun k hk => ?_, ?_⟩
        · rw [pi k hk]
          exact pj k (by omega)
        · rw [← pj i hlt]
          exact di
      · subst heq
        refine ⟨i, by omega, fun k hk => ?_, by omega⟩
        rw [pi k hk]
        exact pj k hk
      · refine ⟨j, by omega, fun k hk => ?_, ?_⟩
        · rw [pi k (by omega)]
          exact pj k hk
        · rw [pi j hgt]
          exact dj

/-- A view compares equal to itself. -/
theorem compare_self (mem : Mem) (a : string_view) : a.compare mem a = 0 :=
  (compare_eq_zero_iff mem a a).2 ⟨rfl, fun _ _ => rfl⟩

/-- `compare` is transitive on "below zero". -/
theorem compare_lt_trans (mem : Mem) (a b c : string_view)
    (hab : a.compare mem b < 0) (hbc : b.compare mem c < 0) : a.compare mem c < 0 := by
  have hle := compare_le_trans mem a b c (by omega) (by omega)
  by_contra hnlt
  have hz : a.compare mem c = 0 := by omega
  have hsame : same_bytes mem a c := (compare_eq_zero_iff mem a c).1 hz
  have e : a.compare mem b = c.compare mem b :=
    compare_congr mem a c b b hsame ⟨rfl, fun _ _ => rfl⟩
  have hn := compare_neg mem c b
  omega

end absl

namespace absl

/-- C35: `compare` induces a total order.  For all views `a`, `b`, `c`: if
`a.compare(b) <= 0` and `b.compare(c) <= 0` then `a.compare(c) <= 0` (transitivity), and
`a.compare(a) == 0` (reflexivity); so `operator<` is a strict total order on view
contents: it is irreflexive, asymmetric and transitive, and of two views one is below
the other or they have the same length and bytes. -/
theorem compare_total_order (mem : Mem) (a b c : string_view) :
    (a.compare mem b ≤ 0 → b.compare mem c ≤ 0 → a.compare mem c ≤ 0) ∧
    a.compare mem a = 0 ∧
    a.lt mem a = false ∧
    (a.lt mem b = true → b.lt mem a = false) ∧
    (a.lt mem b = true → b.lt mem c = true → a.lt mem c = true) ∧
    (a.lt mem b = true ∨ same_bytes mem a b ∨ b.lt mem a = true) := by
  have hself := compare_self mem a
  have hneg := compare_neg mem a b
  unfold string_view.lt
  refine ⟨compare_le_trans mem a b c, hself, ?_, fun h => ?_, fun h1 h2 => ?_, ?_⟩
  · simp [hself]
  · have h' : a.compare mem b < 0 := by simpa using h
    have : ¬ b.compare mem a < 0 := by omega
    simpa using this
  · have h1' : a.compare mem b < 0 := by simpa using h1
    have h2' : b.compare mem c < 0 := by simpa using h2
    have := compare_lt_trans mem a b c h1' h2'
    simpa using this
  · rcases Int.lt_trichotomy (a.compare mem b) 0 with hlt | heq | hgt
    · left
      simpa using hlt
    · right; left
      exact (compare_eq_zero_iff mem a b).1 heq
    · right; right
      have : b.compare mem a < 0 := by omega
      simpa using this

theorem compare_total_order_witness :
    (string_view.mk 16 2).compare (mem2 "abacad" "") ⟨18, 2⟩ = -1 ∧
    (string_view.mk 18 2).compare (mem2 "abacad" "") ⟨20, 2⟩ = -1 ∧
    (string_view.mk 16 2).compare (mem2 "abacad" "") ⟨20, 2⟩ ≤ 0 ∧
    (string_view.mk 16 2).lt (mem2 "abacad" "") ⟨20, 2⟩ = true :=
  ⟨by decide, by decide,
    (compare_total_order (mem2 "abacad" "") ⟨16, 2⟩ ⟨18, 2⟩ ⟨20, 2⟩).1 (by decide) (by decide),
    (compare_total_order (mem2 "abacad" "") ⟨16, 2⟩ ⟨18, 2⟩ ⟨20, 2⟩).2.2.2.2.1
      (by decide) (by decide)⟩

end absl

/-! ## Termination of the substring scan -/

namespace absl

/-- A candidate found by `memchr` in `[ph, hend)` moves the scan start strictly forward,
and not past `hend`. -/
theorem scan_progress (mem : Mem) (c : UInt8) (ph hend m : Nat)
    (h : memchr mem ph c (hend - ph) = some m) : ph < m + 1 ∧ m + 1 ≤ hend := by
  obtain ⟨h1, h2, _, _⟩ := memchr_some mem c (hend - ph) ph m h
  omega

/-- The loop of `Match` stops within `hend - ph + 1` rounds, after at most `hend - ph`
confirmations, with the result of `MatchLoop`. -/
theorem MatchRun_spec (mem : Mem) (pn nlen hend rounds ph : Nat) (hr : hend - ph < rounds) :
    ∃ k, MatchRun mem pn nlen hend rounds ph =
        some (MatchLoop mem pn nlen hend rounds ph, k) ∧ k ≤ hend - ph := by
  induction rounds generalizing ph with
  | zero => omega
  | succ rounds ih =>
    unfold MatchRun MatchLoop
    cases hm : memchr mem ph (mem pn) (hend - ph) with
    | none => exact ⟨0, rfl, Nat.zero_le _⟩
    | some m =>
      obtain ⟨h1, h2⟩ := scan_progress mem (mem pn) ph hend m hm
      by_cases hc : memcmp mem m pn nlen = 0
      · simp only [hc, if_true]
        exact ⟨1, rfl, by omega⟩
      · simp only [hc, if_false]
        obtain ⟨k, hk1, hk2⟩ := ih (m + 1) (by omega)
        rw [hk1]
        exact ⟨k + 1, rfl, by omega⟩

/-- `Match` stops within `hlen + 1` rounds of its loop, after at most `hlen`
confirmations, with the result of `Match`. -/
theorem Match_run_spec (mem : Mem) (ph hlen pn nlen rounds : Nat) (hr : hlen < rounds) :
    ∃ k, Match_run mem ph hlen pn nlen rounds = some (Match mem ph hlen pn nlen, k) ∧
      k ≤ hlen := by
  unfold Match_run Match
  by_cases hn : 0 = nlen
  · rw [if_pos hn, if_pos hn]
    exact ⟨0, rfl, Nat.zero_le _⟩
  · rw [if_neg hn, if_neg hn]
    by_cases hlt : hlen < nlen
    · rw [if_pos hlt, if_pos hlt]
      exact ⟨0, rfl, Nat.zero_le _⟩
    · rw [if_neg hlt, if_neg hlt]
      simp only []
      have hd : ph + hlen - nlen + 1 - ph = hlen - nlen + 1 := by omega
      obtain ⟨k, hk1, hk2⟩ := MatchRun_spec mem pn nlen (ph + hlen - nlen + 1) rounds ph
        (by omega)
      rw [hk1, MatchLoop_fuel mem pn nlen (ph + hlen - nlen + 1)
        (ph + hlen - nlen + 1 - ph) rounds ph (Nat.le_refl _) (by omega)]
      exact ⟨k, rfl, by omega⟩

/-- C32: the substring scan terminates.  For every haystack `v`, needle `s` and start
position `pos` inside `v`: each round of the loop in `Match` that does not return moves
the scan start strictly forward, to one past the rejected candidate, and never past
`hend = length - needle.length + 1` (counted from the start of the scan); the loop
therefore stops within `v.length - pos + 1` rounds, whatever larger bound is put on it,
with the result of `Match`, and `find` performs at most `v.length - pos` candidate
confirmations.  Here `hL` says that the length of `v` is a `size_type` value. -/
theorem match_scan_terminates (mem : Mem) (v s : string_view) (pos rounds : Nat)
    (hL : v.length_ ≤ npos) (hpos : pos < v.length_) (hr : v.length_ - pos < rounds) :
    (∀ ph m, memchr mem ph (mem s.ptr_)
        (v.ptr_ + pos + (v.length_ - pos) - s.length_ + 1 - ph) = some m →
      ph < m + 1 ∧ m + 1 ≤ v.ptr_ + pos + (v.length_ - pos) - s.length_ + 1) ∧
    (∃ k, Match_run mem (v.ptr_ + pos) (size_sub v.length_ pos) s.ptr_ s.length_ rounds =
        some (Match mem (v.ptr_ + pos) (size_sub v.length_ pos) s.ptr_ s.length_, k) ∧
      k ≤ v.length_ - pos) := by
  refine ⟨fun ph m h => scan_progress mem _ ph _ m h, ?_⟩
  rw [size_sub_eq (Nat.le_of_lt hpos) hL]
  exact Match_run_spec mem (v.ptr_ + pos) (v.length_ - pos) s.ptr_ s.length_ rounds hr

theorem match_scan_terminates_witness :
    Match_run (mem2 "cccccccd" "cd") 16 8 32 2 9 = some (some 22, 7) ∧
    (string_view.mk 16 8).find (mem2 "cccccccd" "cd") ⟨32, 2⟩ 0 = 6 ∧
    (∃ k, Match_run (mem2 "cccccccd" "cd") (16 + 0) (size_sub 8 0) 32 2 9 =
        some (Match (mem2 "cccccccd" "cd") (16 + 0) (size_sub 8 0) 32 2, k) ∧
      k ≤ 8 - 0) :=
  ⟨by decide, by decide,
    (match_scan_terminates (mem2 "cccccccd" "cd") ⟨16, 8⟩ ⟨32, 2⟩ 0 9
      (by decide) (by decide) (by decide)).2⟩

end absl

/-! ## No subtraction wraps and no read leaves the view -/

namespace absl

theorem size_sub_chk_eq {a b : Nat} (h : b ≤ a) : size_sub_chk a b = some (size_sub a b) := by
  unfold size_sub_chk
  rw [if_pos h]

theorem ptr_diff_chk_eq {p q : Nat} (h : q ≤ p) : ptr_diff_chk p q = some (p - q) := by
  unfold ptr_diff_chk
  rw [if_pos h]

theorem in_view_iff (w : string_view) (p n : Nat) :
    in_view w p n = true ↔ w.ptr_ ≤ p ∧ p + n ≤ w.ptr_ + w.length_ := by
  unfold in_view
  rw [decide_eq_true_iff]

theorem at_pre_iff (w : string_view) (i : Nat) : w.at_pre i = true ↔ i < w.length_ := by
  unfold string_view.at_pre
  rw [decide_eq_true_iff]

/-- Inside the view every check of the loop of `Match` passes. -/
theorem MatchLoop_chk_eq (mem : Mem) (v s : string_view) (hend fuel ph : Nat)
    (hn : 0 < s.length_) (h1 : v.ptr_ ≤ ph) (h2 : ph ≤ hend)
    (h3 : hend + s.length_ ≤ v.ptr_ + v.length_ + 1) :
    MatchLoop_chk mem v s hend fuel ph = some (MatchLoop mem s.ptr_ s.length_ hend fuel ph) := by
  have hin : ∀ q, v.ptr_ ≤ q → q ≤ hend → in_view v q (hend - q) = true := by
    intro q hq1 hq2
    rw [in_view_iff]
    omega
  induction fuel generalizing ph with
  | zero =>
    unfold MatchLoop_chk MatchLoop
    rw [if_pos ⟨h2, hin ph h1 h2⟩]
  | succ fuel ih =>
    unfold MatchLoop_chk MatchLoop
    rw [if_pos ⟨h2, hin ph h1 h2, (at_pre_iff s 0).2 hn⟩]
    cases hm : memchr mem ph (mem s.ptr_) (hend - ph) with
    | none => rfl
    | some m =>
      obtain ⟨a1, a2, _, _⟩ := memchr_some mem (mem s.ptr_) (hend - ph) ph m hm
      have c1 : in_view v m s.length_ = true := by
        rw [in_view_iff]
        omega
      have c2 : in_view s s.ptr_ s.length_ = true := by
        rw [in_view_iff]
        omega
      simp only []
      rw [if_pos ⟨c1, c2⟩]
      by_cases hc : memcmp mem m s.ptr_ s.length_ = 0
      · rw [if_pos hc, if_pos hc]
      · rw [if_neg hc, if_neg hc]
        exact ih (m + 1) (by omega) (by omega)

/-- Inside the view every check of `Match` passes. -/
theorem Match_chk_eq (mem : Mem) (v s : string_view) (ph hlen : Nat)
    (h1 : v.ptr_ ≤ ph) (h2 : ph + hlen ≤ v.ptr_ + v.length_) :
    Match_chk mem v s ph hlen = some (Match mem ph hlen s.ptr_ s.length_) := by
  unfold Match_chk Match
  by_cases hn : 0 = s.length_
  · rw [if_pos hn, if_pos hn]
  · rw [if_neg hn, if_neg hn]
    by_cases hlt : hlen < s.length_
    · rw [if_pos hlt, if_pos hlt]
    · rw [if_neg hlt, if_neg hlt, if_pos (by omega)]
      simp only []
      exact MatchLoop_chk_eq mem v s _ _ ph (by omega) h1 (by omega) (by omega)

/-- The pointer returned by `Match` does not lie below the start of the scan. -/
theorem Match_ge (mem : Mem) (ph hlen pn nlen r : Nat)
    (h : Match mem ph hlen pn nlen = some r) : ph ≤ r := by
  unfold Match at h
  by_cases hn : 0 = nlen
  · rw [if_pos hn] at h
    injection h with h
    omega
  · rw [if_neg hn] at h
    by_cases hlt : hlen < nlen
    · rw [if_pos hlt] at h
      cases h
    · rw [if_neg hlt] at h
      simp only [] at h
      exact ((MatchLoop_spec mem pn nlen _ (by omega) _ ph (Nat.le_refl _)).1 r h).1

/-- When every index of the view passes the check, the checked forward scan is the scan. -/
theorem for_up_chk_eq (inb P : Nat → Bool) (L fuel i : Nat)
    (hin : ∀ j, j < L → inb j = true) :
    for_up_chk inb P L fuel i = some (for_up P L fuel i) := by
  induction fuel generalizing i with
  | zero => rfl
  | succ fuel ih =>
    unfold for_up_chk for_up
    by_cases hi : i < L
    · rw [if_pos hi, if_pos hi, if_pos (hin i hi)]
      by_cases hp : P i = true
      · rw [if_pos hp, if_pos hp]
      · rw [if_neg hp, if_neg hp]
        exact ih (i + 1)
    · rw [if_neg hi, if_neg hi]

/-- When every index up to the start passes the check, the checked backward scan is the
scan. -/
theorem for_down_chk_eq (inb P : Nat → Bool) (n : Nat)
    (hin : ∀ j, j ≤ n → inb j = true) :
    for_down_chk inb P n = some (for_down P n) := by
  induction n with
  | zero => rfl
  | succ n ih =>
    unfold for_down_chk for_down
    rw [if_pos (hin (n + 1) (Nat.le_refl _))]
    by_cases hp : P (n + 1) = true
    · rw [if_pos hp, if_pos hp]
    · rw [if_neg hp, if_neg hp]
      exact ih (fun j hj => hin j (by omega))

/-- The constructor of `LookupTable` reads indices of the pattern only. -/
theorem build_chk_eq (mem : Mem) (s : string_view) :
    LookupTable.build_chk mem s = some (LookupTable.build mem s) := by
  unfold LookupTable.build_chk
  rw [if_pos]
  rw [List.all_eq_true]
  intro i hi
  rw [at_pre_iff]
  exact List.mem_range.1 hi

end absl

namespace absl

theorem find_end_scan_ge (mem : Mem) (first last s_first n k : Nat) (h : first ≤ last) :
    first ≤ find_end_scan mem first last s_first n k := by
  induction k with
  | zero => exact h
  | succ k ih =>
    unfold find_end_scan
    split
    · omega
    · exact ih

theorem find_end_ge (mem : Mem) (first last s_first s_last : Nat) (h : first ≤ last) :
    first ≤ find_end mem first last s_first s_last := by
  unfold find_end
  split
  · exact h
  · split
    · exact h
    · exact find_end_scan_ge mem first last s_first _ _ h

theorem find_chk_eq (mem : Mem) (v s : string_view) (pos : Nat) (hL : v.length_ ≤ npos) :
    v.find_chk mem s pos = some (v.find mem s pos) := by
  unfold string_view.find_chk string_view.find
  by_cases hc : (v.empty || decide (pos ≥ v.length_)) = true
  · rw [if_pos hc, if_pos hc]
  · rw [if_neg hc, if_neg hc]
    have hpos : pos < v.length_ := by
      simp only [Bool.or_eq_true, decide_eq_true_eq, not_or] at hc
      omega
    rw [size_sub_chk_eq (Nat.le_of_lt hpos), size_sub_eq (Nat.le_of_lt hpos) hL]
    simp only [Option.some_bind]
    rw [Match_chk_eq mem v s _ _ (by omega) (by omega)]
    simp only [Option.some_bind]
    cases hm : Match mem (v.ptr_ + pos) (v.length_ - pos) s.ptr_ s.length_ with
    | none => rfl
    | some r =>
      have := Match_ge mem _ _ _ _ r hm
      exact ptr_diff_chk_eq (by omega)

theorem find_char_chk_eq (mem : Mem) (v : string_view) (c : UInt8) (pos : Nat)
    (hL : v.length_ ≤ npos) : v.find_char_chk mem c pos = some (v.find_char mem c pos) := by
  unfold string_view.find_char_chk string_view.find_char
  by_cases hc : (v.empty || decide (pos ≥ v.length_)) = true
  · rw [if_pos hc, if_pos hc]
  · rw [if_neg hc, if_neg hc]
    have hpos : pos < v.length_ := by
      simp only [Bool.or_eq_true, decide_eq_true_eq, not_or] at hc
      omega
    rw [size_sub_chk_eq (Nat.le_of_lt hpos), size_sub_eq (Nat.le_of_lt hpos) hL]
    simp only [Option.some_bind]
    have hin : in_view v (v.ptr_ + pos) (v.length_ - pos) = true := by
      rw [in_view_iff]
      omega
    rw [if_pos hin]
    cases hm : memchr mem (v.ptr_ + pos) c (v.length_ - pos) with
    | none => rfl
    | some r =>
      obtain ⟨a1, _, _, _⟩ := memchr_some mem c _ _ r hm
      exact ptr_diff_chk_eq (by omega)

theorem rfind_chk_eq (mem : Mem) (v s : string_view) (pos : Nat) (hL : v.length_ ≤ npos) :
    v.rfind_chk mem s pos = some (v.rfind mem s pos) := by
  unfold string_view.rfind_chk string_view.rfind
  by_cases hlt : v.length_ < s.length_
  · rw [if_pos hlt, if_pos hlt]
  · rw [if_neg hlt, if_neg hlt]
    by_cases hs : s.empty = true
    · rw [if_pos hs, if_pos hs]
    · rw [if_neg hs, if_neg hs]
      have hfit : s.length_ ≤ v.length_ := by omega
      rw [size_sub_chk_eq hfit, size_sub_eq hfit hL]
      simp only [Option.some_bind]
      have hmin := Nat.min_le_left (v.length_ - s.length_) pos
      have c1 : in_view v v.ptr_
          (v.ptr_ + min (v.length_ - s.length_) pos + s.length_ - v.ptr_) = true := by
        rw [in_view_iff]
        omega
      have c2 : in_view s s.ptr_ (s.ptr_ + s.length_ - s.ptr_) = true := by
        rw [in_view_iff]
        omega
      rw [if_pos ⟨c1, c2⟩]
      by_cases hr : find_end mem v.ptr_ (v.ptr_ + min (v.length_ - s.length_) pos + s.length_)
          s.ptr_ (s.ptr_ + s.length_) ≠ v.ptr_ + min (v.length_ - s.length_) pos + s.length_
      · rw [if_pos hr, if_pos hr]
        exact ptr_diff_chk_eq (find_end_ge mem _ _ _ _ (by omega))
      · rw [if_neg hr, if_neg hr]

/-- The shape shared by the four backward scans, checked against unchecked. -/
theorem down_chk_eq (v : string_view) (P : Nat → Bool) (pos : Nat) (z : Nat)
    (hL : v.length_ ≤ npos) (hv : 0 < v.length_) :
    ((size_sub_chk v.length_ 1).bind fun d =>
      (for_down_chk v.at_pre P (min pos d)).bind fun r =>
      match r with
      | some i => some i
      | none => if v.at_pre 0 then some z else none) =
    some (match for_down P (min pos (size_sub v.length_ 1)) with
      | some i => i
      | none => z) := by
  rw [size_sub_chk_eq hv, size_sub_eq hv hL]
  simp only [Option.some_bind]
  have hmin := Nat.min_le_right pos (v.length_ - 1)
  rw [for_down_chk_eq v.at_pre P _ (fun j hj => (at_pre_iff v j).2 (by omega))]
  simp only [Option.some_bind]
  cases for_down P (min pos (v.length_ - 1)) with
  | some i => rfl
  | none =>
    simp only []
    rw [if_pos ((at_pre_iff v 0).2 hv)]

/-- The shape shared by the forward scans, checked against unchecked. -/
theorem up_chk_eq (v : string_view) (P : Nat → Bool) (pos : Nat) :
    ((for_up_chk v.at_pre P v.length_ (v.length_ - pos) pos).bind fun r =>
      match r with
      | some i => some i
      | none => some npos) =
    some (match for_up P v.length_ (v.length_ - pos) pos with
      | some i => i
      | none => npos) := by
  rw [for_up_chk_eq v.at_pre P _ _ _ (fun j hj => (at_pre_iff v j).2 hj)]
  simp only [Option.some_bind]
  cases for_up P v.length_ (v.length_ - pos) pos with
  | some i => rfl
  | none => rfl

end absl

namespace absl

theorem not_empty_pos (v : string_view) (h : ¬ v.empty = true) : 0 < v.length_ := by
  simp only [string_view.empty, beq_iff_eq] at h
  omega

theorem rfind_char_chk_eq (mem : Mem) (v : string_view) (c : UInt8) (pos : Nat)
    (hL : v.length_ ≤ npos) : v.rfind_char_chk mem c pos = some (v.rfind_char mem c pos) := by
  unfold string_view.rfind_char_chk string_view.rfind_char
  by_cases he : v.empty = true
  · rw [if_pos he, if_pos he]
  · rw [if_neg he, if_neg he]
    exact down_chk_eq v _ pos _ hL (not_empty_pos v he)

theorem find_first_not_of_char_chk_eq (mem : Mem) (v : string_view) (c : UInt8) (pos : Nat) :
    v.find_first_not_of_char_chk mem c pos = some (v.find_first_not_of_char mem c pos) := by
  unfold string_view.find_first_not_of_char_chk string_view.find_first_not_of_char
  by_cases he : v.empty = true
  · rw [if_pos he, if_pos he]
  · rw [if_neg he, if_neg he]
    exact up_chk_eq v _ pos

theorem find_last_not_of_char_chk_eq (mem : Mem) (v : string_view) (c : UInt8) (pos : Nat)
    (hL : v.length_ ≤ npos) :
    v.find_last_not_of_char_chk mem c pos = some (v.find_last_not_of_char mem c pos) := by
  unfold string_view.find_last_not_of_char_chk string_view.find_last_not_of_char
  by_cases he : v.empty = true
  · rw [if_pos he, if_pos he]
  · rw [if_neg he, if_neg he]
    exact down_chk_eq v _ pos _ hL (not_empty_pos v he)

theorem find_first_of_chk_eq (mem : Mem) (v s : string_view) (pos : Nat)
    (hL : v.length_ ≤ npos) : v.find_first_of_chk mem s pos = some (v.find_first_of mem s pos) := by
  unfold string_view.find_first_of_chk string_view.find_first_of
  by_cases he : (v.empty || s.empty) = true
  · rw [if_pos he, if_pos he]
  · rw [if_neg he, if_neg he]
    by_cases h1 : s.length_ = 1
    · rw [if_pos h1, if_pos h1, if_pos ((at_pre_iff s 0).2 (by omega))]
      exact find_char_chk_eq mem v _ pos hL
    · rw [if_neg h1, if_neg h1, build_chk_eq]
      simp only [Option.some_bind]
      exact up_chk_eq v _ pos

theorem find_last_of_chk_eq (mem : Mem) (v s : string_view) (pos : Nat)
    (hL : v.length_ ≤ npos) : v.find_last_of_chk mem s pos = some (v.find_last_of mem s pos) := by
  unfold string_view.find_last_of_chk string_view.find_last_of
  by_cases he : (v.empty || s.empty) = true
  · rw [if_pos he, if_pos he]
  · rw [if_neg he, if_neg he]
    have hv : 0 < v.length_ := by
      simp only [Bool.or_eq_true, not_or] at he
      exact not_empty_pos v he.1
    by_cases h1 : s.length_ = 1
    · rw [if_pos h1, if_pos h1, if_pos ((at_pre_iff s 0).2 (by omega))]
      exact rfind_char_chk_eq mem v _ pos hL
    · rw [if_neg h1, if_neg h1, build_chk_eq]
      simp only [Option.some_bind]
      exact down_chk_eq v _ pos _ hL hv

theorem find_first_not_of_chk_eq (mem : Mem) (v s : string_view) (pos : Nat) :
    v.find_first_not_of_chk mem s pos = some (v.find_first_not_of mem s pos) := by
  unfold string_view.find_first_not_of_chk string_view.find_first_not_of
  by_cases he : v.empty = true
  · rw [if_pos he, if_pos he]
  · rw [if_neg he, if_neg he]
    by_cases hs : s.empty = true
    · rw [if_pos hs, if_pos hs]
    · rw [if_neg hs, if_neg hs]
      by_cases h1 : s.length_ = 1
      · rw [if_pos h1, if_pos h1, if_pos ((at_pre_iff s 0).2 (by omega))]
        exact find_first_not_of_char_chk_eq mem v _ pos
      · rw [if_neg h1, if_neg h1, build_chk_eq]
        simp only [Option.some_bind]
        exact up_chk_eq v _ pos

theorem find_last_not_of_chk_eq (mem : Mem) (v s : string_view) (pos : Nat)
    (hL : v.length_ ≤ npos) :
    v.find_last_not_of_chk mem s pos = some (v.find_last_not_of mem s pos) := by
  unfold string_view.find_last_not_of_chk string_view.find_last_not_of
  by_cases he : v.empty = true
  · rw [if_pos he, if_pos he]
  · rw [if_neg he, if_neg he]
    have hv := not_empty_pos v he
    by_cases hs : s.empty = true
    · rw [if_pos hs, if_pos hs, size_sub_chk_eq hv]
      rfl
    · rw [if_neg hs, if_neg hs]
      by_cases h1 : s.length_ = 1
      · rw [if_pos h1, if_pos h1, if_pos ((at_pre_iff s 0).2 (by omega))]
        exact find_last_not_of_char_chk_eq mem v _ pos hL
      · rw [if_neg h1, if_neg h1, build_chk_eq]
        simp only [Option.some_bind]
        exact down_chk_eq v _ pos _ hL hv

theorem substr_chk_eq (v : string_view) (pos n : Nat) :
    v.substr_chk pos n = some (v.substr pos n) := by
  unfold string_view.substr_chk string_view.substr
  simp only []
  have hp : (if pos > v.length_ then v.length_ else pos) ≤ v.length_ := by
    split <;> omega
  rw [size_sub_chk_eq hp]
  rfl

theorem copy_chk_eq (mem : Mem) (v : string_view) (dest n pos : Nat) (hL : v.length_ ≤ npos) :
    v.copy_chk mem dest n pos = some (v.copy mem dest n pos) := by
  unfold string_view.copy_chk string_view.copy
  simp only []
  generalize hq : (if pos > v.length_ then v.length_ else pos) = q
  have hp : q ≤ v.length_ := by
    rw [← hq]
    split <;> omega
  rw [size_sub_chk_eq hp]
  simp only [Option.some_bind]
  rw [if_pos]
  rw [in_view_iff, size_sub_eq hp hL]
  constructor
  · omega
  · split <;> omega

end absl

namespace absl

/-- C31: search operations are total and stay in bounds.  For every view `v`, pattern `s`
and `pos`, each of `find`, `rfind`, `find_first_of`, `find_last_of`, `find_first_not_of`,
`find_last_not_of`, `copy` and `substr` returns its result with every check passed: every
unsigned subtraction it evaluates (`length - pos`, `length - 1`, `length - s.length`,
`hlen - nlen + 1`, and the pointer differences) has a minuend at least as large as its
subtrahend, and every byte it reads lies in `[0, v.length)` for the view and in
`[0, s.length)` for the pattern.  Here `hL` says that the length of `v` is a `size_type`
value. -/
theorem search_stays_in_bounds (mem : Mem) (v s : string_view) (pos dest n : Nat)
    (hL : v.length_ ≤ npos) :
    v.find_chk mem s pos = some (v.find mem s pos) ∧
    v.rfind_chk mem s pos = some (v.rfind mem s pos) ∧
    v.find_first_of_chk mem s pos = some (v.find_first_of mem s pos) ∧
    v.find_last_of_chk mem s pos = some (v.find_last_of mem s pos) ∧
    v.find_first_not_of_chk mem s pos = some (v.find_first_not_of mem s pos) ∧
    v.find_last_not_of_chk mem s pos = some (v.find_last_not_of mem s pos) ∧
    v.copy_chk mem dest n pos = some (v.copy mem dest n pos) ∧
    v.substr_chk pos n = some (v.substr pos n) :=
  ⟨find_chk_eq mem v s pos hL, rfind_chk_eq mem v s pos hL,
    find_first_of_chk_eq mem v s pos hL, find_last_of_chk_eq mem v s pos hL,
    find_first_not_of_chk_eq mem v s pos, find_last_not_of_chk_eq mem v s pos hL,
    copy_chk_eq mem v dest n pos hL, substr_chk_eq v pos n⟩

theorem search_stays_in_bounds_witness :
    (string_view.mk 16 8).find_chk (mem2 "abcdecde" "cd") ⟨32, 2⟩ 3 = some 5 ∧
    Match_chk (mem2 "abcdecde" "cd") ⟨16, 8⟩ ⟨32, 2⟩ 19 8 = none ∧
    size_sub_chk 3 5 = none ∧
    ((string_view.mk 16 8).find_chk (mem2 "abcdecde" "cd") ⟨32, 2⟩ npos =
        some ((string_view.mk 16 8).find (mem2 "abcdecde" "cd") ⟨32, 2⟩ npos) ∧
      (string_view.mk 16 8).rfind_chk (mem2 "abcdecde" "cd") ⟨32, 2⟩ npos =
        some ((string_view.mk 16 8).rfind (mem2 "abcdecde" "cd") ⟨32, 2⟩ npos) ∧
      (string_view.mk 16 8).find_first_of_chk (mem2 "abcdecde" "cd") ⟨32, 2⟩ npos =
        some ((string_view.mk 16 8).find_first_of (mem2 "abcdecde" "cd") ⟨32, 2⟩ npos) ∧
      (string_view.mk 16 8).find_last_of_chk (mem2 "abcdecde" "cd") ⟨32, 2⟩ npos =
        some ((string_view.mk 16 8).find_last_of (mem2 "abcdecde" "cd") ⟨32, 2⟩ npos) ∧
      (string_view.mk 16 8).find_first_not_of_chk (mem2 "abcdecde" "cd") ⟨32, 2⟩ npos =
        some ((string_view.mk 16 8).find_first_not_of (mem2 "abcdecde" "cd") ⟨32, 2⟩ npos) ∧
      (string_view.mk 16 8).find_last_not_of_chk (mem2 "abcdecde" "cd") ⟨32, 2⟩ npos =
        some ((string_view.mk 16 8).find_last_not_of (mem2 "abcdecde" "cd") ⟨32, 2⟩ npos) ∧
      (string_view.mk 16 8).copy_chk (mem2 "abcdecde" "cd") 48 9 npos =
        some ((string_view.mk 16 8).copy (mem2 "abcdecde" "cd") 48 9 npos) ∧
      (string_view.mk 16 8).substr_chk npos 9 = some ((string_view.mk 16 8).substr npos 9)) :=
  ⟨by decide, by decide, by decide,
    search_stays_in_bounds (mem2 "abcdecde" "cd") ⟨16, 8⟩ ⟨32, 2⟩ npos 48 9 (by decide)⟩

end absl
